import Mathlib

/-
  Verification development for the csort indexed skip list
  (the span-augmented, member-indexed variant of the source).

  The embedding is a shallow arena model: nodes live in a list indexed by
  allocation id (the id plays the role of a Go pointer; ids are never
  reused, a removed node simply becomes unreachable garbage, exactly as a
  Go heap object does once unlinked).  Loops of the source that follow
  forward pointers are modelled as fuel-bounded recursions; the fuel is
  the arena size, an upper bound on the length of any pointer chain that
  visits distinct nodes.  The random level drawn by randomLevel is
  modelled by a stream of Booleans, one per evaluation of the condition
  rand.Float64() < p in the source.  The sync.RWMutex fields only
  serialize calls and carry no data, so they have no counterpart here.
-/

set_option linter.unusedVariables false

namespace Csort

/-- Go compares strings byte-lexicographically; on valid UTF-8 that order
coincides with lexicographic comparison of the decoded character
sequences, which this structural function computes. -/
def charListLt : List Char → List Char → Bool
  | [], [] => false
  | [], _ :: _ => true
  | _ :: _, [] => false
  | a :: as, b :: bs => a < b || (a == b && charListLt as bs)

/-- Comparison of members, modelling the Go < on strings. -/
def strLt (a b : String) : Bool := charListLt a.data b.data

/-- Comparison of members, modelling the Go <= on strings. -/
def strLe (a b : String) : Bool := strLt a b || a == b

/-- compare: the three-way comparison of two scores, modelling big.Rat.Cmp
(-1 when a < b, 0 when a == b, 1 when a > b).  Scores are exact rationals
in the source (math/big.Rat), so ℚ models them with no loss. -/
def compare (a b : ℚ) : Int := if a < b then -1 else if b < a then 1 else 0

/-- maxLevel: fixed at 32 by NewSkipList. -/
def maxLevel : Nat := 32

/-- skipNode: member, score, forward pointer array, span array, backward
pointer, level.  Pointers are arena ids (Option Nat, none = nil). -/
structure SNode where
  member : String
  score : ℚ
  forward : List (Option Nat)
  span : List Int
  backward : Option Nat
  level : Nat
deriving Repr, DecidableEq

/-- The value a dangling arena read returns; unreachable under the
invariant, present only to make the accessors total. -/
def emptyNode : SNode :=
  { member := "", score := 0, forward := [], span := [], backward := none, level := 0 }

/-- The head sentinel allocated by NewSkipList (and by Clear): forward and
span arrays of size maxLevel, no member, score or backward pointer. -/
def headNode : SNode :=
  { member := "", score := 0, forward := List.replicate maxLevel none,
    span := List.replicate maxLevel 0, backward := none, level := 0 }

/-- SkipList: the arena of every node ever allocated plus the head id,
tail pointer, length, current level and the member → node index. -/
structure SkipList where
  nodes : List SNode
  head : Nat
  tail : Option Nat
  length : Int
  level : Nat
  memberMap : List (String × Nat)
deriving Repr, DecidableEq

/-- Dereference an arena id. -/
def getNode (s : SkipList) (id : Nat) : SNode := s.nodes.getD id emptyNode

/-- node.forward[i] of the node with the given id. -/
def fwd (s : SkipList) (id i : Nat) : Option Nat := (getNode s id).forward.getD i none

/-- node.span[i] of the node with the given id. -/
def spn (s : SkipList) (id i : Nat) : Int := (getNode s id).span.getD i 0

/-- In-place mutation of one arena node. -/
def updNode (s : SkipList) (id : Nat) (f : SNode → SNode) : SkipList :=
  { s with nodes := s.nodes.set id (f (getNode s id)) }

/-- node.forward[i] = v. -/
def setFwd (s : SkipList) (id i : Nat) (v : Option Nat) : SkipList :=
  updNode s id (fun n => { n with forward := n.forward.set i v })

/-- node.span[i] = v. -/
def setSpn (s : SkipList) (id i : Nat) (v : Int) : SkipList :=
  updNode s id (fun n => { n with span := n.span.set i v })

/-- node.backward = v. -/
def setBwd (s : SkipList) (id : Nat) (v : Option Nat) : SkipList :=
  updNode s id (fun n => { n with backward := v })

/-- memberMap lookup (Go map read with ok-flag). -/
def mmLookup (mm : List (String × Nat)) (m : String) : Option Nat :=
  (mm.find? (fun p => p.1 == m)).map (fun p => p.2)

/-- delete(memberMap, m). -/
def mmErase (mm : List (String × Nat)) (m : String) : List (String × Nat) :=
  mm.filter (fun p => !(p.1 == m))

/-- memberMap[m] = id. -/
def mmInsert (mm : List (String × Nat)) (m : String) (id : Nat) : List (String × Nat) :=
  (m, id) :: mmErase mm m

/-- NewSkipList: head sentinel at arena id 0, level 1, empty index. -/
def newSkipList : SkipList :=
  { nodes := [headNode], head := 0, tail := none, length := 0, level := 1, memberMap := [] }

/-- randomLevel's loop: level starts at 1 and is incremented while
level < maxLevel and the next random draw succeeds.  Each Boolean of the
stream is one evaluation of rand.Float64() < p; an exhausted stream
behaves as a failing draw. -/
def randomLevelLoop : Nat → List Bool → Nat
  | level, [] => level
  | level, c :: cs => if level < maxLevel && c then randomLevelLoop (level + 1) cs else level

/-- randomLevel. -/
def randomLevel (coins : List Bool) : Nat := randomLevelLoop 1 coins

/-- The inner loop of insertInternal's search at one level i: advance along
forward[i] while the next node's (score, member) entry is strictly below
the key, accumulating spans into rank. -/
def insSearch (s : SkipList) (score : ℚ) (member : String) (i : Nat) :
    Nat → Nat → Int → Nat × Int
  | 0, node, rank => (node, rank)
  | fuel + 1, node, rank =>
    match fwd s node i with
    | none => (node, rank)
    | some nxt =>
      let c := compare (getNode s nxt).score score
      if c < 0 ∨ (c = 0 ∧ strLt (getNode s nxt).member member) then
        insSearch s score member i fuel nxt (rank + spn s node i)
      else (node, rank)

/-- The outer search loop of insertInternal, from level sl.level-1 down to
level 0, recording update[i] and rank[i]; the running node and rank resume
at the next level exactly as in the source (rank[i] starts from
rank[i+1]). -/
def insFindLoop (s : SkipList) (score : ℚ) (member : String) :
    List Nat → Nat → Int → List Nat → List Int → List Nat × List Int
  | [], _, _, upd, rnk => (upd, rnk)
  | i :: rest, node, rank, upd, rnk =>
    match insSearch s score member i s.nodes.length node rank with
    | (node', rank') =>
      insFindLoop s score member rest node' rank' (upd.set i node') (rnk.set i rank')

/-- The new-top-level loop of insertInternal: for each fresh level i set
rank[i] = 0, update[i] = head and head.span[i] = sl.length. -/
def insRaise : SkipList → List Nat → List Int → List Nat → SkipList × List Nat × List Int
  | s, upd, rnk, [] => (s, upd, rnk)
  | s, upd, rnk, i :: rest =>
    insRaise (setSpn s s.head i s.length) (upd.set i s.head) (rnk.set i 0) rest

/-- The pointer/span rewiring loop of insertInternal over levels
0 ≤ i < newLevel:
newNode.forward[i] = update[i].forward[i]; update[i].forward[i] = newNode;
newNode.span[i] = update[i].span[i] - (rank[0] - rank[i]);
update[i].span[i] = rank[0] - rank[i] + 1. -/
def insRewire (newId : Nat) (upd : List Nat) (rnk : List Int) (rank0 : Int) :
    SkipList → List Nat → SkipList
  | s, [] => s
  | s, i :: rest =>
    let u := upd.getD i s.head
    let s1 := setFwd s newId i (fwd s u i)
    let s2 := setFwd s1 u i (some newId)
    let s3 := setSpn s2 newId i (spn s2 u i - (rank0 - rnk.getD i 0))
    let s4 := setSpn s3 u i (rank0 - rnk.getD i 0 + 1)
    insRewire newId upd rnk rank0 s4 rest

/-- The remaining-levels loop of insertInternal: update[i].span[i]++ for
newLevel ≤ i < sl.level. -/
def insBump (upd : List Nat) : SkipList → List Nat → SkipList
  | s, [] => s
  | s, i :: rest =>
    insBump upd (setSpn s (upd.getD i s.head) i (spn s (upd.getD i s.head) i + 1)) rest

/-- The part of insertInternal after the new-top-level block, once the
update and rank arrays and the drawn level are fixed: allocate the node,
rewire pointers and spans over levels 0 ≤ i < newLevel, bump the spans of
the untouched levels, fix the backward pointer and the tail, and finally
bump the length and index the member. -/
def insertCore (s1 : SkipList) (member : String) (score : ℚ) (newLevel : Nat)
    (upd : List Nat) (rnk : List Int) : SkipList :=
  let newId := s1.nodes.length
  let s2 := { s1 with nodes := s1.nodes ++
    [{ member := member, score := score, forward := List.replicate newLevel none,
       span := List.replicate newLevel 0, backward := none, level := newLevel }] }
  let s3 := insRewire newId upd rnk (rnk.getD 0 0) s2 (List.range newLevel)
  let s4 := insBump upd s3 ((List.range s3.level).drop newLevel)
  let s5 := if upd.getD 0 s4.head ≠ s4.head then setBwd s4 newId (some (upd.getD 0 s4.head)) else s4
  let s6 :=
    match fwd s5 newId 0 with
    | some nxt => setBwd s5 nxt (some newId)
    | none => { s5 with tail := some newId }
  { s6 with length := s6.length + 1, memberMap := mmInsert s6.memberMap member newId }

/-- The body of insertInternal after the already-present check: search,
draw the level, open new levels if needed, then insertCore. -/
def insertMain (s : SkipList) (member : String) (score : ℚ) (coins : List Bool) : SkipList :=
  let fr := insFindLoop s score member (List.range s.level).reverse s.head 0
    (List.replicate maxLevel s.head) (List.replicate maxLevel 0)
  let newLevel := randomLevel coins
  let r :=
    if s.level < newLevel then
      let t := insRaise s fr.1 fr.2 ((List.range newLevel).drop s.level)
      ({ t.1 with level := newLevel }, t.2.1, t.2.2)
    else (s, fr.1, fr.2)
  insertCore r.1 member score newLevel r.2.1 r.2.2

/-- The inner loop of deleteByNode's search at level i: advance while the
next pointer is neither the target nor at/after the target's entry. -/
def delSearch (s : SkipList) (target : Nat) (i : Nat) : Nat → Nat → Nat
  | 0, node => node
  | fuel + 1, node =>
    match fwd s node i with
    | none => node
    | some nxt =>
      if nxt = target then node
      else
        let c := compare (getNode s nxt).score (getNode s target).score
        if c < 0 ∨ (c = 0 ∧ strLt (getNode s nxt).member (getNode s target).member) then
          delSearch s target i fuel nxt
        else node

/-- The outer search loop of deleteByNode, recording update[i] per level. -/
def delFindLoop (s : SkipList) (target : Nat) : List Nat → Nat → List Nat → List Nat
  | [], _, upd => upd
  | i :: rest, node, upd =>
    let node' := delSearch s target i s.nodes.length node
    delFindLoop s target rest node' (upd.set i node')

/-- deleteNode's rewiring loop.  NOTE: the source iterates
for i := 0; i < node.level; i++ (the removed node's own level), not up to
sl.level; this bound is translated as found. -/
def deleteRewire (nodeId : Nat) (upd : List Nat) : SkipList → List Nat → SkipList
  | s, [] => s
  | s, i :: rest =>
    let u := upd.getD i s.head
    let s' :=
      if fwd s u i = some nodeId then
        setFwd (setSpn s u i (spn s u i + spn s nodeId i - 1)) u i (fwd s nodeId i)
      else setSpn s u i (spn s u i - 1)
    deleteRewire nodeId upd s' rest

/-- deleteNode's level-collapse loop: while sl.level > 1 and
head.forward[sl.level-1] == nil, sl.level--. -/
def shrinkLevel (s : SkipList) : Nat → Nat
  | 0 => 0
  | 1 => 1
  | l + 2 => if fwd s s.head (l + 1) = none then shrinkLevel s (l + 1) else l + 2

/-- deleteNode: rewire levels 0 ≤ i < node.level, fix the successor's
backward pointer or the tail, collapse empty top levels, remove the
member from the index and decrement the length. -/
def deleteNode (s : SkipList) (nodeId : Nat) (upd : List Nat) : SkipList :=
  let s1 := deleteRewire nodeId upd s (List.range (getNode s nodeId).level)
  let s2 :=
    match fwd s1 nodeId 0 with
    | some nxt => setBwd s1 nxt (getNode s1 nodeId).backward
    | none => { s1 with tail := (getNode s1 nodeId).backward }
  let s3 := { s2 with level := shrinkLevel s2 s2.level }
  { s3 with memberMap := mmErase s3.memberMap (getNode s3 nodeId).member,
            length := s3.length - 1 }

/-- deleteByNode: search for the target's update frontier, then deleteNode. -/
def deleteByNode (s : SkipList) (target : Nat) : SkipList :=
  let upd := delFindLoop s target (List.range s.level).reverse s.head
    (List.replicate maxLevel s.head)
  deleteNode s target upd

/-- insertInternal: if the member is present with an equal score do
nothing; if present with a different score remove the old node first;
then insert. -/
def insertInternal (s : SkipList) (member : String) (score : ℚ) (coins : List Bool) : SkipList :=
  match mmLookup s.memberMap member with
  | some nid =>
    if compare (getNode s nid).score score = 0 then s
    else insertMain (deleteByNode s nid) member score coins
  | none => insertMain s member score coins

/-- Insert (the public wrapper only takes the lock). -/
def Insert (s : SkipList) (member : String) (score : ℚ) (coins : List Bool) : SkipList :=
  insertInternal s member score coins

/-- Delete: false when the member is absent or the stored score differs,
otherwise remove and return true. -/
def Delete (s : SkipList) (member : String) (score : ℚ) : Bool × SkipList :=
  match mmLookup s.memberMap member with
  | none => (false, s)
  | some nid =>
    if ¬ compare (getNode s nid).score score = 0 then (false, s)
    else (true, deleteByNode s nid)

/-- DeleteByMember: like Delete without the score check. -/
def DeleteByMember (s : SkipList) (member : String) : Bool × SkipList :=
  match mmLookup s.memberMap member with
  | none => (false, s)
  | some nid => (true, deleteByNode s nid)

/-- GetRank's inner loop at level i: advance while next ≤ (score, member),
accumulating spans; immediately return the accumulated rank (flag true)
when the node just reached carries the member. -/
def getRankLevel (s : SkipList) (score : ℚ) (member : String) (i : Nat) :
    Nat → Nat → Int → Nat × Int × Bool
  | 0, node, rank => (node, rank, false)
  | fuel + 1, node, rank =>
    match fwd s node i with
    | none => (node, rank, false)
    | some nxt =>
      let c := compare (getNode s nxt).score score
      if c < 0 ∨ (c = 0 ∧ strLe (getNode s nxt).member member) then
        if (getNode s nxt).member = member then (nxt, rank + spn s node i, true)
        else getRankLevel s score member i fuel nxt (rank + spn s node i)
      else (node, rank, false)

/-- GetRank's outer loop over levels; 0 when the member is never reached. -/
def getRankLoop (s : SkipList) (score : ℚ) (member : String) : List Nat → Nat → Int → Int
  | [], _, _ => 0
  | i :: rest, node, rank =>
    match getRankLevel s score member i s.nodes.length node rank with
    | (_, r, true) => r
    | (node', rank', false) => getRankLoop s score member rest node' rank'

/-- GetRank (1-based; 0 = not found). -/
def GetRank (s : SkipList) (member : String) (score : ℚ) : Int :=
  getRankLoop s score member (List.range s.level).reverse s.head 0

/-- The span-walk shared by GetByRank and getNodeByRankInternal at one
level: advance while traversed + span[i] ≤ rank. -/
def rankWalk (s : SkipList) (rank : Int) (i : Nat) : Nat → Nat → Int → Nat × Int
  | 0, node, tr => (node, tr)
  | fuel + 1, node, tr =>
    match fwd s node i with
    | none => (node, tr)
    | some nxt =>
      if tr + spn s node i ≤ rank then rankWalk s rank i fuel nxt (tr + spn s node i)
      else (node, tr)

/-- The level loop shared by GetByRank and getNodeByRankInternal: after
each level's walk, return the node when traversed == rank. -/
def rankLoop (s : SkipList) (rank : Int) : List Nat → Nat → Int → Option Nat
  | [], _, _ => none
  | i :: rest, node, tr =>
    match rankWalk s rank i s.nodes.length node tr with
    | (node', tr') => if tr' = rank then some node' else rankLoop s rank rest node' tr'

/-- GetByRank: absent outside [1, length], otherwise the span-guided
descent (its loop is textually the same as getNodeByRankInternal's). -/
def GetByRank (s : SkipList) (rank : Int) : Option (String × ℚ) :=
  if rank < 1 ∨ s.length < rank then none
  else
    match rankLoop s rank (List.range s.level).reverse s.head 0 with
    | some nid => some ((getNode s nid).member, (getNode s nid).score)
    | none => none

/-- getNodeByRankInternal: the same locate, returning the node id. -/
def getNodeByRankInternal (s : SkipList) (rank : Int) : Option Nat :=
  if rank < 1 ∨ s.length < rank then none
  else rankLoop s rank (List.range s.level).reverse s.head 0

/-- GetScore: O(1) through the member index. -/
def GetScore (s : SkipList) (member : String) : Option ℚ :=
  match mmLookup s.memberMap member with
  | none => none
  | some nid => some (getNode s nid).score

/-- All's level-0 walk, collecting (score, member) pairs. -/
def allLoop (s : SkipList) : Nat → Option Nat → List (ℚ × String)
  | 0, _ => []
  | _ + 1, none => []
  | fuel + 1, some nid =>
    ((getNode s nid).score, (getNode s nid).member) :: allLoop s fuel (fwd s nid 0)

/-- All: every entry in level-0 order. -/
def All (s : SkipList) : List (ℚ × String) := allLoop s s.nodes.length (fwd s s.head 0)

/-- Len. -/
def Len (s : SkipList) : Int := s.length

/-- Observation helper (not a source function): the ids visited by the
same level-0 walk that All performs. -/
def spineLoop (s : SkipList) : Nat → Option Nat → List Nat
  | 0, _ => []
  | _ + 1, none => []
  | fuel + 1, some nid => nid :: spineLoop s fuel (fwd s nid 0)

/-- Observation helper: the level-0 spine as a list of ids. -/
def spineIds (s : SkipList) : List Nat := spineLoop s s.nodes.length (fwd s s.head 0)

/-- Range's forward walk: collect along forward[0] while start <= stop
(the fuel counts the remaining values of start). -/
def rangeFwd (s : SkipList) : Nat → Option Nat → List (ℚ × String)
  | 0, _ => []
  | _ + 1, none => []
  | fuel + 1, some nid =>
    ((getNode s nid).score, (getNode s nid).member) :: rangeFwd s fuel (fwd s nid 0)

/-- Range's reverse walk: collect along backward while count > 0. -/
def rangeRev (s : SkipList) : Nat → Option Nat → List (ℚ × String)
  | 0, _ => []
  | _ + 1, none => []
  | fuel + 1, some nid =>
    ((getNode s nid).score, (getNode s nid).member) :: rangeRev s fuel (getNode s nid).backward

/-- Range: clamp start to ≥ 1 and stop to ≤ length, empty when
start > stop, locate the endpoint by rank and walk. -/
def Range (s : SkipList) (start stop : Int) (reverse : Bool) : List (ℚ × String) :=
  let start := if start < 1 then 1 else start
  let stop := if s.length < stop then s.length else stop
  if stop < start then []
  else if reverse then rangeRev s (stop - start + 1).toNat (getNodeByRankInternal s stop)
  else rangeFwd s (stop - start + 1).toNat (getNodeByRankInternal s start)

/-- The spine descent locating the last node before the first score ≥ min
(the same loop opens RangeByScore forward, CountByScore and
RemoveByScore): inner walk at one level. -/
def scoreWalk (s : SkipList) (minS : ℚ) (i : Nat) : Nat → Nat → Nat
  | 0, node => node
  | fuel + 1, node =>
    match fwd s node i with
    | none => node
    | some nxt =>
      if compare (getNode s nxt).score minS < 0 then scoreWalk s minS i fuel nxt else node

/-- The spine descent over levels. -/
def scoreDescend (s : SkipList) (minS : ℚ) : List Nat → Nat → Nat
  | [], node => node
  | i :: rest, node => scoreDescend s minS rest (scoreWalk s minS i s.nodes.length node)

/-- RangeByScore's forward collection while score ≤ max. -/
def rbsCollect (s : SkipList) (maxS : ℚ) : Nat → Option Nat → List (ℚ × String)
  | 0, _ => []
  | _ + 1, none => []
  | fuel + 1, some nid =>
    if compare (getNode s nid).score maxS ≤ 0 then
      ((getNode s nid).score, (getNode s nid).member) :: rbsCollect s maxS fuel (fwd s nid 0)
    else []

/-- RangeByScore's reverse pre-walk from tail while score > max. -/
def revSkipHigh (s : SkipList) (maxS : ℚ) : Nat → Option Nat → Option Nat
  | 0, node => node
  | _ + 1, none => none
  | fuel + 1, some nid =>
    if 0 < compare (getNode s nid).score maxS then revSkipHigh s maxS fuel (getNode s nid).backward
    else some nid

/-- RangeByScore's reverse collection while score ≥ min. -/
def rbsCollectRev (s : SkipList) (minS : ℚ) : Nat → Option Nat → List (ℚ × String)
  | 0, _ => []
  | _ + 1, none => []
  | fuel + 1, some nid =>
    if 0 ≤ compare (getNode s nid).score minS then
      ((getNode s nid).score, (getNode s nid).member) :: rbsCollectRev s minS fuel (getNode s nid).backward
    else []

/-- RangeByScore: both endpoints inclusive. -/
def RangeByScore (s : SkipList) (minS maxS : ℚ) (reverse : Bool) : List (ℚ × String) :=
  if reverse then rbsCollectRev s minS s.nodes.length (revSkipHigh s maxS s.nodes.length s.tail)
  else
    let n := scoreDescend s minS (List.range s.level).reverse s.head
    rbsCollect s maxS s.nodes.length (fwd s n 0)

/-- CountByScore's counting walk while score ≤ max. -/
def cbsCount (s : SkipList) (maxS : ℚ) : Nat → Option Nat → Int
  | 0, _ => 0
  | _ + 1, none => 0
  | fuel + 1, some nid =>
    if compare (getNode s nid).score maxS ≤ 0 then cbsCount s maxS fuel (fwd s nid 0) + 1
    else 0

/-- CountByScore: locate the first node with score ≥ min (the same
descent as RangeByScore's forward branch, duplicated in the source), then
count along level 0 while score ≤ max. -/
def CountByScore (s : SkipList) (minS maxS : ℚ) : Int :=
  let n := scoreDescend s minS (List.range s.level).reverse s.head
  cbsCount s maxS s.nodes.length (fwd s n 0)

/-- RemoveByScore's collection of the doomed nodes (ids). -/
def rbsCollectIds (s : SkipList) (maxS : ℚ) : Nat → Option Nat → List Nat
  | 0, _ => []
  | _ + 1, none => []
  | fuel + 1, some nid =>
    if compare (getNode s nid).score maxS ≤ 0 then nid :: rbsCollectIds s maxS fuel (fwd s nid 0)
    else []

/-- RemoveByScore: materialize the targets, then deleteByNode each. -/
def RemoveByScore (s : SkipList) (minS maxS : ℚ) : Int × SkipList :=
  let n := scoreDescend s minS (List.range s.level).reverse s.head
  let toDelete := rbsCollectIds s maxS s.nodes.length (fwd s n 0)
  ((toDelete.length : Int), toDelete.foldl deleteByNode s)

/-- RemoveByRank's loop: capture the successor, deleteByNode, advance
(the fuel counts the ranks start..stop still to remove). -/
def rbrLoop : Nat → SkipList → Option Nat → Int → Int × SkipList
  | 0, s, _, count => (count, s)
  | _ + 1, s, none, count => (count, s)
  | fuel + 1, s, some nid, count =>
    let nxt := fwd s nid 0
    rbrLoop fuel (deleteByNode s nid) nxt (count + 1)

/-- RemoveByRank: clamp, locate start by rank, remove stop-start+1 nodes. -/
def RemoveByRank (s : SkipList) (start stop : Int) : Int × SkipList :=
  let start := if start < 1 then 1 else start
  let stop := if s.length < stop then s.length else stop
  if stop < start then (0, s)
  else rbrLoop (stop - start + 1).toNat s (getNodeByRankInternal s start) 0

/-- IncrementBy: (prior score or 0) + delta through remove + re-insert;
always returns ok = true. -/
def IncrementBy (s : SkipList) (member : String) (increment : ℚ) (coins : List Bool) :
    ℚ × Bool × SkipList :=
  match mmLookup s.memberMap member with
  | none =>
    let newScore := increment
    (newScore, true, insertInternal s member newScore coins)
  | some nid =>
    let newScore := (getNode s nid).score + increment
    (newScore, true, insertInternal (deleteByNode s nid) member newScore coins)

/-- Clear: a fresh head sentinel (a new allocation, as in the source),
empty tail/index, length 0, level 1. -/
def Clear (s : SkipList) : SkipList :=
  { nodes := s.nodes ++ [headNode], head := s.nodes.length, tail := none,
    length := 0, level := 1, memberMap := [] }

/-- Modelled from the spec (invariant 5 / P4), as the debug audit the spec
asks for: for every node n (the head sentinel included) and every level
i < n.level (head is audited up to the current level, the extent of its
occupied slots), n.span[i] must equal the number of level-0 positions
between n and n.forward[i] (destination inclusive, n exclusive), and
length - rank0(n) when n.forward[i] is nil, with rank0(head) = 0. -/
def spanAuditNode (s : SkipList) (ids : List Nat) (pos : Int) (id : Nat) (lvls : Nat) : Bool :=
  (List.range lvls).all (fun i =>
    match fwd s id i with
    | some t => spn s id i = ((ids.indexOf t : Int) + 1) - pos
    | none => spn s id i = s.length - pos)

/-- Modelled from the spec: the full span audit over the head and every
node of the level-0 walk. -/
def spanAudit (s : SkipList) : Bool :=
  let ids := spineIds s
  spanAuditNode s ids 0 s.head s.level &&
  (List.range ids.length).all (fun k =>
    spanAuditNode s ids ((k : Int) + 1) (ids.getD k 0) (getNode s (ids.getD k 0)).level)

/-- The states reachable from NewSkipList by the public mutating
operations, with arbitrary random streams. -/
inductive Reachable : SkipList → Prop where
  | new : Reachable newSkipList
  | insert (s : SkipList) (m : String) (sc : ℚ) (coins : List Bool) :
      Reachable s → Reachable (Insert s m sc coins)
  | del (s : SkipList) (m : String) (sc : ℚ) : Reachable s → Reachable (Delete s m sc).2
  | delByMember (s : SkipList) (m : String) : Reachable s → Reachable (DeleteByMember s m).2
  | incrBy (s : SkipList) (m : String) (d : ℚ) (coins : List Bool) :
      Reachable s → Reachable (IncrementBy s m d coins).2.2
  | remByScore (s : SkipList) (a b : ℚ) : Reachable s → Reachable (RemoveByScore s a b).2
  | remByRank (s : SkipList) (a b : Int) : Reachable s → Reachable (RemoveByRank s a b).2
  | clear (s : SkipList) : Reachable s → Reachable (Clear s)

/-! ### Order facts for members, scores and entries -/

theorem charListLt_iff (a b : List Char) : charListLt a b = true ↔ List.Lex (· < ·) a b := by
  induction a generalizing b with
  | nil =>
    cases b with
    | nil => simp [charListLt]
    | cons y ys => simpa [charListLt] using List.Lex.nil
  | cons x xs ih =>
    cases b with
    | nil =>
      simp only [charListLt, Bool.false_eq_true, false_iff]
      intro h
      cases h
    | cons y ys =>
      simp only [charListLt, Bool.or_eq_true, Bool.and_eq_true, decide_eq_true_eq, beq_iff_eq]
      constructor
      · rintro (h | ⟨rfl, h⟩)
        · exact List.Lex.rel h
        · exact List.Lex.cons ((ih ys).1 h)
      · intro h
        cases h with
        | rel h => exact Or.inl h
        | cons h => exact Or.inr ⟨rfl, (ih ys).2 h⟩

theorem strLt_iff (a b : String) : strLt a b = true ↔ a < b := by
  rw [strLt, charListLt_iff, String.lt_iff_toList_lt]
  exact Iff.rfl

theorem compare_of_lt {a b : ℚ} (h : a < b) : compare a b = -1 := by
  unfold compare
  rw [if_pos h]

theorem compare_of_gt {a b : ℚ} (h : b < a) : compare a b = 1 := by
  unfold compare
  rw [if_neg (not_lt_of_gt h), if_pos h]

theorem compare_of_eq {a b : ℚ} (h : a = b) : compare a b = 0 := by
  unfold compare
  rw [if_neg (by rw [h]; exact lt_irrefl b), if_neg (by rw [h]; exact lt_irrefl b)]

theorem compare_lt_zero_iff (a b : ℚ) : compare a b < 0 ↔ a < b := by
  rcases lt_trichotomy a b with h | h | h
  · simp [compare_of_lt h, h]
  · subst h
    simp [compare_of_eq rfl, lt_irrefl]
  · simp [compare_of_gt h, not_lt_of_gt h]

theorem compare_eq_zero_iff (a b : ℚ) : compare a b = 0 ↔ a = b := by
  rcases lt_trichotomy a b with h | h | h
  · simp [compare_of_lt h, ne_of_lt h]
  · subst h
    simp [compare_of_eq rfl]
  · simp [compare_of_gt h, ne_of_gt h]

theorem compare_pos_iff (a b : ℚ) : 0 < compare a b ↔ b < a := by
  rcases lt_trichotomy a b with h | h | h
  · simp [compare_of_lt h, not_lt_of_gt h]
  · subst h
    simp [compare_of_eq rfl, lt_irrefl]
  · simp [compare_of_gt h, h]

theorem compare_nonpos_iff (a b : ℚ) : compare a b ≤ 0 ↔ a ≤ b := by
  constructor
  · intro h
    rcases lt_trichotomy a b with h' | h' | h'
    · exact le_of_lt h'
    · exact le_of_eq h'
    · exact absurd h (not_le_of_gt ((compare_pos_iff a b).2 h'))
  · intro h
    rcases lt_or_eq_of_le h with h' | h'
    · exact le_of_lt ((compare_lt_zero_iff a b).2 h')
    · exact le_of_eq ((compare_eq_zero_iff a b).2 h')

theorem compare_nonneg_iff (a b : ℚ) : 0 ≤ compare a b ↔ b ≤ a := by
  constructor
  · intro h
    rcases lt_trichotomy b a with h' | h' | h'
    · exact le_of_lt h'
    · exact le_of_eq h'
    · exact absurd h (not_le_of_gt ((compare_lt_zero_iff a b).2 h'))
  · intro h
    rcases lt_or_eq_of_le h with h' | h'
    · exact le_of_lt ((compare_pos_iff a b).2 h')
    · exact ge_of_eq ((compare_eq_zero_iff a b).2 h'.symm)

/-- The strict (score, member) entry order of the spec. -/
def entLt (e f : ℚ × String) : Prop := e.1 < f.1 ∨ (e.1 = f.1 ∧ e.2 < f.2)

theorem entLt_trans {e f g : ℚ × String} (h1 : entLt e f) (h2 : entLt f g) : entLt e g := by
  rcases h1 with h1 | ⟨h1, h1'⟩ <;> rcases h2 with h2 | ⟨h2, h2'⟩
  · exact Or.inl (lt_trans h1 h2)
  · exact Or.inl (h2 ▸ h1)
  · exact Or.inl (h1 ▸ h2)
  · exact Or.inr ⟨h1.trans h2, lt_trans h1' h2'⟩

theorem entLt_irrefl (e : ℚ × String) : ¬ entLt e e := by
  rintro (h | ⟨_, h⟩)
  · exact lt_irrefl _ h
  · exact lt_irrefl _ h

theorem entLt_asymm {e f : ℚ × String} (h : entLt e f) : ¬ entLt f e :=
  fun h' => entLt_irrefl e (entLt_trans h h')

theorem entLt_total_of_ne {e f : ℚ × String} (h : e ≠ f) : entLt e f ∨ entLt f e := by
  rcases lt_trichotomy e.1 f.1 with h1 | h1 | h1
  · exact Or.inl (Or.inl h1)
  · rcases lt_trichotomy e.2 f.2 with h2 | h2 | h2
    · exact Or.inl (Or.inr ⟨h1, h2⟩)
    · exact absurd (Prod.ext h1 h2) h
    · exact Or.inr (Or.inr ⟨h1.symm, h2⟩)
  · exact Or.inr (Or.inl h1)

/-- The (score, member) entry stored at an arena id. -/
def entryOf (s : SkipList) (id : Nat) : ℚ × String := ((getNode s id).score, (getNode s id).member)

/-- The advance condition of the search loops is exactly the entry order. -/
theorem insCond_iff (s : SkipList) (nxt : Nat) (score : ℚ) (member : String) :
    (compare (getNode s nxt).score score < 0 ∨
      (compare (getNode s nxt).score score = 0 ∧ strLt (getNode s nxt).member member = true)) ↔
    entLt (entryOf s nxt) (score, member) := by
  rw [compare_lt_zero_iff, compare_eq_zero_iff, strLt_iff]
  exact Iff.rfl

/-! ### List getD/set helpers -/

theorem getD_set_self {α : Type} (l : List α) (i : Nat) (v d : α) (h : i < l.length) :
    (l.set i v).getD i d = v := by
  rw [List.getD_eq_getElem?_getD, List.getElem?_set_self h]
  rfl

theorem getD_set_ne {α : Type} (l : List α) {i j : Nat} (v d : α) (h : i ≠ j) :
    (l.set i v).getD j d = l.getD j d := by
  rw [List.getD_eq_getElem?_getD, List.getElem?_set_ne h, ← List.getD_eq_getElem?_getD]

theorem getD_append_left {α : Type} (l₁ l₂ : List α) (i : Nat) (d : α) (h : i < l₁.length) :
    (l₁ ++ l₂).getD i d = l₁.getD i d := by
  rw [List.getD_eq_getElem?_getD, List.getElem?_append_left h, ← List.getD_eq_getElem?_getD]

theorem getD_append_right {α : Type} (l₁ l₂ : List α) (i : Nat) (d : α) (h : l₁.length ≤ i) :
    (l₁ ++ l₂).getD i d = l₂.getD (i - l₁.length) d := by
  rw [List.getD_eq_getElem?_getD, List.getElem?_append_right h, ← List.getD_eq_getElem?_getD]

theorem getD_replicate {α : Type} (n i : Nat) (a d : α) (h : i < n) :
    (List.replicate n a).getD i d = a := by
  rw [List.getD_eq_getElem?_getD, List.getElem?_replicate]
  simp [h]

theorem set_of_length_le {α : Type} (l : List α) (i : Nat) (v : α) (h : l.length ≤ i) :
    l.set i v = l := by
  induction l generalizing i with
  | nil => rfl
  | cons x xs ih =>
    cases i with
    | zero => exact absurd h (by simp)
    | succ j => simpa using ih j (by simpa using h)

/-! ### Arena access/update lemmas -/

theorem getNode_updNode (s : SkipList) (id : Nat) (f : SNode → SNode) (id' : Nat) :
    getNode (updNode s id f) id' =
      if id' = id ∧ id < s.nodes.length then f (getNode s id) else getNode s id' := by
  by_cases h : id' = id
  · subst h
    by_cases h2 : id' < s.nodes.length
    · simp only [h2, and_true, if_pos rfl, if_true]
      unfold getNode updNode
      simp only
      rw [List.getD_eq_getElem?_getD, List.getElem?_set_self h2]
      rfl
    · simp only [h2, and_false, if_false]
      unfold getNode updNode
      simp only
      rw [set_of_length_le _ _ _ (le_of_not_lt h2)]
  · simp only [h, false_and, if_false]
    unfold getNode updNode
    simp only
    rw [List.getD_eq_getElem?_getD, List.getElem?_set_ne (fun hx => h hx.symm),
      ← List.getD_eq_getElem?_getD]

theorem updNode_nodes_length (s : SkipList) (id : Nat) (f : SNode → SNode) :
    (updNode s id f).nodes.length = s.nodes.length := by
  unfold updNode
  simp

theorem updNode_head (s : SkipList) (id : Nat) (f : SNode → SNode) :
    (updNode s id f).head = s.head := rfl

theorem updNode_tail (s : SkipList) (id : Nat) (f : SNode → SNode) :
    (updNode s id f).tail = s.tail := rfl

theorem updNode_length (s : SkipList) (id : Nat) (f : SNode → SNode) :
    (updNode s id f).length = s.length := rfl

theorem updNode_level (s : SkipList) (id : Nat) (f : SNode → SNode) :
    (updNode s id f).level = s.level := rfl

theorem updNode_memberMap (s : SkipList) (id : Nat) (f : SNode → SNode) :
    (updNode s id f).memberMap = s.memberMap := rfl

/-! ### member map lemmas -/

theorem mmLookup_erase_self (mm : List (String × Nat)) (m : String) :
    mmLookup (mmErase mm m) m = none := by
  induction mm with
  | nil => rfl
  | cons p mm ih =>
    unfold mmErase at ih ⊢
    by_cases hp : p.1 = m
    · rw [List.filter_cons_of_neg (by simp [hp])]
      exact ih
    · rw [List.filter_cons_of_pos (by simp [hp])]
      unfold mmLookup
      rw [List.find?_cons_of_neg _ (by simp [hp])]
      exact ih

theorem mmLookup_erase_ne (mm : List (String × Nat)) (m m' : String) (h : m' ≠ m) :
    mmLookup (mmErase mm m) m' = mmLookup mm m' := by
  induction mm with
  | nil => rfl
  | cons p mm ih =>
    unfold mmErase at ih ⊢
    by_cases hp : p.1 = m
    · rw [List.filter_cons_of_neg (by simp [hp])]
      rw [ih]
      unfold mmLookup
      rw [List.find?_cons_of_neg _ (by simp [hp]; exact fun hx => h hx.symm)]
    · rw [List.filter_cons_of_pos (by simp [hp])]
      by_cases hq : p.1 = m'
      · unfold mmLookup
        rw [List.find?_cons_of_pos _ (by simp [hq]), List.find?_cons_of_pos _ (by simp [hq])]
      · unfold mmLookup
        rw [List.find?_cons_of_neg _ (by simp [hq]), List.find?_cons_of_neg _ (by simp [hq])]
        exact ih

theorem mmLookup_insert_self (mm : List (String × Nat)) (m : String) (id : Nat) :
    mmLookup (mmInsert mm m id) m = some id := by
  unfold mmInsert mmLookup
  rw [List.find?_cons_of_pos _ (by simp)]
  rfl

theorem mmLookup_insert_ne (mm : List (String × Nat)) (m m' : String) (id : Nat) (h : m' ≠ m) :
    mmLookup (mmInsert mm m id) m' = mmLookup mm m' := by
  have h1 : mmLookup (mmInsert mm m id) m' = mmLookup (mmErase mm m) m' := by
    unfold mmInsert mmLookup
    rw [List.find?_cons_of_neg _ (by simp; exact fun hx => h hx.symm)]
  rw [h1, mmLookup_erase_ne mm m m' h]

/-! ### The structural invariant of reachable states

The spine ns is the list of ids of the live nodes in level-0 order.  The
invariant ties every pointer of the arena to it: the level-i chain from
the head visits exactly the spine nodes of level > i, in spine order.
Span values are deliberately NOT part of the invariant: the source's
deleteNode fails to maintain them (see the C1 analysis below), and none
of the properties proved here depend on them. -/

/-- The sub-spine of nodes occupying level i. -/
def chainAt (s : SkipList) (ns : List Nat) (i : Nat) : List Nat :=
  ns.filter (fun id => decide (i < (getNode s id).level))

/-- links s i a l b: starting at a, forward[i] runs through l and then
reaches b. -/
def links (s : SkipList) (i : Nat) : Nat → List Nat → Nat → Prop
  | a, [], b => fwd s a i = some b
  | a, x :: l, b => fwd s a i = some x ∧ links s i x l b

/-- isChain s i a l: starting at a, forward[i] runs through exactly l and
then hits nil. -/
def isChain (s : SkipList) (i : Nat) : Nat → List Nat → Prop
  | a, [] => fwd s a i = none
  | a, x :: l => fwd s a i = some x ∧ isChain s i x l

/-- Well-formedness of one live node. -/
def nodeOk (s : SkipList) (id : Nat) : Prop :=
  id < s.nodes.length ∧ id ≠ s.head ∧ 1 ≤ (getNode s id).level ∧
  (getNode s id).level ≤ s.level ∧
  (getNode s id).forward.length = (getNode s id).level ∧
  (getNode s id).span.length = (getNode s id).level

/-- The structural invariant, relative to an explicit spine. -/
structure InvSpine (s : SkipList) (ns : List Nat) : Prop where
  headLt : s.head < s.nodes.length
  headFwdLen : (getNode s s.head).forward.length = maxLevel
  headSpnLen : (getNode s s.head).span.length = maxLevel
  lvlLB : 1 ≤ s.level
  lvlUB : s.level ≤ maxLevel
  len : s.length = (ns.length : Int)
  nodup : (s.head :: ns).Nodup
  nodesOk : ∀ id ∈ ns, nodeOk s id
  chains : ∀ i < maxLevel, isChain s i s.head (chainAt s ns i)
  sorted : ns.Pairwise (fun a b => entLt (entryOf s a) (entryOf s b))
  mm : ∀ m id, mmLookup s.memberMap m = some id ↔ id ∈ ns ∧ (getNode s id).member = m

/-- The structural invariant. -/
def Inv (s : SkipList) : Prop := ∃ ns, InvSpine s ns

instance decidableEntLt : DecidableRel entLt := fun e f => by
  unfold entLt
  exact inferInstance

/-! ### getLastD and chain lemmas -/

theorem getLastD_cons' {α : Type} (x : α) (l : List α) (d : α) :
    (x :: l).getLastD d = l.getLastD x := by
  cases l <;> rfl

theorem getLastD_mem_cons' {α : Type} (l : List α) (d : α) : l.getLastD d ∈ d :: l := by
  induction l generalizing d with
  | nil => exact List.mem_singleton.2 rfl
  | cons x xs ih =>
    rw [getLastD_cons']
    rcases List.mem_cons.1 (ih x) with h | h
    · exact List.mem_cons.2 (Or.inr (List.mem_cons.2 (Or.inl h)))
    · exact List.mem_cons.2 (Or.inr (List.mem_cons.2 (Or.inr h)))

theorem getLastD_append_cons {α : Type} (l₁ : List α) (x : α) (l₂ : List α) (d : α) :
    (l₁ ++ x :: l₂).getLastD d = l₂.getLastD x := by
  induction l₁ generalizing d with
  | nil => exact getLastD_cons' x l₂ d
  | cons y ys ih =>
    rw [List.cons_append, getLastD_cons']
    exact ih y

theorem isChain_append_iff (s : SkipList) (i : Nat) (a b : Nat) (l₁ l₂ : List Nat) :
    isChain s i a (l₁ ++ b :: l₂) ↔ links s i a l₁ b ∧ isChain s i b l₂ := by
  induction l₁ generalizing a with
  | nil => exact Iff.rfl
  | cons x xs ih =>
    simp only [List.cons_append, List.append_eq, isChain, links, ih, and_assoc]

theorem links_last_fwd (s : SkipList) (i : Nat) (a b : Nat) (l : List Nat)
    (h : links s i a l b) : fwd s (l.getLastD a) i = some b := by
  induction l generalizing a with
  | nil => exact h
  | cons x xs ih =>
    rw [getLastD_cons']
    exact ih x h.2

theorem isChain_transfer (s s' : SkipList) (i : Nat) (a : Nat) (l : List Nat)
    (h : isChain s i a l) (hf : ∀ x, x = a ∨ x ∈ l → fwd s' x i = fwd s x i) :
    isChain s' i a l := by
  induction l generalizing a with
  | nil => exact (hf a (Or.inl rfl)).trans h
  | cons x xs ih =>
    refine ⟨(hf a (Or.inl rfl)).trans h.1, ih x h.2 ?_⟩
    intro y hy
    rcases hy with hy | hy
    · exact hf y (Or.inr (hy ▸ List.mem_cons_self x xs))
    · exact hf y (Or.inr (List.mem_cons.2 (Or.inr hy)))

theorem links_transfer (s s' : SkipList) (i : Nat) (a b : Nat) (l : List Nat)
    (h : links s i a l b) (hf : ∀ x, x = a ∨ x ∈ l → fwd s' x i = fwd s x i) :
    links s' i a l b := by
  induction l generalizing a with
  | nil => exact (hf a (Or.inl rfl)).trans h
  | cons x xs ih =>
    refine ⟨(hf a (Or.inl rfl)).trans h.1, ih x h.2 ?_⟩
    intro y hy
    rcases hy with hy | hy
    · exact hf y (Or.inr (hy ▸ List.mem_cons_self x xs))
    · exact hf y (Or.inr (List.mem_cons.2 (Or.inr hy)))

theorem fwd_mem_chain (s : SkipList) (i : Nat) (c : Nat) (l : List Nat)
    (h : isChain s i c l) (x : Nat) (hx : x = c ∨ x ∈ l) :
    fwd s x i = none ∨ ∃ y ∈ l, fwd s x i = some y := by
  induction l generalizing c with
  | nil =>
    rcases hx with rfl | hx
    · exact Or.inl h
    · exact absurd hx (List.not_mem_nil x)
  | cons z zs ih =>
    rcases hx with rfl | hx
    · exact Or.inr ⟨z, List.mem_cons_self z zs, h.1⟩
    · rcases ih z h.2 (List.mem_cons.1 hx) with h' | ⟨y, hy, hy'⟩
      · exact Or.inl h'
      · exact Or.inr ⟨y, List.mem_cons.2 (Or.inr hy), hy'⟩

/-! ### The generic frontier walk -/

/-- The one-level pointer walk all the search loops of the source perform:
advance along forward[i] while the next node satisfies p. -/
def walk (s : SkipList) (p : Nat → Prop) [DecidablePred p] (i : Nat) : Nat → Nat → Nat
  | 0, node => node
  | fuel + 1, node =>
    match fwd s node i with
    | none => node
    | some nxt => if p nxt then walk s p i fuel nxt else node

theorem walk_eq_getLastD (s : SkipList) (p : Nat → Prop) [DecidablePred p] (i : Nat)
    (a : Nat) (l D : List Nat) (hchain : isChain s i a (l ++ D))
    (hl : ∀ x ∈ l, p x) (hD : ∀ d, D.head? = some d → ¬ p d)
    (fuel : Nat) (hfuel : l.length ≤ fuel) :
    walk s p i fuel a = l.getLastD a := by
  induction l generalizing a fuel with
  | nil =>
    cases D with
    | nil =>
      cases fuel with
      | zero => rfl
      | succ f =>
        have hstep : walk s p i (f + 1) a = a := by
          unfold walk
          rw [show fwd s a i = none from hchain]
        rw [hstep]
        rfl
    | cons d D' =>
      cases fuel with
      | zero => rfl
      | succ f =>
        have hstep : walk s p i (f + 1) a = if p d then walk s p i f d else a := by
          conv_lhs => unfold walk
          rw [show fwd s a i = some d from hchain.1]
        rw [hstep, if_neg (hD d rfl)]
        rfl
  | cons x xs ih =>
    rw [getLastD_cons']
    cases fuel with
    | zero => exact absurd hfuel (by simp)
    | succ f =>
      have hstep : walk s p i (f + 1) a = if p x then walk s p i f x else a := by
        conv_lhs => unfold walk
        rw [show fwd s a i = some x from hchain.1]
      rw [hstep, if_pos (hl x (List.mem_cons_self x xs))]
      exact ih x hchain.2 (fun y hy => hl y (List.mem_cons.2 (Or.inr hy))) f
        (Nat.le_of_succ_le_succ hfuel)

/-! ### Basic spine facts -/

theorem nodup_subset_length {α : Type} [DecidableEq α] (l₁ l₂ : List α) (h : l₁.Nodup)
    (hs : l₁ ⊆ l₂) : l₁.length ≤ l₂.length := by
  have h1 : l₁.toFinset.card = l₁.length := List.toFinset_card_of_nodup h
  have h2 : l₁.toFinset ⊆ l₂.toFinset := by
    intro x hx
    exact List.mem_toFinset.2 (hs (List.mem_toFinset.1 hx))
  have h3 : l₂.toFinset.card ≤ l₂.length := l₂.toFinset_card_le
  have h4 : l₁.toFinset.card ≤ l₂.toFinset.card := Finset.card_le_card h2
  omega

theorem spine_length_lt (s : SkipList) (ns : List Nat) (h : InvSpine s ns) :
    ns.length < s.nodes.length := by
  have hsub : (s.head :: ns) ⊆ List.range s.nodes.length := by
    intro x hx
    rcases List.mem_cons.1 hx with rfl | hx
    · exact List.mem_range.2 h.headLt
    · exact List.mem_range.2 (h.nodesOk x hx).1
  have hlen : (s.head :: ns).length ≤ (List.range s.nodes.length).length :=
    nodup_subset_length _ _ h.nodup hsub
  simpa using hlen

theorem chainAt_sub_mem (s : SkipList) (ns : List Nat) (i : Nat) (x : Nat)
    (hx : x ∈ chainAt s ns i) : x ∈ ns ∧ i < (getNode s x).level := by
  have := List.mem_filter.1 hx
  exact ⟨this.1, by simpa using this.2⟩

theorem mem_chainAt (s : SkipList) (ns : List Nat) (i : Nat) (x : Nat)
    (hx : x ∈ ns) (hlvl : i < (getNode s x).level) : x ∈ chainAt s ns i :=
  List.mem_filter.2 ⟨hx, by simpa using hlvl⟩

theorem chainAt_append (s : SkipList) (l₁ l₂ : List Nat) (i : Nat) :
    chainAt s (l₁ ++ l₂) i = chainAt s l₁ i ++ chainAt s l₂ i :=
  List.filter_append l₁ l₂

theorem chainAt_mono (s : SkipList) (l : List Nat) (i : Nat) (x : Nat)
    (hx : x ∈ chainAt s l (i + 1)) : x ∈ chainAt s l i := by
  rcases chainAt_sub_mem s l (i + 1) x hx with ⟨h1, h2⟩
  exact mem_chainAt s l i x h1 (Nat.lt_of_succ_lt h2)

theorem chainAt_eq_self (s : SkipList) (l : List Nat)
    (h : ∀ id ∈ l, 0 < (getNode s id).level) : chainAt s l 0 = l := by
  unfold chainAt
  rw [List.filter_eq_self]
  intro a ha
  simpa using h a ha

theorem chainAt_nodup (s : SkipList) (ns : List Nat) (i : Nat) (h : ns.Nodup) :
    (chainAt s ns i).Nodup := h.filter _

theorem chainAt_sublist (s : SkipList) (ns : List Nat) (i : Nat) :
    (chainAt s ns i).Sublist ns := List.filter_sublist ns

/-- The ids reachable by forward pointers from a spine position stay on
the spine. -/
theorem spine_fwd (s : SkipList) (ns : List Nat) (h : InvSpine s ns) (a : Nat)
    (ha : a = s.head ∨ a ∈ ns) (i : Nat) :
    fwd s a i = none ∨ ∃ b ∈ ns, fwd s a i = some b := by
  by_cases hi : i < maxLevel
  · by_cases hc : a = s.head ∨ a ∈ chainAt s ns i
    · rcases fwd_mem_chain s i s.head (chainAt s ns i) (h.chains i hi) a
        (by rcases hc with hc | hc; exact Or.inl hc; exact Or.inr hc) with h' | ⟨y, hy, hy'⟩
      · exact Or.inl h'
      · exact Or.inr ⟨y, (chainAt_sub_mem s ns i y hy).1, hy'⟩
    · push_neg at hc
      rcases ha with rfl | ha
      · exact absurd rfl hc.1
      · have hlvl : (getNode s a).level ≤ i := by
          by_contra hcon
          exact hc.2 (mem_chainAt s ns i a ha (Nat.lt_of_not_le hcon))
        refine Or.inl ?_
        unfold fwd
        rw [List.getD_eq_getElem?_getD, List.getElem?_eq_none
          (by rw [(h.nodesOk a ha).2.2.2.2.1]; exact hlvl)]
        rfl
  · refine Or.inl ?_
    unfold fwd
    rcases ha with rfl | ha
    · rw [List.getD_eq_getElem?_getD, List.getElem?_eq_none
        (by rw [h.headFwdLen]; exact le_of_not_lt hi)]
      rfl
    · rw [List.getD_eq_getElem?_getD, List.getElem?_eq_none
        (by rw [(h.nodesOk a ha).2.2.2.2.1]
            exact le_trans (le_trans (h.nodesOk a ha).2.2.2.1 h.lvlUB) (le_of_not_lt hi))]
      rfl

/-! ### Field preservation under arena mutation -/

theorem getNode_updNode_member (s : SkipList) (id : Nat) (f : SNode → SNode) (id' : Nat)
    (h : ∀ n, (f n).member = n.member) :
    (getNode (updNode s id f) id').member = (getNode s id').member := by
  rw [getNode_updNode]
  split
  next hx => rw [hx.1, h]
  next => rfl

theorem getNode_updNode_score (s : SkipList) (id : Nat) (f : SNode → SNode) (id' : Nat)
    (h : ∀ n, (f n).score = n.score) :
    (getNode (updNode s id f) id').score = (getNode s id').score := by
  rw [getNode_updNode]
  split
  next hx => rw [hx.1, h]
  next => rfl

theorem getNode_updNode_level (s : SkipList) (id : Nat) (f : SNode → SNode) (id' : Nat)
    (h : ∀ n, (f n).level = n.level) :
    (getNode (updNode s id f) id').level = (getNode s id').level := by
  rw [getNode_updNode]
  split
  next hx => rw [hx.1, h]
  next => rfl

theorem getNode_updNode_backward (s : SkipList) (id : Nat) (f : SNode → SNode) (id' : Nat)
    (h : ∀ n, (f n).backward = n.backward) :
    (getNode (updNode s id f) id').backward = (getNode s id').backward := by
  rw [getNode_updNode]
  split
  next hx => rw [hx.1, h]
  next => rfl

theorem getNode_updNode_fwdLen (s : SkipList) (id : Nat) (f : SNode → SNode) (id' : Nat)
    (h : ∀ n, (f n).forward.length = n.forward.length) :
    (getNode (updNode s id f) id').forward.length = (getNode s id').forward.length := by
  rw [getNode_updNode]
  split
  next hx => rw [hx.1, h]
  next => rfl

theorem getNode_updNode_spnLen (s : SkipList) (id : Nat) (f : SNode → SNode) (id' : Nat)
    (h : ∀ n, (f n).span.length = n.span.length) :
    (getNode (updNode s id f) id').span.length = (getNode s id').span.length := by
  rw [getNode_updNode]
  split
  next hx => rw [hx.1, h]
  next => rfl

theorem fwd_setSpn (s : SkipList) (id i : Nat) (v : Int) (id' i' : Nat) :
    fwd (setSpn s id i v) id' i' = fwd s id' i' := by
  unfold fwd setSpn
  rw [show (getNode (updNode s id fun n => { n with span := n.span.set i v }) id').forward
      = (getNode s id').forward by
    rw [getNode_updNode]
    split
    next hx => rw [hx.1]
    next => rfl]

theorem fwd_setBwd (s : SkipList) (id : Nat) (v : Option Nat) (id' i' : Nat) :
    fwd (setBwd s id v) id' i' = fwd s id' i' := by
  unfold fwd setBwd
  rw [show (getNode (updNode s id fun n => { n with backward := v }) id').forward
      = (getNode s id').forward by
    rw [getNode_updNode]
    split
    next hx => rw [hx.1]
    next => rfl]

theorem fwd_setFwd_ne (s : SkipList) (id i : Nat) (v : Option Nat) (id' i' : Nat)
    (h : id' ≠ id ∨ i' ≠ i) : fwd (setFwd s id i v) id' i' = fwd s id' i' := by
  unfold fwd setFwd
  rcases h with h | h
  · rw [show (getNode (updNode s id fun n => { n with forward := n.forward.set i v }) id')
        = getNode s id' by
      rw [getNode_updNode]
      split
      next hx => exact absurd hx.1 h
      next => rfl]
  · rw [getNode_updNode]
    split
    next hx =>
      rw [hx.1]
      exact getD_set_ne _ _ _ (fun he => h he.symm)
    next => rfl

theorem fwd_setFwd_self (s : SkipList) (id i : Nat) (v : Option Nat)
    (hid : id < s.nodes.length) (hi : i < (getNode s id).forward.length) :
    fwd (setFwd s id i v) id i = v := by
  unfold fwd setFwd
  rw [getNode_updNode, if_pos ⟨rfl, hid⟩]
  exact getD_set_self _ _ _ _ hi

theorem getD_concat_lt {α : Type} (l : List α) (nd d : α) (i : Nat) (h : i < l.length) :
    (l ++ [nd]).getD i d = l.getD i d :=
  getD_append_left l [nd] i d h

theorem getD_concat_self {α : Type} (l : List α) (nd d : α) :
    (l ++ [nd]).getD l.length d = nd := by
  rw [getD_append_right l [nd] l.length d (le_refl _), Nat.sub_self]
  rfl

/-- Everything of two states agrees except possibly stored span values:
skeleton fields, arena size, forward pointers and per-node
member/score/level/backward/array-lengths. -/
def SameShape (s s' : SkipList) : Prop :=
  s'.head = s.head ∧ s'.tail = s.tail ∧ s'.length = s.length ∧ s'.level = s.level ∧
  s'.memberMap = s.memberMap ∧ s'.nodes.length = s.nodes.length ∧
  (∀ id i, fwd s' id i = fwd s id i) ∧
  (∀ id, (getNode s' id).member = (getNode s id).member ∧
    (getNode s' id).score = (getNode s id).score ∧
    (getNode s' id).level = (getNode s id).level ∧
    (getNode s' id).backward = (getNode s id).backward ∧
    (getNode s' id).forward.length = (getNode s id).forward.length ∧
    (getNode s' id).span.length = (getNode s id).span.length)

theorem sameShape_refl (s : SkipList) : SameShape s s :=
  ⟨rfl, rfl, rfl, rfl, rfl, rfl, fun _ _ => rfl,
    fun _ => ⟨rfl, rfl, rfl, rfl, rfl, rfl⟩⟩

theorem sameShape_trans {s t u : SkipList} (h1 : SameShape s t) (h2 : SameShape t u) :
    SameShape s u := by
  obtain ⟨a1, a2, a3, a4, a5, a6, a7, a8⟩ := h1
  obtain ⟨b1, b2, b3, b4, b5, b6, b7, b8⟩ := h2
  refine ⟨b1.trans a1, b2.trans a2, b3.trans a3, b4.trans a4, b5.trans a5, b6.trans a6,
    fun id i => (b7 id i).trans (a7 id i), fun id => ?_⟩
  obtain ⟨c1, c2, c3, c4, c5, c6⟩ := a8 id
  obtain ⟨d1, d2, d3, d4, d5, d6⟩ := b8 id
  exact ⟨d1.trans c1, d2.trans c2, d3.trans c3, d4.trans c4, d5.trans c5, d6.trans c6⟩

theorem sameShape_setSpn (s : SkipList) (id i : Nat) (v : Int) :
    SameShape s (setSpn s id i v) := by
  refine ⟨rfl, rfl, rfl, rfl, rfl, by unfold setSpn updNode; simp,
    fun id' i' => fwd_setSpn s id i v id' i', fun id' => ?_⟩
  unfold setSpn
  exact ⟨getNode_updNode_member _ _ _ _ (fun n => rfl),
    getNode_updNode_score _ _ _ _ (fun n => rfl),
    getNode_updNode_level _ _ _ _ (fun n => rfl),
    getNode_updNode_backward _ _ _ _ (fun n => rfl),
    getNode_updNode_fwdLen _ _ _ _ (fun n => rfl),
    getNode_updNode_spnLen _ _ _ _ (fun n => by simp)⟩

theorem chainAt_congr (s s' : SkipList) (l : List Nat)
    (h : ∀ id, (getNode s' id).level = (getNode s id).level) (i : Nat) :
    chainAt s' l i = chainAt s l i := by
  unfold chainAt
  exact List.filter_congr (fun id _ => by rw [h id])

theorem entryOf_congr (s s' : SkipList) (id : Nat)
    (h1 : (getNode s' id).member = (getNode s id).member)
    (h2 : (getNode s' id).score = (getNode s id).score) :
    entryOf s' id = entryOf s id := by
  unfold entryOf
  rw [h1, h2]

/-- The invariant only looks at the SameShape part of the state. -/
theorem invSpine_of_sameShape {s s' : SkipList} (ns : List Nat) (hs : SameShape s s')
    (hInv : InvSpine s ns) : InvSpine s' ns := by
  obtain ⟨a1, a2, a3, a4, a5, a6, a7, a8⟩ := hs
  refine ⟨?_, ?_, ?_, ?_, ?_, ?_, ?_, ?_, ?_, ?_, ?_⟩
  · rw [a1, a6]
    exact hInv.headLt
  · rw [a1, (a8 s.head).2.2.2.2.1]
    exact hInv.headFwdLen
  · rw [a1, (a8 s.head).2.2.2.2.2]
    exact hInv.headSpnLen
  · rw [a4]
    exact hInv.lvlLB
  · rw [a4]
    exact hInv.lvlUB
  · rw [a3]
    exact hInv.len
  · rw [a1]
    exact hInv.nodup
  · intro id hid
    obtain ⟨k1, k2, k3, k4, k5, k6⟩ := hInv.nodesOk id hid
    refine ⟨by rw [a6]; exact k1, by rw [a1]; exact k2, ?_, ?_, ?_, ?_⟩
    · rw [(a8 id).2.2.1]
      exact k3
    · rw [(a8 id).2.2.1, a4]
      exact k4
    · rw [(a8 id).2.2.2.2.1, (a8 id).2.2.1]
      exact k5
    · rw [(a8 id).2.2.2.2.2, (a8 id).2.2.1]
      exact k6
  · intro i hi
    rw [a1, chainAt_congr s s' ns (fun id => (a8 id).2.2.1) i]
    exact isChain_transfer s s' i s.head (chainAt s ns i) (hInv.chains i hi)
      (fun x _ => a7 x i)
  · refine List.Pairwise.imp_of_mem ?_ hInv.sorted
    intro a b ha hb hab
    rw [entryOf_congr s s' a (a8 a).1 (a8 a).2.1, entryOf_congr s s' b (a8 b).1 (a8 b).2.1]
    exact hab
  · intro m id
    rw [a5, (a8 id).1]
    exact hInv.mm m id

/-! ### The search loops compute frontier landings -/

/-- Where the walk at level i lands when the keep-region is pre: the last
level-i occupant of pre, or the head. -/
def landAt (s : SkipList) (pre : List Nat) (i : Nat) : Nat :=
  (chainAt s pre i).getLastD s.head

theorem landAt_mem (s : SkipList) (pre : List Nat) (i : Nat) :
    landAt s pre i = s.head ∨ landAt s pre i ∈ chainAt s pre i := by
  rcases List.mem_cons.1 (getLastD_mem_cons' (chainAt s pre i) s.head) with h | h
  · exact Or.inl h
  · exact Or.inr h

theorem landAt_mem_lower (s : SkipList) (pre : List Nat) (i : Nat) :
    landAt s pre (i + 1) = s.head ∨ landAt s pre (i + 1) ∈ chainAt s pre i := by
  rcases landAt_mem s pre (i + 1) with h | h
  · exact Or.inl h
  · exact Or.inr (chainAt_mono s pre i _ h)

theorem insSearch_fst (s : SkipList) (score : ℚ) (member : String) (i : Nat)
    (fuel node : Nat) (rank : Int) :
    (insSearch s score member i fuel node rank).1 =
    walk s (fun nxt => entLt (entryOf s nxt) (score, member)) i fuel node := by
  induction fuel generalizing node rank with
  | zero => rfl
  | succ f ih =>
    have hw : walk s (fun nxt => entLt (entryOf s nxt) (score, member)) i (f + 1) node =
        match fwd s node i with
        | none => node
        | some nxt => if entLt (entryOf s nxt) (score, member) then
            walk s (fun nxt => entLt (entryOf s nxt) (score, member)) i f nxt
          else node := rfl
    have hs' : insSearch s score member i (f + 1) node rank =
        match fwd s node i with
        | none => (node, rank)
        | some nxt =>
          if compare (getNode s nxt).score score < 0 ∨
             (compare (getNode s nxt).score score = 0 ∧
              strLt (getNode s nxt).member member = true) then
            insSearch s score member i f nxt (rank + spn s node i)
          else (node, rank) := rfl
    rw [hs', hw]
    cases hf : fwd s node i with
    | none => rfl
    | some nxt =>
      dsimp only
      by_cases h : entLt (entryOf s nxt) (score, member)
      · rw [if_pos ((insCond_iff s nxt score member).2 h), if_pos h]
        exact ih nxt _
      · rw [if_neg (fun hc => h ((insCond_iff s nxt score member).1 hc)), if_neg h]

theorem delSearch_eq (s : SkipList) (target : Nat) (i : Nat) (fuel node : Nat) :
    delSearch s target i fuel node =
    walk s (fun nxt => ¬ nxt = target ∧ entLt (entryOf s nxt) (entryOf s target)) i fuel node := by
  induction fuel generalizing node with
  | zero => rfl
  | succ f ih =>
    have hw : walk s (fun nxt => ¬ nxt = target ∧ entLt (entryOf s nxt) (entryOf s target)) i
        (f + 1) node =
        match fwd s node i with
        | none => node
        | some nxt => if ¬ nxt = target ∧ entLt (entryOf s nxt) (entryOf s target) then
            walk s (fun nxt => ¬ nxt = target ∧ entLt (entryOf s nxt) (entryOf s target)) i f nxt
          else node := rfl
    have hd : delSearch s target i (f + 1) node =
        match fwd s node i with
        | none => node
        | some nxt =>
          if nxt = target then node
          else
            if compare (getNode s nxt).score (getNode s target).score < 0 ∨
               (compare (getNode s nxt).score (getNode s target).score = 0 ∧
                strLt (getNode s nxt).member (getNode s target).member = true) then
              delSearch s target i f nxt
            else node := rfl
    rw [hd, hw]
    cases hf : fwd s node i with
    | none => rfl
    | some nxt =>
      dsimp only
      by_cases ht : nxt = target
      · rw [if_pos ht, if_neg (fun hc => hc.1 ht)]
      · rw [if_neg ht]
        by_cases h : entLt (entryOf s nxt) (entryOf s target)
        · rw [if_pos ((insCond_iff s nxt (getNode s target).score (getNode s target).member).2 h),
            if_pos ⟨ht, h⟩]
          exact ih nxt
        · rw [if_neg (fun hc =>
              h ((insCond_iff s nxt (getNode s target).score (getNode s target).member).1 hc)),
            if_neg (fun hc => h hc.2)]

theorem scoreWalk_eq (s : SkipList) (minS : ℚ) (i : Nat) (fuel node : Nat) :
    scoreWalk s minS i fuel node =
    walk s (fun nxt => (getNode s nxt).score < minS) i fuel node := by
  induction fuel generalizing node with
  | zero => rfl
  | succ f ih =>
    have hw : walk s (fun nxt => (getNode s nxt).score < minS) i (f + 1) node =
        match fwd s node i with
        | none => node
        | some nxt => if (getNode s nxt).score < minS then
            walk s (fun nxt => (getNode s nxt).score < minS) i f nxt
          else node := rfl
    have hd : scoreWalk s minS i (f + 1) node =
        match fwd s node i with
        | none => node
        | some nxt =>
          if compare (getNode s nxt).score minS < 0 then scoreWalk s minS i f nxt
          else node := rfl
    rw [hd, hw]
    cases hf : fwd s node i with
    | none => rfl
    | some nxt =>
      dsimp only
      by_cases h : (getNode s nxt).score < minS
      · rw [if_pos ((compare_lt_zero_iff _ _).2 h), if_pos h]
        exact ih nxt
      · rw [if_neg (fun hc => h ((compare_lt_zero_iff _ _).1 hc)), if_neg h]

/-- The central landing lemma: under the invariant, if the spine splits as
pre ++ suf with the walk predicate holding on all of pre and failing on
all of suf, then the level-i walk (with full fuel) from any position on
pre's level-i chain lands on the last level-i occupant of pre. -/
theorem walk_land (s : SkipList) (ns pre suf : List Nat) (p : Nat → Prop) [DecidablePred p]
    (hInv : InvSpine s ns) (hsplit : ns = pre ++ suf)
    (hp : ∀ x ∈ pre, p x) (hs : ∀ x ∈ suf, ¬ p x)
    (i : Nat) (hi : i < maxLevel) (a : Nat)
    (ha : a = s.head ∨ a ∈ chainAt s pre i) :
    walk s p i s.nodes.length a = landAt s pre i := by
  have hchain0 : isChain s i s.head (chainAt s pre i ++ chainAt s suf i) := by
    have h := hInv.chains i hi
    rwa [hsplit, chainAt_append] at h
  have hC : ∀ x ∈ chainAt s pre i, p x := fun x hx => hp x (chainAt_sub_mem _ _ _ _ hx).1
  have hD : ∀ d, (chainAt s suf i).head? = some d → ¬ p d := by
    intro d hd
    have hmem : d ∈ chainAt s suf i := by
      cases hh : chainAt s suf i with
      | nil => rw [hh] at hd; exact absurd hd (by simp)
      | cons z zs =>
        rw [hh] at hd
        simp only [List.head?_cons, Option.some.injEq] at hd
        simp [hd]
    exact hs d (chainAt_sub_mem _ _ _ _ hmem).1
  have hlen : (chainAt s pre i).length ≤ ns.length := by
    calc (chainAt s pre i).length ≤ pre.length := (chainAt_sublist s pre i).length_le
    _ ≤ ns.length := by rw [hsplit]; simp
  have hfuel : (chainAt s pre i).length ≤ s.nodes.length :=
    le_trans hlen (le_of_lt (spine_length_lt s ns hInv))
  rcases ha with rfl | ha
  · exact walk_eq_getLastD s p i s.head (chainAt s pre i) (chainAt s suf i) hchain0 hC hD
      s.nodes.length hfuel
  · rcases List.append_of_mem ha with ⟨l₁, l₂, hsplit2⟩
    have hchain' : isChain s i s.head (l₁ ++ a :: (l₂ ++ chainAt s suf i)) := by
      have heq : (chainAt s pre i) ++ chainAt s suf i = l₁ ++ a :: (l₂ ++ chainAt s suf i) := by
        rw [hsplit2]
        simp
      rwa [heq] at hchain0
    have hparts := (isChain_append_iff s i s.head a l₁ (l₂ ++ chainAt s suf i)).1 hchain'
    have hfuel2 : l₂.length ≤ s.nodes.length := by
      have : l₂.length ≤ (chainAt s pre i).length := by
        rw [hsplit2]
        simp
        omega
      exact le_trans this hfuel
    have hwalk := walk_eq_getLastD s p i a l₂ (chainAt s suf i) hparts.2
      (fun y hy => hC y (by rw [hsplit2]; exact List.mem_append.2 (Or.inr (List.mem_cons.2 (Or.inr hy)))))
      hD s.nodes.length hfuel2
    rw [hwalk]
    unfold landAt
    rw [hsplit2, getLastD_append_cons]

/-- What the update array of insertInternal's search holds afterwards:
update[j] is the level-j landing for every processed level j, all other
slots keep their initial value. -/
theorem insFindLoop_spec (s : SkipList) (ns pre suf : List Nat) (score : ℚ) (member : String)
    (hInv : InvSpine s ns) (hsplit : ns = pre ++ suf)
    (hp : ∀ x ∈ pre, entLt (entryOf s x) (score, member))
    (hs : ∀ x ∈ suf, ¬ entLt (entryOf s x) (score, member)) :
    ∀ n, n ≤ s.level → ∀ a rank upd rnk, (a = s.head ∨ a ∈ chainAt s pre n) →
    upd.length = maxLevel →
    (∀ j d, (insFindLoop s score member ((List.range n).reverse) a rank upd rnk).1.getD j d =
      if j < n then landAt s pre j else upd.getD j d) ∧
    (insFindLoop s score member ((List.range n).reverse) a rank upd rnk).1.length = maxLevel := by
  intro n
  induction n with
  | zero =>
    intro hn a rank upd rnk ha hlen
    exact ⟨fun j d => by rw [if_neg (Nat.not_lt_zero j)]; rfl, hlen⟩
  | succ n ih =>
    intro hn a rank upd rnk ha hlen
    have hrange : (List.range (n + 1)).reverse = n :: (List.range n).reverse := by
      rw [List.range_succ, List.reverse_append]
      rfl
    have hstep : insFindLoop s score member ((List.range (n + 1)).reverse) a rank upd rnk =
        insFindLoop s score member ((List.range n).reverse)
          (insSearch s score member n s.nodes.length a rank).1
          (insSearch s score member n s.nodes.length a rank).2
          (upd.set n (insSearch s score member n s.nodes.length a rank).1)
          (rnk.set n (insSearch s score member n s.nodes.length a rank).2) := by
      rw [hrange]
      rfl
    have ha' : a = s.head ∨ a ∈ chainAt s pre n := by
      rcases ha with h | h
      · exact Or.inl h
      · exact Or.inr (chainAt_mono s pre n a h)
    have hnode : (insSearch s score member n s.nodes.length a rank).1 = landAt s pre n := by
      rw [insSearch_fst]
      exact walk_land s ns pre suf _ hInv hsplit hp hs n
        (lt_of_lt_of_le hn hInv.lvlUB) a ha'
    have hn32 : n < maxLevel := lt_of_lt_of_le hn hInv.lvlUB
    rw [hstep, hnode]
    have ih' := ih (le_of_lt hn) (landAt s pre n)
      (insSearch s score member n s.nodes.length a rank).2
      (upd.set n (landAt s pre n))
      (rnk.set n (insSearch s score member n s.nodes.length a rank).2)
      (landAt_mem s pre n) (by rw [List.length_set]; exact hlen)
    refine ⟨fun j d => ?_, ih'.2⟩
    rw [ih'.1 j d]
    rcases lt_trichotomy j n with hj | hj | hj
    · rw [if_pos hj, if_pos (Nat.lt_succ_of_lt hj)]
    · subst hj
      rw [if_neg (lt_irrefl j), if_pos (Nat.lt_succ_self j)]
      exact getD_set_self upd j _ d (by rw [hlen]; exact hn32)
    · rw [if_neg (Nat.lt_asymm hj), if_neg (by omega)]
      exact getD_set_ne upd _ d (by omega)

/-- The same for deleteByNode's search loop. -/
theorem delFindLoop_spec (s : SkipList) (ns pre suf : List Nat) (target : Nat)
    (hInv : InvSpine s ns) (hsplit : ns = pre ++ suf)
    (hp : ∀ x ∈ pre, ¬ x = target ∧ entLt (entryOf s x) (entryOf s target))
    (hs : ∀ x ∈ suf, ¬ (¬ x = target ∧ entLt (entryOf s x) (entryOf s target))) :
    ∀ n, n ≤ s.level → ∀ a upd, (a = s.head ∨ a ∈ chainAt s pre n) →
    upd.length = maxLevel →
    (∀ j d, (delFindLoop s target ((List.range n).reverse) a upd).getD j d =
      if j < n then landAt s pre j else upd.getD j d) ∧
    (delFindLoop s target ((List.range n).reverse) a upd).length = maxLevel := by
  intro n
  induction n with
  | zero =>
    intro hn a upd ha hlen
    exact ⟨fun j d => by rw [if_neg (Nat.not_lt_zero j)]; rfl, hlen⟩
  | succ n ih =>
    intro hn a upd ha hlen
    have hrange : (List.range (n + 1)).reverse = n :: (List.range n).reverse := by
      rw [List.range_succ, List.reverse_append]
      rfl
    have hstep : delFindLoop s target ((List.range (n + 1)).reverse) a upd =
        delFindLoop s target ((List.range n).reverse)
          (delSearch s target n s.nodes.length a)
          (upd.set n (delSearch s target n s.nodes.length a)) := by
      rw [hrange]
      rfl
    have ha' : a = s.head ∨ a ∈ chainAt s pre n := by
      rcases ha with h | h
      · exact Or.inl h
      · exact Or.inr (chainAt_mono s pre n a h)
    have hnode : delSearch s target n s.nodes.length a = landAt s pre n := by
      rw [delSearch_eq]
      exact walk_land s ns pre suf _ hInv hsplit hp hs n
        (lt_of_lt_of_le hn hInv.lvlUB) a ha'
    have hn32 : n < maxLevel := lt_of_lt_of_le hn hInv.lvlUB
    rw [hstep, hnode]
    have ih' := ih (le_of_lt hn) (landAt s pre n) (upd.set n (landAt s pre n))
      (landAt_mem s pre n) (by rw [List.length_set]; exact hlen)
    refine ⟨fun j d => ?_, ih'.2⟩
    rw [ih'.1 j d]
    rcases lt_trichotomy j n with hj | hj | hj
    · rw [if_pos hj, if_pos (Nat.lt_succ_of_lt hj)]
    · subst hj
      rw [if_neg (lt_irrefl j), if_pos (Nat.lt_succ_self j)]
      exact getD_set_self upd j _ d (by rw [hlen]; exact hn32)
    · rw [if_neg (Nat.lt_asymm hj), if_neg (by omega)]
      exact getD_set_ne upd _ d (by omega)

/-- The score descent of RangeByScore/CountByScore/RemoveByScore lands on
the last spine node with score < min. -/
theorem scoreDescend_spec (s : SkipList) (ns pre suf : List Nat) (minS : ℚ)
    (hInv : InvSpine s ns) (hsplit : ns = pre ++ suf)
    (hp : ∀ x ∈ pre, (getNode s x).score < minS)
    (hs : ∀ x ∈ suf, ¬ (getNode s x).score < minS) :
    ∀ n, 1 ≤ n → n ≤ s.level → ∀ a, (a = s.head ∨ a ∈ chainAt s pre n) →
    scoreDescend s minS ((List.range n).reverse) a = landAt s pre 0 := by
  intro n
  induction n with
  | zero => omega
  | succ n ih =>
    intro h1 hn a ha
    have hrange : (List.range (n + 1)).reverse = n :: (List.range n).reverse := by
      rw [List.range_succ, List.reverse_append]
      rfl
    have ha' : a = s.head ∨ a ∈ chainAt s pre n := by
      rcases ha with h | h
      · exact Or.inl h
      · exact Or.inr (chainAt_mono s pre n a h)
    have hwalk : scoreWalk s minS n s.nodes.length a = landAt s pre n := by
      rw [scoreWalk_eq]
      exact walk_land s ns pre suf _ hInv hsplit hp hs n
        (lt_of_lt_of_le hn hInv.lvlUB) a ha'
    rw [hrange]
    show scoreDescend s minS ((List.range n).reverse) (scoreWalk s minS n s.nodes.length a) = _
    rw [hwalk]
    cases n with
    | zero => rfl
    | succ k =>
      exact ih (by omega) (le_of_lt hn) (landAt s pre (k + 1)) (landAt_mem s pre (k + 1))

/-! ### Phase lemmas for insertion -/

theorem getD_of_length_le {α : Type} (l : List α) (i : Nat) (d : α) (h : l.length ≤ i) :
    l.getD i d = d := List.getD_eq_default l d h

theorem getLastD_of_ne_nil {α : Type} (l : List α) (d d' : α) (h : l ≠ []) :
    l.getLastD d = l.getLastD d' := by
  cases l with
  | nil => exact absurd rfl h
  | cons x xs => rw [getLastD_cons', getLastD_cons']

theorem getLastD_mem_of_ne_nil {α : Type} (l : List α) (d : α) (h : l ≠ []) :
    l.getLastD d ∈ l := by
  have hdec := List.dropLast_append_getLast h
  have : l.getLastD d = (l.dropLast ++ [l.getLast h]).getLastD d := by rw [hdec]
  rw [this, getLastD_append_cons]
  rw [show ([] : List α).getLastD (l.getLast h) = l.getLast h from rfl]
  exact List.getLast_mem h

/-- Skeleton fields other than the arena contents. -/
def SameSkel (s s' : SkipList) : Prop :=
  s'.head = s.head ∧ s'.length = s.length ∧ s'.level = s.level ∧
  s'.memberMap = s.memberMap ∧ s'.nodes.length = s.nodes.length

/-- Per-node fields the invariant reads, except forward values. -/
def SameFields (s s' : SkipList) : Prop :=
  ∀ id, (getNode s' id).member = (getNode s id).member ∧
    (getNode s' id).score = (getNode s id).score ∧
    (getNode s' id).level = (getNode s id).level ∧
    (getNode s' id).forward.length = (getNode s id).forward.length ∧
    (getNode s' id).span.length = (getNode s id).span.length

theorem sameSkel_refl (s : SkipList) : SameSkel s s := ⟨rfl, rfl, rfl, rfl, rfl⟩

theorem sameSkel_trans {s t u : SkipList} (h1 : SameSkel s t) (h2 : SameSkel t u) :
    SameSkel s u :=
  ⟨h2.1.trans h1.1, h2.2.1.trans h1.2.1, h2.2.2.1.trans h1.2.2.1,
    h2.2.2.2.1.trans h1.2.2.2.1, h2.2.2.2.2.trans h1.2.2.2.2⟩

theorem sameSkel_updNode (s : SkipList) (id : Nat) (f : SNode → SNode) :
    SameSkel s (updNode s id f) :=
  ⟨rfl, rfl, rfl, rfl, by unfold updNode; simp⟩

theorem sameFields_refl (s : SkipList) : SameFields s s := fun _ => ⟨rfl, rfl, rfl, rfl, rfl⟩

theorem sameFields_trans {s t u : SkipList} (h1 : SameFields s t) (h2 : SameFields t u) :
    SameFields s u := by
  intro id
  obtain ⟨a1, a2, a3, a4, a5⟩ := h1 id
  obtain ⟨b1, b2, b3, b4, b5⟩ := h2 id
  exact ⟨b1.trans a1, b2.trans a2, b3.trans a3, b4.trans a4, b5.trans a5⟩

theorem sameFields_setFwd (s : SkipList) (id i : Nat) (v : Option Nat) :
    SameFields s (setFwd s id i v) := by
  intro id'
  unfold setFwd
  exact ⟨getNode_updNode_member _ _ _ _ (fun n => rfl),
    getNode_updNode_score _ _ _ _ (fun n => rfl),
    getNode_updNode_level _ _ _ _ (fun n => rfl),
    getNode_updNode_fwdLen _ _ _ _ (fun n => by simp),
    getNode_updNode_spnLen _ _ _ _ (fun n => rfl)⟩

theorem sameFields_setSpn (s : SkipList) (id i : Nat) (v : Int) :
    SameFields s (setSpn s id i v) := by
  intro id'
  unfold setSpn
  exact ⟨getNode_updNode_member _ _ _ _ (fun n => rfl),
    getNode_updNode_score _ _ _ _ (fun n => rfl),
    getNode_updNode_level _ _ _ _ (fun n => rfl),
    getNode_updNode_fwdLen _ _ _ _ (fun n => rfl),
    getNode_updNode_spnLen _ _ _ _ (fun n => by simp)⟩

theorem sameFields_setBwd (s : SkipList) (id : Nat) (v : Option Nat) :
    SameFields s (setBwd s id v) := by
  intro id'
  unfold setBwd
  exact ⟨getNode_updNode_member _ _ _ _ (fun n => rfl),
    getNode_updNode_score _ _ _ _ (fun n => rfl),
    getNode_updNode_level _ _ _ _ (fun n => rfl),
    getNode_updNode_fwdLen _ _ _ _ (fun n => rfl),
    getNode_updNode_spnLen _ _ _ _ (fun n => rfl)⟩

theorem getNode_setSpn_backward (s : SkipList) (id i : Nat) (v : Int) (id' : Nat) :
    (getNode (setSpn s id i v) id').backward = (getNode s id').backward := by
  unfold setSpn
  exact getNode_updNode_backward s id _ id' (fun n => rfl)

theorem getNode_setFwd_backward (s : SkipList) (id i : Nat) (v : Option Nat) (id' : Nat) :
    (getNode (setFwd s id i v) id').backward = (getNode s id').backward := by
  unfold setFwd
  exact getNode_updNode_backward s id _ id' (fun n => rfl)

theorem insRaise_spec (L : List Nat) : ∀ (s : SkipList) (upd : List Nat) (rnk : List Int),
    (∀ j ∈ L, j < upd.length) →
    SameShape s (insRaise s upd rnk L).1 ∧
    (∀ j d, (insRaise s upd rnk L).2.1.getD j d =
      if j ∈ L then s.head else upd.getD j d) ∧
    (insRaise s upd rnk L).2.1.length = upd.length := by
  induction L with
  | nil =>
    intro s upd rnk hL
    exact ⟨sameShape_refl s, fun j d => by rw [if_neg (List.not_mem_nil j)]; rfl, rfl⟩
  | cons i rest ih =>
    intro s upd rnk hL
    have hstep : insRaise s upd rnk (i :: rest) =
        insRaise (setSpn s s.head i s.length) (upd.set i s.head) (rnk.set i 0) rest := rfl
    have ih' := ih (setSpn s s.head i s.length) (upd.set i s.head) (rnk.set i 0)
      (fun j hj => by rw [List.length_set]; exact hL j (List.mem_cons.2 (Or.inr hj)))
    rw [hstep]
    refine ⟨sameShape_trans (sameShape_setSpn s s.head i s.length) ih'.1, fun j d => ?_,
      by rw [ih'.2.2, List.length_set]⟩
    rw [ih'.2.1 j d]
    have hhd : (setSpn s s.head i s.length).head = s.head := rfl
    by_cases hjr : j ∈ rest
    · rw [if_pos hjr, if_pos (List.mem_cons.2 (Or.inr hjr)), hhd]
    · rw [if_neg hjr]
      by_cases hji : j = i
      · subst hji
        rw [if_pos (List.mem_cons_self j rest),
          getD_set_self upd j s.head d (hL j (List.mem_cons_self j rest))]
      · rw [if_neg (by simp [hji, hjr]), getD_set_ne upd s.head d (fun h => hji h.symm)]

theorem insBump_sameShape (upd : List Nat) : ∀ (L : List Nat) (s : SkipList),
    SameShape s (insBump upd s L) := by
  intro L
  induction L with
  | nil => exact fun s => sameShape_refl s
  | cons i rest ih =>
    intro s
    exact sameShape_trans (sameShape_setSpn s (upd.getD i s.head) i
      (spn s (upd.getD i s.head) i + 1)) (ih _)

theorem insRewire_spec (newId : Nat) (upd : List Nat) (rnk : List Int) (rank0 : Int)
    (hd : Nat) : ∀ (L : List Nat) (t : SkipList), t.head = hd → L.Nodup →
    (∀ j ∈ L, ¬ upd.getD j hd = newId) →
    (∀ j ∈ L, upd.getD j hd < t.nodes.length) →
    (∀ j ∈ L, j < (getNode t (upd.getD j hd)).forward.length) →
    newId < t.nodes.length →
    (∀ j ∈ L, j < (getNode t newId).forward.length) →
    SameSkel t (insRewire newId upd rnk rank0 t L) ∧
    SameFields t (insRewire newId upd rnk rank0 t L) ∧
    (∀ id, (getNode (insRewire newId upd rnk rank0 t L) id).backward =
      (getNode t id).backward) ∧
    (∀ id j, fwd (insRewire newId upd rnk rank0 t L) id j =
      if j ∈ L ∧ id = newId then fwd t (upd.getD j hd) j
      else if j ∈ L ∧ id = upd.getD j hd then some newId
      else fwd t id j) := by
  intro L
  induction L with
  | nil =>
    intro t ht hnd h1 h2 h3 h4 h5
    refine ⟨sameSkel_refl t, sameFields_refl t, fun id => rfl, fun id j => ?_⟩
    rw [if_neg (by simp), if_neg (by simp)]
    rfl
  | cons i rest ih =>
    intro t ht hnd h1 h2 h3 h4 h5
    have hint : i ∉ rest := (List.nodup_cons.1 hnd).1
    have hu : upd.getD i t.head = upd.getD i hd := by rw [ht]
    have hun : ¬ upd.getD i hd = newId := h1 i (List.mem_cons_self i rest)
    have hul : upd.getD i hd < t.nodes.length := h2 i (List.mem_cons_self i rest)
    have huf : i < (getNode t (upd.getD i hd)).forward.length :=
      h3 i (List.mem_cons_self i rest)
    have hnf : i < (getNode t newId).forward.length := h5 i (List.mem_cons_self i rest)
    have hstep : insRewire newId upd rnk rank0 t (i :: rest) =
        insRewire newId upd rnk rank0
          (setSpn (setSpn (setFwd (setFwd t newId i (fwd t (upd.getD i t.head) i))
              (upd.getD i t.head) i (some newId)) newId i
              (spn (setFwd (setFwd t newId i (fwd t (upd.getD i t.head) i))
                (upd.getD i t.head) i (some newId)) (upd.getD i t.head) i -
                (rank0 - rnk.getD i 0)))
            (upd.getD i t.head) i (rank0 - rnk.getD i 0 + 1)) rest := rfl
    rw [hstep, hu]
    set u := upd.getD i hd with hu_def
    set t1 := setFwd t newId i (fwd t u i) with ht1
    set t2 := setFwd t1 u i (some newId) with ht2
    set t3 := setSpn t2 newId i (spn t2 u i - (rank0 - rnk.getD i 0)) with ht3
    set t4 := setSpn t3 u i (rank0 - rnk.getD i 0 + 1) with ht4
    have hskel : SameSkel t t4 := by
      refine sameSkel_trans (sameSkel_updNode _ _ _) (sameSkel_trans (sameSkel_updNode _ _ _)
        (sameSkel_trans (sameSkel_updNode _ _ _) (sameSkel_updNode _ _ _)))
    have hfields : SameFields t t4 :=
      sameFields_trans (sameFields_setFwd _ _ _ _) (sameFields_trans (sameFields_setFwd _ _ _ _)
        (sameFields_trans (sameFields_setSpn _ _ _ _) (sameFields_setSpn _ _ _ _)))
    have hbwd : ∀ id, (getNode t4 id).backward = (getNode t id).backward := by
      intro id
      rw [ht4, ht3, ht2, ht1]
      rw [getNode_setSpn_backward, getNode_setSpn_backward, getNode_setFwd_backward,
        getNode_setFwd_backward]
    have hfwd4 : ∀ id j, fwd t4 id j =
        if id = newId ∧ j = i then fwd t u j
        else if id = u ∧ j = i then some newId
        else fwd t id j := by
      intro id j
      have e43 : fwd t4 id j = fwd t3 id j := fwd_setSpn _ _ _ _ _ _
      have e32 : fwd t3 id j = fwd t2 id j := fwd_setSpn _ _ _ _ _ _
      rw [e43, e32]
      by_cases hqu : id = u ∧ j = i
      · rw [if_neg (fun hc => hun (hqu.1.symm.trans hc.1)), if_pos hqu, ht2, hqu.1, hqu.2]
        exact fwd_setFwd_self t1 u i (some newId)
          (by rw [ht1]; unfold setFwd; rw [updNode_nodes_length]; exact hul)
          (by rw [ht1, show (getNode (setFwd t newId i (fwd t u i)) u).forward.length =
              (getNode t u).forward.length from (sameFields_setFwd t newId i _ u).2.2.2.1]
              exact huf)
      · have e21 : fwd t2 id j = fwd t1 id j := by
          rw [ht2]
          exact fwd_setFwd_ne t1 u i (some newId) id j
            (by by_cases h : id = u
                · exact Or.inr (fun hj => hqu ⟨h, hj⟩)
                · exact Or.inl h)
        rw [e21]
        by_cases hqn : id = newId ∧ j = i
        · rw [if_pos hqn, ht1, hqn.1, hqn.2]
          exact fwd_setFwd_self t newId i (fwd t u i) h4 hnf
        · rw [if_neg hqn, if_neg hqu, ht1]
          exact fwd_setFwd_ne t newId i (fwd t u i) id j
            (by by_cases h : id = newId
                · exact Or.inr (fun hj => hqn ⟨h, hj⟩)
                · exact Or.inl h)
    have ih' := ih t4 (hskel.1.trans ht) (List.nodup_cons.1 hnd).2
      (fun j hj => h1 j (List.mem_cons.2 (Or.inr hj)))
      (fun j hj => by rw [hskel.2.2.2.2]; exact h2 j (List.mem_cons.2 (Or.inr hj)))
      (fun j hj => by
        rw [(hfields (upd.getD j hd)).2.2.2.1]
        exact h3 j (List.mem_cons.2 (Or.inr hj)))
      (by rw [hskel.2.2.2.2]; exact h4)
      (fun j hj => by
        rw [(hfields newId).2.2.2.1]
        exact h5 j (List.mem_cons.2 (Or.inr hj)))
    refine ⟨sameSkel_trans hskel ih'.1, sameFields_trans hfields ih'.2.1,
      fun id => (ih'.2.2.1 id).trans (hbwd id), fun id j => ?_⟩
    rw [ih'.2.2.2 id j]
    by_cases hjr : j ∈ rest
    · have hji : ¬ j = i := fun h => hint (h ▸ hjr)
      by_cases hidn : id = newId
      · rw [if_pos ⟨hjr, hidn⟩, if_pos ⟨List.mem_cons.2 (Or.inr hjr), hidn⟩,
          hfwd4 (upd.getD j hd) j, if_neg (fun hc => hji hc.2), if_neg (fun hc => hji hc.2)]
      · by_cases hidu : id = upd.getD j hd
        · rw [if_neg (fun hc => hidn hc.2), if_pos ⟨hjr, hidu⟩,
            if_neg (fun hc => hidn hc.2), if_pos ⟨List.mem_cons.2 (Or.inr hjr), hidu⟩]
        · rw [if_neg (fun hc => hidn hc.2), if_neg (fun hc => hidu hc.2),
            if_neg (fun hc => hidn hc.2), if_neg (fun hc => hidu hc.2),
            hfwd4 id j, if_neg (fun hc => hji hc.2), if_neg (fun hc => hji hc.2)]
    · rw [if_neg (fun hc => hjr hc.1), if_neg (fun hc => hjr hc.1), hfwd4 id j]
      by_cases hji : j = i
      · subst hji
        by_cases hidn : id = newId
        · rw [if_pos ⟨hidn, rfl⟩, if_pos ⟨List.mem_cons_self j rest, hidn⟩]
        · rw [if_neg (fun hc => hidn hc.1)]
          by_cases hidu : id = u
          · rw [if_pos ⟨hidu, rfl⟩, if_neg (fun hc => hidn hc.2),
              if_pos ⟨List.mem_cons_self j rest, hidu⟩]
          · rw [if_neg (fun hc => hidu hc.1), if_neg (fun hc => hidn hc.2),
              if_neg (fun hc => hidu hc.2)]
      · have hjL : ¬ j ∈ i :: rest := by simp [hji, hjr]
        rw [if_neg (fun hc => hji hc.2), if_neg (fun hc => hji hc.2),
          if_neg (fun hc => hjL hc.1), if_neg (fun hc => hjL hc.1)]

theorem getLastD_eq_getLast {α : Type} (l : List α) (h : l ≠ []) (d : α) :
    l.getLastD d = l.getLast h := by
  induction l generalizing d with
  | nil => exact absurd rfl h
  | cons x xs ih =>
    cases xs with
    | nil => rfl
    | cons y ys =>
      rw [getLastD_cons', ih (List.cons_ne_nil y ys) x]
      exact (List.getLast_cons (List.cons_ne_nil y ys)).symm

/-- Core agreement between states: everything the invariant reads except
the tail and backward pointers. -/
def SameCore (s s' : SkipList) : Prop :=
  s'.head = s.head ∧ s'.length = s.length ∧ s'.level = s.level ∧
  s'.memberMap = s.memberMap ∧ s'.nodes.length = s.nodes.length ∧
  (∀ id i, fwd s' id i = fwd s id i) ∧ SameFields s s'

theorem sameCore_refl (s : SkipList) : SameCore s s :=
  ⟨rfl, rfl, rfl, rfl, rfl, fun _ _ => rfl, sameFields_refl s⟩

theorem sameCore_trans {s t u : SkipList} (h1 : SameCore s t) (h2 : SameCore t u) :
    SameCore s u :=
  ⟨h2.1.trans h1.1, h2.2.1.trans h1.2.1, h2.2.2.1.trans h1.2.2.1,
    h2.2.2.2.1.trans h1.2.2.2.1, h2.2.2.2.2.1.trans h1.2.2.2.2.1,
    fun id i => (h2.2.2.2.2.2.1 id i).trans (h1.2.2.2.2.2.1 id i),
    sameFields_trans h1.2.2.2.2.2.2 h2.2.2.2.2.2.2⟩

theorem sameCore_setBwd (s : SkipList) (id : Nat) (v : Option Nat) :
    SameCore s (setBwd s id v) :=
  ⟨rfl, rfl, rfl, rfl, by unfold setBwd updNode; simp,
    fun id' i' => fwd_setBwd s id v id' i', sameFields_setBwd s id v⟩

theorem sameCore_tail (s : SkipList) (v : Option Nat) :
    SameCore s { s with tail := v } :=
  ⟨rfl, rfl, rfl, rfl, rfl, fun _ _ => rfl, fun _ => ⟨rfl, rfl, rfl, rfl, rfl⟩⟩

theorem sameCore_of_sameShape {s s' : SkipList} (h : SameShape s s') : SameCore s s' :=
  ⟨h.1, h.2.2.1, h.2.2.2.1, h.2.2.2.2.1, h.2.2.2.2.2.1, h.2.2.2.2.2.2.1,
    fun id => ⟨(h.2.2.2.2.2.2.2 id).1, (h.2.2.2.2.2.2.2 id).2.1,
      (h.2.2.2.2.2.2.2 id).2.2.1, (h.2.2.2.2.2.2.2 id).2.2.2.2.1,
      (h.2.2.2.2.2.2.2 id).2.2.2.2.2⟩⟩

/-- Preservation of the invariant by insertCore: inserting a fresh member
at the found position extends the spine at exactly that position. -/
theorem insertCore_inv
    (s1 : SkipList) (ns pre suf : List Nat) (member : String) (score : ℚ)
    (newLevel : Nat) (upd : List Nat) (rnk : List Int)
    (hInv : InvSpine s1 ns)
    (hsplit : ns = pre ++ suf)
    (hpre : ∀ x ∈ pre, entLt (entryOf s1 x) (score, member))
    (hsuf : ∀ x ∈ suf, entLt (score, member) (entryOf s1 x))
    (hupd : ∀ j d, j < newLevel → upd.getD j d = landAt s1 pre j)
    (hnl1 : 1 ≤ newLevel) (hnlle : newLevel ≤ s1.level)
    (hmem : ∀ x ∈ ns, ¬ (getNode s1 x).member = member) :
    InvSpine (insertCore s1 member score newLevel upd rnk)
      (pre ++ s1.nodes.length :: suf) ∧
    (∀ id, ¬ id = s1.nodes.length →
      entryOf (insertCore s1 member score newLevel upd rnk) id = entryOf s1 id) ∧
    entryOf (insertCore s1 member score newLevel upd rnk) s1.nodes.length = (score, member) ∧
    (insertCore s1 member score newLevel upd rnk).length = s1.length + 1 ∧
    (insertCore s1 member score newLevel upd rnk).memberMap =
      mmInsert s1.memberMap member s1.nodes.length := by
  obtain ⟨s2, s3, s4, s5, s6, h2eq, h3eq, h4eq, h5eq, h6eq, hcore⟩ :
      ∃ s2 s3 s4 s5 s6,
        s2 = { s1 with nodes := s1.nodes ++
          [{ member := member, score := score, forward := List.replicate newLevel none,
             span := List.replicate newLevel 0, backward := none, level := newLevel }] } ∧
        s3 = insRewire s1.nodes.length upd rnk (rnk.getD 0 0) s2 (List.range newLevel) ∧
        s4 = insBump upd s3 ((List.range s3.level).drop newLevel) ∧
        s5 = (if upd.getD 0 s4.head ≠ s4.head then
          setBwd s4 s1.nodes.length (some (upd.getD 0 s4.head)) else s4) ∧
        s6 = (match fwd s5 s1.nodes.length 0 with
          | some nxt => setBwd s5 nxt (some s1.nodes.length)
          | none => { s5 with tail := some s1.nodes.length }) ∧
        insertCore s1 member score newLevel upd rnk =
          { s6 with length := s6.length + 1,
                    memberMap := mmInsert s6.memberMap member s1.nodes.length } :=
    ⟨_, _, _, _, _, rfl, rfl, rfl, rfl, rfl, rfl⟩
  set newId := s1.nodes.length with hnewId
  -- s2 facts
  have hs2node_old : ∀ id, ¬ id = newId → getNode s2 id = getNode s1 id := by
    intro id hid
    rw [h2eq]
    show (s1.nodes ++ [_]).getD id emptyNode = s1.nodes.getD id emptyNode
    by_cases h : id < s1.nodes.length
    · exact getD_concat_lt _ _ _ _ h
    · rw [getD_of_length_le _ _ _ (by simp; omega), getD_of_length_le _ _ _ (by omega)]
  have hs2node_new : getNode s2 newId =
      { member := member, score := score, forward := List.replicate newLevel none,
        span := List.replicate newLevel 0, backward := none, level := newLevel } := by
    rw [h2eq]
    show (s1.nodes ++ [_]).getD s1.nodes.length emptyNode = _
    exact getD_concat_self _ _ _
  have hs2len : s2.nodes.length = s1.nodes.length + 1 := by rw [h2eq]; simp
  have hs2head : s2.head = s1.head := by rw [h2eq]
  have hs2level : s2.level = s1.level := by rw [h2eq]
  have hs2length : s2.length = s1.length := by rw [h2eq]
  have hs2mm : s2.memberMap = s1.memberMap := by rw [h2eq]
  have hs2fwd_old : ∀ id i, ¬ id = newId → fwd s2 id i = fwd s1 id i := by
    intro id i hid
    unfold fwd
    rw [hs2node_old id hid]
  have hs2fwd_new : ∀ i, fwd s2 newId i = none := by
    intro i
    unfold fwd
    rw [hs2node_new]
    show (List.replicate newLevel (none : Option Nat)).getD i none = none
    by_cases h : i < newLevel
    · exact getD_replicate _ _ _ _ h
    · exact getD_of_length_le _ _ _ (by simp; omega)
  -- landing facts
  have hln : ∀ j, landAt s1 pre j = s1.head ∨ landAt s1 pre j ∈ ns := by
    intro j
    rcases landAt_mem s1 pre j with h | h
    · exact Or.inl h
    · exact Or.inr (by rw [hsplit]; exact List.mem_append.2 (Or.inl (chainAt_sub_mem _ _ _ _ h).1))
  have hland_lt : ∀ j, landAt s1 pre j < s1.nodes.length := by
    intro j
    rcases hln j with h | h
    · rw [h]; exact hInv.headLt
    · exact (hInv.nodesOk _ h).1
  have hland_ne_new : ∀ j, ¬ landAt s1 pre j = newId := fun j h =>
    absurd (h ▸ hland_lt j) (lt_irrefl _)
  have hland_ne_head_of_mem : ∀ x, x ∈ ns → ¬ x = s1.head := by
    intro x hx h
    exact absurd (h ▸ (hInv.nodesOk x hx).2.1) (fun hc => hc rfl)
  have hland_fwdlen : ∀ j, j < newLevel →
      j < (getNode s1 (landAt s1 pre j)).forward.length := by
    intro j hj
    rcases landAt_mem s1 pre j with h | h
    · rw [h, hInv.headFwdLen]
      exact lt_of_lt_of_le hj (le_trans hnlle hInv.lvlUB)
    · rcases chainAt_sub_mem _ _ _ _ h with ⟨hx, hlvl⟩
      have hx' : landAt s1 pre j ∈ ns := by
        rw [hsplit]; exact List.mem_append.2 (Or.inl hx)
      rw [(hInv.nodesOk _ hx').2.2.2.2.1]
      exact hlvl
  -- rewire spec
  have hrw := insRewire_spec newId upd rnk (rnk.getD 0 0) s1.head (List.range newLevel) s2
    hs2head (List.nodup_range newLevel)
    (fun j hj => by
      rw [hupd j s1.head (List.mem_range.1 hj)]
      exact hland_ne_new j)
    (fun j hj => by
      rw [hupd j s1.head (List.mem_range.1 hj), hs2len]
      exact lt_trans (hland_lt j) (Nat.lt_succ_self _))
    (fun j hj => by
      rw [hupd j s1.head (List.mem_range.1 hj),
        show getNode s2 (landAt s1 pre j) = getNode s1 (landAt s1 pre j) from
          hs2node_old _ (hland_ne_new j)]
      exact hland_fwdlen j (List.mem_range.1 hj))
    (by rw [hs2len]; exact Nat.lt_succ_self _)
    (fun j hj => by
      rw [hs2node_new]
      show j < (List.replicate newLevel (none : Option Nat)).length
      simp
      exact List.mem_range.1 hj)
  obtain ⟨hrwSkel, hrwFields, hrwBwd, hrwFwd⟩ := hrw
  rw [← h3eq] at hrwSkel hrwFields hrwBwd hrwFwd
  -- later phases change nothing the invariant reads
  have hc34 : SameCore s3 s4 := by
    rw [h4eq]
    exact sameCore_of_sameShape (insBump_sameShape upd _ s3)
  have hc45 : SameCore s4 s5 := by
    rw [h5eq]
    by_cases h : upd.getD 0 s4.head ≠ s4.head
    · rw [if_pos h]
      exact sameCore_setBwd s4 newId _
    · rw [if_neg h]
      exact sameCore_refl s4
  have hc56 : SameCore s5 s6 := by
    rw [h6eq]
    cases hm : fwd s5 newId 0 with
    | some nxt => exact sameCore_setBwd s5 nxt _
    | none => exact sameCore_tail s5 _
  have hc36 : SameCore s3 s6 := sameCore_trans hc34 (sameCore_trans hc45 hc56)
  set sF := insertCore s1 member score newLevel upd rnk with hsF
  have hFlen : sF.length = s1.length + 1 := by
    rw [hcore]
    show s6.length + 1 = s1.length + 1
    rw [hc36.2.1, hrwSkel.2.1, hs2length]
  have hFmm : sF.memberMap = mmInsert s1.memberMap member newId := by
    rw [hcore]
    show mmInsert s6.memberMap member newId = mmInsert s1.memberMap member newId
    rw [hc36.2.2.2.1, hrwSkel.2.2.2.1, hs2mm]
  have hFhead : sF.head = s1.head := by
    rw [hcore]
    show s6.head = s1.head
    rw [hc36.1, hrwSkel.1, hs2head]
  have hFlevel : sF.level = s1.level := by
    rw [hcore]
    show s6.level = s1.level
    rw [hc36.2.2.1, hrwSkel.2.2.1, hs2level]
  have hFnodesLen : sF.nodes.length = s1.nodes.length + 1 := by
    rw [hcore]
    show s6.nodes.length = s1.nodes.length + 1
    rw [hc36.2.2.2.2.1, hrwSkel.2.2.2.2, hs2len]
  have hFfields : SameFields s2 sF := by
    have h1 : SameFields s2 s6 := sameFields_trans hrwFields hc36.2.2.2.2.2.2
    intro id
    have h2 := h1 id
    rw [hcore]
    exact h2
  have hFfwd3 : ∀ id i, fwd sF id i = fwd s3 id i := by
    intro id i
    rw [hcore]
    show fwd s6 id i = fwd s3 id i
    exact hc36.2.2.2.2.2.1 id i
  -- the final forward-pointer formula, over the pre-insert state
  have hFfwd : ∀ id j, fwd sF id j =
      if j < newLevel ∧ id = newId then fwd s1 (landAt s1 pre j) j
      else if j < newLevel ∧ id = landAt s1 pre j then some newId
      else if id = newId then none
      else fwd s1 id j := by
    intro id j
    rw [hFfwd3 id j, hrwFwd id j]
    by_cases hj : j < newLevel
    · have hjm : j ∈ List.range newLevel := List.mem_range.2 hj
      by_cases hid : id = newId
      · rw [if_pos (show j ∈ List.range newLevel ∧ id = newId from ⟨hjm, hid⟩),
          if_pos (show j < newLevel ∧ id = newId from ⟨hj, hid⟩), hupd j s1.head hj]
        exact hs2fwd_old _ j (hland_ne_new j)
      · by_cases hid2 : id = landAt s1 pre j
        · rw [if_neg (show ¬ (j ∈ List.range newLevel ∧ id = newId) from fun hc => hid hc.2),
            if_pos (show j ∈ List.range newLevel ∧ id = upd.getD j s1.head from
              ⟨hjm, by rw [hupd j s1.head hj]; exact hid2⟩),
            if_neg (show ¬ (j < newLevel ∧ id = newId) from fun hc => hid hc.2),
            if_pos (show j < newLevel ∧ id = landAt s1 pre j from ⟨hj, hid2⟩)]
        · rw [if_neg (show ¬ (j ∈ List.range newLevel ∧ id = newId) from fun hc => hid hc.2),
            if_neg (show ¬ (j ∈ List.range newLevel ∧ id = upd.getD j s1.head) from
              fun hc => hid2 (by rw [← hupd j s1.head hj]; exact hc.2)),
            if_neg (show ¬ (j < newLevel ∧ id = newId) from fun hc => hid hc.2),
            if_neg (show ¬ (j < newLevel ∧ id = landAt s1 pre j) from fun hc => hid2 hc.2),
            if_neg (show ¬ id = newId from hid)]
          exact hs2fwd_old id j hid
    · have hjm : ¬ j ∈ List.range newLevel := fun hc => hj (List.mem_range.1 hc)
      rw [if_neg (show ¬ (j ∈ List.range newLevel ∧ id = newId) from fun hc => hjm hc.1),
        if_neg (show ¬ (j ∈ List.range newLevel ∧ id = upd.getD j s1.head) from
          fun hc => hjm hc.1),
        if_neg (show ¬ (j < newLevel ∧ id = newId) from fun hc => hj hc.1),
        if_neg (show ¬ (j < newLevel ∧ id = landAt s1 pre j) from fun hc => hj hc.1)]
      by_cases hid : id = newId
      · rw [if_pos (show id = newId from hid), hid]
        exact hs2fwd_new j
      · rw [if_neg (show ¬ id = newId from hid)]
        exact hs2fwd_old id j hid
  -- per-node read-back
  have hFnode_old : ∀ id, ¬ id = newId →
      (getNode sF id).member = (getNode s1 id).member ∧
      (getNode sF id).score = (getNode s1 id).score ∧
      (getNode sF id).level = (getNode s1 id).level ∧
      (getNode sF id).forward.length = (getNode s1 id).forward.length ∧
      (getNode sF id).span.length = (getNode s1 id).span.length := by
    intro id hid
    obtain ⟨a1, a2, a3, a4, a5⟩ := hFfields id
    rw [hs2node_old id hid] at a1 a2 a3 a4 a5
    exact ⟨a1, a2, a3, a4, a5⟩
  have hFnode_new :
      (getNode sF newId).member = member ∧ (getNode sF newId).score = score ∧
      (getNode sF newId).level = newLevel ∧
      (getNode sF newId).forward.length = newLevel ∧
      (getNode sF newId).span.length = newLevel := by
    obtain ⟨a1, a2, a3, a4, a5⟩ := hFfields newId
    rw [hs2node_new] at a1 a2 a3 a4 a5
    simp at a4 a5
    exact ⟨a1, a2, a3, a4, a5⟩
  have hentry_old : ∀ id, ¬ id = newId → entryOf sF id = entryOf s1 id := by
    intro id hid
    unfold entryOf
    rw [(hFnode_old id hid).1, (hFnode_old id hid).2.1]
  have hentry_new : entryOf sF newId = (score, member) := by
    unfold entryOf
    rw [hFnode_new.1, hFnode_new.2.1]
  have hns_lt : ∀ x ∈ ns, x < newId := fun x hx => (hInv.nodesOk x hx).1
  have hns_ne_new : ∀ x ∈ ns, ¬ x = newId := fun x hx h =>
    absurd (h ▸ hns_lt x hx) (lt_irrefl _)
  have hpre_sub : ∀ x ∈ pre, x ∈ ns := by
    intro x hx
    rw [hsplit]
    exact List.mem_append.2 (Or.inl hx)
  have hsuf_sub : ∀ x ∈ suf, x ∈ ns := by
    intro x hx
    rw [hsplit]
    exact List.mem_append.2 (Or.inr hx)
  -- the new spine
  set ns' := pre ++ newId :: suf with hns'
  have hlvl_agree_old : ∀ l : List Nat, (∀ x ∈ l, x ∈ ns) →
      ∀ i, chainAt sF l i = chainAt s1 l i := by
    intro l hl i
    unfold chainAt
    refine List.filter_congr ?_
    intro x hx
    rw [(hFnode_old x (hns_ne_new x (hl x hx))).2.2.1]
  have hheadne : ¬ s1.head = newId := fun h => absurd (h ▸ hInv.headLt) (lt_irrefl _)
  have hchains : ∀ i, i < maxLevel →
      isChain sF i s1.head (chainAt sF ns' i) := by
    intro i hi
    have hchainsOld : isChain s1 i s1.head (chainAt s1 pre i ++ chainAt s1 suf i) := by
      have h := hInv.chains i hi
      rwa [hsplit, chainAt_append] at h
    have hsplitF : chainAt sF ns' i =
        chainAt s1 pre i ++ chainAt sF [newId] i ++ chainAt s1 suf i := by
      rw [hns', show (pre ++ newId :: suf) = pre ++ ([newId] ++ suf) by simp,
        chainAt_append, chainAt_append,
        hlvl_agree_old pre hpre_sub i, hlvl_agree_old suf hsuf_sub i]
      simp [List.append_assoc]
    by_cases hil : i < newLevel
    · have hnewChain : chainAt sF [newId] i = [newId] := by
        unfold chainAt
        rw [List.filter_cons_of_pos (by simp [hFnode_new.2.2.1, hil])]
        rfl
      rw [hsplitF, hnewChain]
      obtain ⟨A, hA⟩ : ∃ A, chainAt s1 pre i = A := ⟨_, rfl⟩
      obtain ⟨B, hB⟩ : ∃ B, chainAt s1 suf i = B := ⟨_, rfl⟩
      rw [hA, hB] at hchainsOld ⊢
      rw [show A ++ [newId] ++ B = A ++ newId :: B by simp]
      have hAsub : ∀ x ∈ A, x ∈ pre := by
        intro x hx
        exact (chainAt_sub_mem s1 pre i x (by rw [hA]; exact hx)).1
      have hBsub : ∀ x ∈ B, x ∈ suf := by
        intro x hx
        exact (chainAt_sub_mem s1 suf i x (by rw [hB]; exact hx)).1
      have hland_eq : landAt s1 pre i = A.getLastD s1.head := by
        unfold landAt
        rw [hA]
      have hBchainF : ∀ (b : Nat) (B' : List Nat), isChain s1 i b B' →
          b ∈ suf → (∀ x ∈ B', x ∈ suf) → isChain sF i b B' := by
        intro b B' hch hb hB'
        refine isChain_transfer s1 sF i b B' hch ?_
        intro x hx
        have hxs : x ∈ suf := by
          rcases hx with rfl | hx
          · exact hb
          · exact hB' x hx
        have hxns : x ∈ ns := hsuf_sub x hxs
        have hxlnd : ¬ x = landAt s1 pre i := by
          intro hc
          rcases landAt_mem s1 pre i with h | h
          · exact (hland_ne_head_of_mem x hxns) (hc.trans h)
          · have hxpre : x ∈ pre := (chainAt_sub_mem s1 pre i _ (hc ▸ h)).1
            have hd : ns.Nodup := (List.nodup_cons.1 hInv.nodup).2
            rw [hsplit] at hd
            exact (List.disjoint_of_nodup_append hd) hxpre hxs
        rw [hFfwd x i,
          if_neg (show ¬ (i < newLevel ∧ x = newId) from fun hc => hns_ne_new x hxns hc.2),
          if_neg (show ¬ (i < newLevel ∧ x = landAt s1 pre i) from fun hc => hxlnd hc.2),
          if_neg (show ¬ x = newId from hns_ne_new x hxns)]
      have hstep : ∀ (B0 : List Nat), isChain s1 i (landAt s1 pre i) B0 →
          (∀ x ∈ B0, x ∈ suf) → isChain sF i newId B0 := by
        intro B0 hch hB0
        have hfwd_new : fwd sF newId i = fwd s1 (landAt s1 pre i) i := by
          rw [hFfwd newId i,
            if_pos (show i < newLevel ∧ newId = newId from ⟨hil, rfl⟩)]
        cases B0 with
        | nil =>
          show fwd sF newId i = none
          rw [hfwd_new]
          exact hch
        | cons b B' =>
          refine ⟨by rw [hfwd_new]; exact hch.1, ?_⟩
          exact hBchainF b B' hch.2 (hB0 b (List.mem_cons_self _ _))
            (fun x hx => hB0 x (List.mem_cons.2 (Or.inr hx)))
      by_cases hAnil : A = []
      · have hu : landAt s1 pre i = s1.head := by
          rw [hland_eq, hAnil]
          rfl
        rw [hAnil] at hchainsOld ⊢
        show isChain sF i s1.head (newId :: B)
        refine ⟨?_, ?_⟩
        · rw [hFfwd s1.head i,
            if_neg (show ¬ (i < newLevel ∧ s1.head = newId) from fun hc => hheadne hc.2),
            if_pos (show i < newLevel ∧ s1.head = landAt s1 pre i from ⟨hil, hu.symm⟩)]
        · exact hstep B (by rw [hu]; exact hchainsOld) hBsub
      · have hu_last : landAt s1 pre i = A.getLast hAnil := by
          rw [hland_eq]
          exact getLastD_eq_getLast A hAnil s1.head
        have hAdec : A.dropLast ++ [landAt s1 pre i] = A := by
          rw [hu_last]
          exact List.dropLast_append_getLast hAnil
        have hchainsOld2 : isChain s1 i s1.head (A.dropLast ++ landAt s1 pre i :: B) := by
          have heq : A.dropLast ++ landAt s1 pre i :: B =
              (A.dropLast ++ [landAt s1 pre i]) ++ B := by simp
          rw [heq, hAdec]
          exact hchainsOld
        obtain ⟨hlinks, huchain⟩ :=
          (isChain_append_iff s1 i s1.head (landAt s1 pre i) A.dropLast B).1 hchainsOld2
        have hAnodup : A.Nodup := by
          rw [← hA]
          refine chainAt_nodup s1 pre i ?_
          have hnd : ns.Nodup := (List.nodup_cons.1 hInv.nodup).2
          rw [hsplit] at hnd
          exact (List.nodup_append.1 hnd).1
        have hu_notin_dropLast : landAt s1 pre i ∉ A.dropLast := by
          intro hc
          have hnd := hAnodup
          rw [← hAdec] at hnd
          rcases List.nodup_append.1 hnd with ⟨_, _, hdisj⟩
          exact hdisj hc (List.mem_singleton.2 rfl)
        have hu_memA : landAt s1 pre i ∈ A := by
          rw [← hAdec]
          simp
        have hu_ns : landAt s1 pre i ∈ ns := hpre_sub _ (hAsub _ hu_memA)
        have hdropsub : ∀ x ∈ A.dropLast, x ∈ A :=
          fun x hx => (List.dropLast_sublist A).subset hx
        have hlinksF : links sF i s1.head A.dropLast (landAt s1 pre i) := by
          refine links_transfer s1 sF i s1.head (landAt s1 pre i) A.dropLast hlinks ?_
          intro x hx
          have hxne_new : ¬ x = newId := by
            rcases hx with rfl | hx
            · exact hheadne
            · exact hns_ne_new x (hpre_sub x (hAsub x (hdropsub x hx)))
          have hxne_u : ¬ x = landAt s1 pre i := by
            rcases hx with rfl | hx
            · exact fun h => (hland_ne_head_of_mem _ hu_ns) h.symm
            · exact fun h => hu_notin_dropLast (h ▸ hx)
          rw [hFfwd x i,
            if_neg (show ¬ (i < newLevel ∧ x = newId) from fun hc => hxne_new hc.2),
            if_neg (show ¬ (i < newLevel ∧ x = landAt s1 pre i) from fun hc => hxne_u hc.2),
            if_neg (show ¬ x = newId from hxne_new)]
        have hfwdu : fwd sF (landAt s1 pre i) i = some newId := by
          rw [hFfwd (landAt s1 pre i) i,
            if_neg (show ¬ (i < newLevel ∧ landAt s1 pre i = newId) from
              fun hc => hland_ne_new i hc.2),
            if_pos (show i < newLevel ∧ landAt s1 pre i = landAt s1 pre i from ⟨hil, rfl⟩)]
        show isChain sF i s1.head (A ++ newId :: B)
        have hlist : A ++ newId :: B = A.dropLast ++ landAt s1 pre i :: (newId :: B) := by
          rw [← hAdec]
          simp
        rw [hlist]
        exact (isChain_append_iff sF i s1.head (landAt s1 pre i) A.dropLast (newId :: B)).2
          ⟨hlinksF, hfwdu, hstep B huchain hBsub⟩
    · have hnewChain : chainAt sF [newId] i = [] := by
        unfold chainAt
        rw [List.filter_cons_of_neg (by simp [hFnode_new.2.2.1]; omega)]
        rfl
      rw [hsplitF, hnewChain, List.append_nil]
      refine isChain_transfer s1 sF i s1.head _ hchainsOld ?_
      intro x hx
      have hxne : ¬ x = newId := by
        rcases hx with rfl | hx
        · exact hheadne
        · rcases List.mem_append.1 hx with h | h
          · exact hns_ne_new x (hpre_sub x (chainAt_sub_mem _ _ _ _ h).1)
          · exact hns_ne_new x (hsuf_sub x (chainAt_sub_mem _ _ _ _ h).1)
      rw [hFfwd x i,
        if_neg (show ¬ (i < newLevel ∧ x = newId) from fun hc => hil hc.1),
        if_neg (show ¬ (i < newLevel ∧ x = landAt s1 pre i) from fun hc => hil hc.1),
        if_neg (show ¬ x = newId from hxne)]
  -- membership between the old and new spines
  have hmem_ns' : ∀ x ∈ ns, x ∈ ns' := by
    intro x hx
    rw [hsplit] at hx
    rw [hns']
    rcases List.mem_append.1 hx with h | h
    · exact List.mem_append.2 (Or.inl h)
    · exact List.mem_append.2 (Or.inr (List.mem_cons.2 (Or.inr h)))
  have hmem_ns : ∀ x ∈ ns', ¬ x = newId → x ∈ ns := by
    intro x hx hne
    rw [hns'] at hx
    rw [hsplit]
    rcases List.mem_append.1 hx with h | h
    · exact List.mem_append.2 (Or.inl h)
    · rcases List.mem_cons.1 h with h | h
      · exact absurd h hne
      · exact List.mem_append.2 (Or.inr h)
  -- the pieces of the old sorted chain
  have hold_sorted := hInv.sorted
  rw [hsplit] at hold_sorted
  obtain ⟨hPpre, hPsuf, hPcross⟩ := List.pairwise_append.1 hold_sorted
  refine ⟨⟨?_, ?_, ?_, ?_, ?_, ?_, ?_, ?_, ?_, ?_, ?_⟩,
    hentry_old, hentry_new, hFlen, hFmm⟩
  · rw [hFhead, hFnodesLen]
    exact lt_trans hInv.headLt (Nat.lt_succ_self _)
  · rw [hFhead, (hFnode_old s1.head hheadne).2.2.2.1]
    exact hInv.headFwdLen
  · rw [hFhead, (hFnode_old s1.head hheadne).2.2.2.2]
    exact hInv.headSpnLen
  · rw [hFlevel]
    exact hInv.lvlLB
  · rw [hFlevel]
    exact hInv.lvlUB
  · rw [hFlen, hInv.len, hns']
    rw [hsplit]
    simp
    omega
  · rw [hFhead]
    refine List.nodup_cons.2 ⟨?_, ?_⟩
    · intro hc
      rcases List.mem_append.1 (hns' ▸ hc) with h | h
      · exact (List.nodup_cons.1 hInv.nodup).1 (hpre_sub _ h)
      · rcases List.mem_cons.1 h with h | h
        · exact hheadne h
        · exact (List.nodup_cons.1 hInv.nodup).1 (hsuf_sub _ h)
    · rw [hns']
      refine List.nodup_middle.2 (List.nodup_cons.2 ⟨?_, ?_⟩)
      · intro hc
        have : newId ∈ ns := by rw [hsplit]; exact hc
        exact (hns_ne_new newId this) rfl
      · rw [← hsplit]
        exact (List.nodup_cons.1 hInv.nodup).2
  · intro id hid
    by_cases hidn : id = newId
    · subst hidn
      obtain ⟨b1, b2, b3, b4, b5⟩ := hFnode_new
      refine ⟨?_, ?_, ?_, ?_, ?_, ?_⟩
      · rw [hFnodesLen]
        exact Nat.lt_succ_self _
      · rw [hFhead]
        exact fun h => hheadne h.symm
      · rw [b3]
        exact hnl1
      · rw [b3, hFlevel]
        exact hnlle
      · rw [b4, b3]
      · rw [b5, b3]
    · have hidns : id ∈ ns := hmem_ns id hid hidn
      obtain ⟨k1, k2, k3, k4, k5, k6⟩ := hInv.nodesOk id hidns
      obtain ⟨b1, b2, b3, b4, b5⟩ := hFnode_old id hidn
      refine ⟨?_, ?_, ?_, ?_, ?_, ?_⟩
      · rw [hFnodesLen]
        exact lt_trans k1 (Nat.lt_succ_self _)
      · rw [hFhead]
        exact k2
      · rw [b3]
        exact k3
      · rw [b3, hFlevel]
        exact k4
      · rw [b4, b3]
        exact k5
      · rw [b5, b3]
        exact k6
  · intro i hi
    rw [hFhead]
    exact hchains i hi
  · rw [hns']
    refine List.pairwise_append.2 ⟨?_, ?_, ?_⟩
    · refine List.Pairwise.imp_of_mem ?_ hPpre
      intro a b ha hb hab
      rw [hentry_old a (hns_ne_new a (hpre_sub a ha)),
        hentry_old b (hns_ne_new b (hpre_sub b hb))]
      exact hab
    · refine List.pairwise_cons.2 ⟨?_, ?_⟩
      · intro b hb
        rw [hentry_new, hentry_old b (hns_ne_new b (hsuf_sub b hb))]
        exact hsuf b hb
      · refine List.Pairwise.imp_of_mem ?_ hPsuf
        intro a b ha hb hab
        rw [hentry_old a (hns_ne_new a (hsuf_sub a ha)),
          hentry_old b (hns_ne_new b (hsuf_sub b hb))]
        exact hab
    · intro a ha b hb
      rcases List.mem_cons.1 hb with rfl | hb
      · rw [hentry_new, hentry_old a (hns_ne_new a (hpre_sub a ha))]
        exact hpre a ha
      · rw [hentry_old a (hns_ne_new a (hpre_sub a ha)),
          hentry_old b (hns_ne_new b (hsuf_sub b hb))]
        exact hPcross a ha b hb
  · intro m id
    rw [hFmm]
    by_cases hm : m = member
    · subst hm
      rw [mmLookup_insert_self]
      constructor
      · intro h
        have hid : id = newId := by
          injection h with h
          exact h.symm
        subst hid
        exact ⟨by rw [hns']; exact List.mem_append.2 (Or.inr (List.mem_cons.2 (Or.inl rfl))),
          hFnode_new.1⟩
      · rintro ⟨hmem', hmm'⟩
        have hid : id = newId := by
          by_contra hne
          have hidns : id ∈ ns := hmem_ns id hmem' hne
          exact hmem id hidns (by rw [← (hFnode_old id hne).1]; exact hmm')
        rw [hid]
    · rw [mmLookup_insert_ne _ _ _ _ hm]
      constructor
      · intro h
        obtain ⟨h1, h2⟩ := (hInv.mm m id).1 h
        exact ⟨hmem_ns' id h1, by rw [(hFnode_old id (hns_ne_new id h1)).1]; exact h2⟩
      · rintro ⟨h1, h2⟩
        have hne : ¬ id = newId := by
          intro he
          rw [he] at h2
          rw [hFnode_new.1] at h2
          exact hm h2.symm
        exact (hInv.mm m id).2 ⟨hmem_ns id h1 hne,
          by rw [← (hFnode_old id hne).1]; exact h2⟩

/-! ### Phase lemmas for deletion -/

theorem links_append_iff (s : SkipList) (i : Nat) (a x b : Nat) (l₁ l₂ : List Nat) :
    links s i a (l₁ ++ x :: l₂) b ↔ links s i a l₁ x ∧ links s i x l₂ b := by
  induction l₁ generalizing a with
  | nil => exact Iff.rfl
  | cons y ys ih =>
    simp only [List.cons_append, List.append_eq, links, ih, and_assoc]

theorem deleteRewire_spec (nodeId : Nat) (upd : List Nat) (hd : Nat) :
    ∀ (L : List Nat) (t : SkipList), t.head = hd → L.Nodup →
    (∀ j ∈ L, ¬ upd.getD j hd = nodeId) →
    (∀ j ∈ L, upd.getD j hd < t.nodes.length) →
    (∀ j ∈ L, j < (getNode t (upd.getD j hd)).forward.length) →
    (∀ j ∈ L, fwd t (upd.getD j hd) j = some nodeId) →
    SameSkel t (deleteRewire nodeId upd t L) ∧
    SameFields t (deleteRewire nodeId upd t L) ∧
    (∀ id, (getNode (deleteRewire nodeId upd t L) id).backward =
      (getNode t id).backward) ∧
    (∀ id j, fwd (deleteRewire nodeId upd t L) id j =
      if j ∈ L ∧ id = upd.getD j hd then fwd t nodeId j
      else fwd t id j) := by
  intro L
  induction L with
  | nil =>
    intro t ht hnd h1 h2 h3 h4
    refine ⟨sameSkel_refl t, sameFields_refl t, fun id => rfl, fun id j => ?_⟩
    rw [if_neg (by simp)]
    rfl
  | cons i rest ih =>
    intro t ht hnd h1 h2 h3 h4
    have hint : i ∉ rest := (List.nodup_cons.1 hnd).1
    have hu : upd.getD i t.head = upd.getD i hd := by rw [ht]
    have hun : ¬ upd.getD i hd = nodeId := h1 i (List.mem_cons_self i rest)
    have hul : upd.getD i hd < t.nodes.length := h2 i (List.mem_cons_self i rest)
    have huf : i < (getNode t (upd.getD i hd)).forward.length :=
      h3 i (List.mem_cons_self i rest)
    have hut : fwd t (upd.getD i hd) i = some nodeId := h4 i (List.mem_cons_self i rest)
    have hstep : deleteRewire nodeId upd t (i :: rest) =
        deleteRewire nodeId upd
          (if fwd t (upd.getD i t.head) i = some nodeId then
            setFwd (setSpn t (upd.getD i t.head) i
              (spn t (upd.getD i t.head) i + spn t nodeId i - 1)) (upd.getD i t.head) i
              (fwd t nodeId i)
          else setSpn t (upd.getD i t.head) i (spn t (upd.getD i t.head) i - 1)) rest := rfl
    rw [hstep, hu, if_pos hut]
    have hbd1 : upd.getD i hd <
        (setSpn t (upd.getD i hd) i (spn t (upd.getD i hd) i + spn t nodeId i - 1)).nodes.length := by
      rw [show (setSpn t (upd.getD i hd) i _).nodes.length = t.nodes.length from by
        unfold setSpn updNode; simp]
      exact hul
    have hbd2 : i < (getNode (setSpn t (upd.getD i hd) i
        (spn t (upd.getD i hd) i + spn t nodeId i - 1)) (upd.getD i hd)).forward.length := by
      rw [(sameFields_setSpn t (upd.getD i hd) i _ (upd.getD i hd)).2.2.2.1]
      exact huf
    have hfields : SameFields t (setFwd (setSpn t (upd.getD i hd) i
        (spn t (upd.getD i hd) i + spn t nodeId i - 1)) (upd.getD i hd) i (fwd t nodeId i)) :=
      sameFields_trans (sameFields_setSpn _ _ _ _) (sameFields_setFwd _ _ _ _)
    have hskel : SameSkel t (setFwd (setSpn t (upd.getD i hd) i
        (spn t (upd.getD i hd) i + spn t nodeId i - 1)) (upd.getD i hd) i (fwd t nodeId i)) :=
      sameSkel_trans (sameSkel_updNode _ _ _) (sameSkel_updNode _ _ _)
    have hbwd : ∀ id, (getNode (setFwd (setSpn t (upd.getD i hd) i
        (spn t (upd.getD i hd) i + spn t nodeId i - 1)) (upd.getD i hd) i (fwd t nodeId i))
        id).backward = (getNode t id).backward := by
      intro id
      rw [getNode_setFwd_backward, getNode_setSpn_backward]
    have hfwd1 : ∀ id j, fwd (setFwd (setSpn t (upd.getD i hd) i
        (spn t (upd.getD i hd) i + spn t nodeId i - 1)) (upd.getD i hd) i (fwd t nodeId i))
        id j = if id = upd.getD i hd ∧ j = i then fwd t nodeId j else fwd t id j := by
      intro id j
      by_cases hq : id = upd.getD i hd ∧ j = i
      · rw [if_pos hq, hq.1, hq.2]
        rw [fwd_setFwd_self _ _ _ _ hbd1 hbd2]
      · rw [if_neg hq]
        rw [fwd_setFwd_ne _ _ _ _ id j
          (by by_cases h : id = upd.getD i hd
              · exact Or.inr (fun hj => hq ⟨h, hj⟩)
              · exact Or.inl h)]
        exact fwd_setSpn _ _ _ _ _ _
    have ih' := ih _ (hskel.1.trans ht) (List.nodup_cons.1 hnd).2
      (fun j hj => h1 j (List.mem_cons.2 (Or.inr hj)))
      (fun j hj => by rw [hskel.2.2.2.2]; exact h2 j (List.mem_cons.2 (Or.inr hj)))
      (fun j hj => by
        rw [(hfields (upd.getD j hd)).2.2.2.1]
        exact h3 j (List.mem_cons.2 (Or.inr hj)))
      (fun j hj => by
        have hjne : ¬ j = i := fun h => hint (h ▸ hj)
        rw [hfwd1 (upd.getD j hd) j, if_neg (fun hc => hjne hc.2)]
        exact h4 j (List.mem_cons.2 (Or.inr hj)))
    refine ⟨sameSkel_trans hskel ih'.1, sameFields_trans hfields ih'.2.1,
      fun id => (ih'.2.2.1 id).trans (hbwd id), fun id j => ?_⟩
    rw [ih'.2.2.2 id j]
    by_cases hjr : j ∈ rest
    · have hji : ¬ j = i := fun h => hint (h ▸ hjr)
      by_cases hid : id = upd.getD j hd
      · rw [if_pos ⟨hjr, hid⟩, if_pos ⟨List.mem_cons.2 (Or.inr hjr), hid⟩,
          hfwd1 nodeId j, if_neg (fun hc => hji hc.2)]
      · rw [if_neg (fun hc => hid hc.2), if_neg (fun hc => hid hc.2), hfwd1 id j,
          if_neg (fun hc => hji hc.2)]
    · rw [if_neg (fun hc => hjr hc.1), hfwd1 id j]
      by_cases hji : j = i
      · subst hji
        by_cases hid : id = upd.getD j hd
        · rw [if_pos ⟨hid, rfl⟩, if_pos ⟨List.mem_cons_self j rest, hid⟩]
        · rw [if_neg (fun hc => hid hc.1),
            if_neg (show ¬ (j ∈ j :: rest ∧ id = upd.getD j hd) from fun hc => hid hc.2)]
      · rw [if_neg (fun hc => hji hc.2),
          if_neg (show ¬ (j ∈ i :: rest ∧ id = upd.getD j hd) from
            fun hc => (List.mem_cons.1 hc.1).elim hji hjr)]

theorem shrinkLevel_le (s : SkipList) : ∀ l, shrinkLevel s l ≤ l := by
  intro l
  induction l with
  | zero => exact le_refl _
  | succ n ih =>
    cases n with
    | zero => exact le_refl _
    | succ m =>
      unfold shrinkLevel
      by_cases h : fwd s s.head (m + 1) = none
      · rw [if_pos h]
        exact le_trans ih (Nat.le_succ _)
      · rw [if_neg h]

theorem shrinkLevel_pos (s : SkipList) : ∀ l, 1 ≤ l → 1 ≤ shrinkLevel s l := by
  intro l
  induction l with
  | zero => omega
  | succ n ih =>
    intro h
    cases n with
    | zero => exact le_refl _
    | succ m =>
      unfold shrinkLevel
      by_cases hf : fwd s s.head (m + 1) = none
      · rw [if_pos hf]
        exact ih (by omega)
      · rw [if_neg hf]
        omega

/-- If the chains of a spine hold, the collapse loop never drops below the
level of a live node. -/
theorem shrinkLevel_keeps (s : SkipList) (ns' : List Nat)
    (hch : ∀ i, i < maxLevel → isChain s i s.head (chainAt s ns' i)) :
    ∀ l, l ≤ maxLevel → (∀ id ∈ ns', (getNode s id).level ≤ l) →
    ∀ id ∈ ns', (getNode s id).level ≤ shrinkLevel s l := by
  intro l
  induction l with
  | zero => exact fun _ h => h
  | succ n ih =>
    intro hle h
    cases n with
    | zero => exact h
    | succ m =>
      unfold shrinkLevel
      by_cases hf : fwd s s.head (m + 1) = none
      · rw [if_pos hf]
        refine ih (by omega) ?_
        intro id hid
        by_contra hcon
        have hlvl : m + 1 < (getNode s id).level := by omega
        have hmem : id ∈ chainAt s ns' (m + 1) := mem_chainAt s ns' (m + 1) id hid hlvl
        have hchain := hch (m + 1) (by omega)
        cases hcc : chainAt s ns' (m + 1) with
        | nil => rw [hcc] at hmem; exact absurd hmem (List.not_mem_nil id)
        | cons z zs =>
          rw [hcc] at hchain
          rw [hchain.1] at hf
          exact absurd hf (by simp)
      · rw [if_neg hf]
        exact h

/-- Redirect the head of a sub-chain: if u's forward at level i now equals
what t's used to be, the chain below t hangs off u. -/
theorem isChain_redirect (s s' : SkipList) (i u t : Nat) (B : List Nat)
    (h : isChain s i t B) (hu : fwd s' u i = fwd s t i)
    (hB : ∀ x ∈ B, fwd s' x i = fwd s x i) : isChain s' i u B := by
  cases B with
  | nil => exact hu.trans h
  | cons b B' =>
    refine ⟨hu.trans h.1, isChain_transfer s s' i b B' h.2 ?_⟩
    intro x hx
    rcases hx with hx | hx
    · exact hB x (hx ▸ List.mem_cons_self b B')
    · exact hB x (List.mem_cons.2 (Or.inr hx))

/-- Deleting a node preserves the structural invariant (minus the node),
leaves every arena entry's fields unchanged, decrements the length and
erases the member from the index. -/
theorem deleteByNode_inv (s : SkipList) (pre suf : List Nat) (target : Nat)
    (hInv : InvSpine s (pre ++ target :: suf)) :
    InvSpine (deleteByNode s target) (pre ++ suf) ∧
    (∀ id, entryOf (deleteByNode s target) id = entryOf s id) ∧
    (∀ id, (getNode (deleteByNode s target) id).level = (getNode s id).level) ∧
    (deleteByNode s target).nodes.length = s.nodes.length ∧
    (deleteByNode s target).head = s.head ∧
    (deleteByNode s target).length = s.length - 1 ∧
    (deleteByNode s target).memberMap = mmErase s.memberMap (getNode s target).member := by
  have htgt_mem : target ∈ pre ++ target :: suf :=
    List.mem_append.2 (Or.inr (List.mem_cons_self _ _))
  have hndns : (pre ++ target :: suf).Nodup := (List.nodup_cons.1 hInv.nodup).2
  have hhead_nmem : s.head ∉ pre ++ target :: suf := (List.nodup_cons.1 hInv.nodup).1
  obtain ⟨htlt, htne, hlvl1, hlvlle, hftl, hstl⟩ := hInv.nodesOk target htgt_mem
  have hndsplit := List.nodup_append.1 hndns
  have hprend : pre.Nodup := hndsplit.1
  have hdisj : pre.Disjoint (target :: suf) := hndsplit.2.2
  have htpre : target ∉ pre := fun h => hdisj h (List.mem_cons_self _ _)
  have htsuf : target ∉ suf := (List.nodup_cons.1 hndsplit.2.1).1
  have hsub : ∀ id, id ∈ pre ++ suf → id ∈ pre ++ target :: suf := by
    intro id hid
    rcases List.mem_append.1 hid with h | h
    · exact List.mem_append.2 (Or.inl h)
    · exact List.mem_append.2 (Or.inr (List.mem_cons.2 (Or.inr h)))
  have hsublist : List.Sublist (pre ++ suf) (pre ++ target :: suf) :=
    List.Sublist.append_left (List.Sublist.cons target (List.Sublist.refl suf)) pre
  have hsorted := hInv.sorted
  have hlt_pre : ∀ x ∈ pre, entLt (entryOf s x) (entryOf s target) := by
    intro x hx
    exact (List.pairwise_append.1 hsorted).2.2 x hx target (List.mem_cons_self _ _)
  have hlt_suf : ∀ x ∈ suf, entLt (entryOf s target) (entryOf s x) :=
    (List.pairwise_cons.1 (List.pairwise_append.1 hsorted).2.1).1
  have hp : ∀ x ∈ pre, ¬ x = target ∧ entLt (entryOf s x) (entryOf s target) :=
    fun x hx => ⟨fun he => htpre (he ▸ hx), hlt_pre x hx⟩
  have hs : ∀ x ∈ target :: suf,
      ¬ (¬ x = target ∧ entLt (entryOf s x) (entryOf s target)) := by
    intro x hx hc
    rcases List.mem_cons.1 hx with h | h
    · exact hc.1 h
    · exact entLt_asymm (hlt_suf x h) hc.2
  obtain ⟨upd, hupd_def⟩ : ∃ u, delFindLoop s target ((List.range s.level).reverse) s.head
      (List.replicate maxLevel s.head) = u := ⟨_, rfl⟩
  have hupd := (delFindLoop_spec s (pre ++ target :: suf) pre (target :: suf) target hInv rfl
    hp hs s.level (le_refl _) s.head (List.replicate maxLevel s.head) (Or.inl rfl)
    (by simp)).1
  rw [hupd_def] at hupd
  have hupdj : ∀ j, j < (getNode s target).level → upd.getD j s.head = landAt s pre j := by
    intro j hj
    rw [hupd j s.head, if_pos (lt_of_lt_of_le hj hlvlle)]
  have hu_cases : ∀ j, landAt s pre j = s.head ∨ landAt s pre j ∈ pre := by
    intro j
    rcases landAt_mem s pre j with h | h
    · exact Or.inl h
    · exact Or.inr (chainAt_sub_mem s pre j _ h).1
  have hu_ne : ∀ j, ¬ landAt s pre j = target := by
    intro j he
    rcases hu_cases j with h | h
    · exact htne (he.symm.trans h)
    · exact htpre (he ▸ h)
  have hu_lt : ∀ j, landAt s pre j < s.nodes.length := by
    intro j
    rcases hu_cases j with h | h
    · rw [h]
      exact hInv.headLt
    · exact (hInv.nodesOk _ (List.mem_append.2 (Or.inl h))).1
  have hu_fl : ∀ j, j < (getNode s target).level →
      j < (getNode s (landAt s pre j)).forward.length := by
    intro j hj
    rcases landAt_mem s pre j with h | h
    · rw [h, hInv.headFwdLen]
      exact lt_of_lt_of_le hj (le_trans hlvlle hInv.lvlUB)
    · obtain ⟨hxp, hxl⟩ := chainAt_sub_mem s pre j _ h
      rw [(hInv.nodesOk _ (List.mem_append.2 (Or.inl hxp))).2.2.2.2.1]
      exact hxl
  have hchain_split : ∀ j, j < (getNode s target).level →
      chainAt s (pre ++ target :: suf) j =
        chainAt s pre j ++ target :: chainAt s suf j := by
    intro j hj
    rw [chainAt_append]
    unfold chainAt
    rw [List.filter_cons_of_pos (by simpa using hj)]
  have hlinks : ∀ j, j < (getNode s target).level →
      links s j s.head (chainAt s pre j) target ∧
      isChain s j target (chainAt s suf j) := by
    intro j hj
    have hc := hInv.chains j (lt_of_lt_of_le (lt_of_lt_of_le hj hlvlle) hInv.lvlUB)
    rw [hchain_split j hj] at hc
    exact (isChain_append_iff s j s.head target _ _).1 hc
  have hu_fwd : ∀ j, j < (getNode s target).level →
      fwd s (landAt s pre j) j = some target := by
    intro j hj
    exact links_last_fwd s j s.head target _ (hlinks j hj).1
  obtain ⟨t1, ht1⟩ : ∃ t1,
      deleteRewire target upd s (List.range (getNode s target).level) = t1 := ⟨_, rfl⟩
  obtain ⟨t2, ht2⟩ : ∃ t2, (match fwd t1 target 0 with
      | some nxt => setBwd t1 nxt (getNode t1 target).backward
      | none => { t1 with tail := (getNode t1 target).backward }) = t2 := ⟨_, rfl⟩
  obtain ⟨t3, ht3⟩ : ∃ t3, { t2 with level := shrinkLevel t2 t2.level } = t3 := ⟨_, rfl⟩
  have hDB : deleteByNode s target =
      { t3 with memberMap := mmErase t3.memberMap (getNode t3 target).member,
                length := t3.length - 1 } := by
    rw [← ht3, ← ht2, ← ht1, ← hupd_def]
    rfl
  have hrw := deleteRewire_spec target upd s.head (List.range (getNode s target).level) s rfl
    (List.nodup_range _)
    (fun j hj => by rw [hupdj j (List.mem_range.1 hj)]; exact hu_ne j)
    (fun j hj => by rw [hupdj j (List.mem_range.1 hj)]; exact hu_lt j)
    (fun j hj => by rw [hupdj j (List.mem_range.1 hj)]; exact hu_fl j (List.mem_range.1 hj))
    (fun j hj => by rw [hupdj j (List.mem_range.1 hj)]; exact hu_fwd j (List.mem_range.1 hj))
  rw [ht1] at hrw
  have hf1 : ∀ id j, fwd t1 id j =
      if j < (getNode s target).level ∧ id = landAt s pre j then fwd s target j
      else fwd s id j := by
    intro id j
    rw [hrw.2.2.2 id j]
    by_cases hj : j < (getNode s target).level
    · rw [hupdj j hj]
      by_cases hid : id = landAt s pre j
      · rw [if_pos ⟨List.mem_range.2 hj, hid⟩, if_pos ⟨hj, hid⟩]
      · rw [if_neg (show ¬ (j ∈ List.range (getNode s target).level ∧ id = landAt s pre j)
            from fun hc => hid hc.2),
          if_neg (show ¬ (j < (getNode s target).level ∧ id = landAt s pre j)
            from fun hc => hid hc.2)]
    · rw [if_neg (show ¬ (j ∈ List.range (getNode s target).level ∧ id = upd.getD j s.head)
          from fun hc => hj (List.mem_range.1 hc.1)),
        if_neg (show ¬ (j < (getNode s target).level ∧ id = landAt s pre j)
          from fun hc => hj hc.1)]
  have h2facts : t2.head = t1.head ∧ t2.length = t1.length ∧ t2.level = t1.level ∧
      t2.memberMap = t1.memberMap ∧ t2.nodes.length = t1.nodes.length ∧
      SameFields t1 t2 ∧ (∀ id j, fwd t2 id j = fwd t1 id j) := by
    cases hm : fwd t1 target 0 with
    | none =>
      have ht2' : t2 = { t1 with tail := (getNode t1 target).backward } := by
        rw [← ht2, hm]
      subst ht2'
      exact ⟨rfl, rfl, rfl, rfl, rfl, fun id => ⟨rfl, rfl, rfl, rfl, rfl⟩, fun id j => rfl⟩
    | some nxt =>
      have ht2' : t2 = setBwd t1 nxt (getNode t1 target).backward := by
        rw [← ht2, hm]
      subst ht2'
      refine ⟨rfl, rfl, rfl, rfl, ?_, sameFields_setBwd t1 nxt _,
        fun id j => fwd_setBwd t1 nxt _ id j⟩
      unfold setBwd updNode
      simp
  obtain ⟨h2head, h2len, h2lvl, h2mm, h2nlen, h2fields, h2fwd⟩ := h2facts
  have h2lvlEq : t2.level = s.level := h2lvl.trans hrw.1.2.2.1
  have hnodesD : (deleteByNode s target).nodes = t2.nodes := by
    rw [hDB]
    show t3.nodes = t2.nodes
    rw [← ht3]
  have hgD : ∀ id, getNode (deleteByNode s target) id = getNode t2 id := by
    intro id
    unfold getNode
    rw [hnodesD]
  have hfD : SameFields s (deleteByNode s target) := by
    intro id
    rw [hgD id]
    exact sameFields_trans hrw.2.1 h2fields id
  have hfwdD : ∀ id j, fwd (deleteByNode s target) id j = fwd t1 id j := by
    intro id j
    unfold fwd
    rw [hgD id]
    exact h2fwd id j
  have hentD : ∀ id, entryOf (deleteByNode s target) id = entryOf s id :=
    fun id => entryOf_congr s (deleteByNode s target) id (hfD id).1 (hfD id).2.1
  have hlvlF : ∀ id, (getNode (deleteByNode s target) id).level = (getNode s id).level :=
    fun id => (hfD id).2.2.1
  have hchD : ∀ (l : List Nat) (i : Nat),
      chainAt (deleteByNode s target) l i = chainAt s l i :=
    fun l i => chainAt_congr s (deleteByNode s target) l hlvlF i
  have hheadD : (deleteByNode s target).head = s.head := by
    rw [hDB]
    show t3.head = s.head
    rw [show t3.head = t2.head from by rw [← ht3], h2head, hrw.1.1]
  have hnodeslenD : (deleteByNode s target).nodes.length = s.nodes.length := by
    rw [hnodesD, h2nlen, hrw.1.2.2.2.2]
  have hlvlD : (deleteByNode s target).level = shrinkLevel t2 t2.level := by
    rw [hDB]
    show t3.level = _
    rw [← ht3]
  have hlenDs : (deleteByNode s target).length = s.length - 1 := by
    rw [hDB]
    show t3.length - 1 = s.length - 1
    rw [show t3.length = t2.length from by rw [← ht3], h2len, hrw.1.2.1]
  have hmmDs : (deleteByNode s target).memberMap =
      mmErase s.memberMap (getNode s target).member := by
    rw [hDB]
    show mmErase t3.memberMap (getNode t3 target).member = _
    have e1 : t3.memberMap = s.memberMap := by
      rw [show t3.memberMap = t2.memberMap from by rw [← ht3], h2mm, hrw.1.2.2.2.1]
    have e2 : (getNode t3 target).member = (getNode s target).member := by
      rw [show getNode t3 target = getNode t2 target from by
        unfold getNode
        rw [show t3.nodes = t2.nodes from by rw [← ht3]]]
      exact ((h2fields target).1).trans ((hrw.2.1 target).1)
    rw [e1, e2]
  have hchains1 : ∀ i, i < maxLevel → isChain t1 i s.head (chainAt s (pre ++ suf) i) := by
    intro i hi
    have hcold := hInv.chains i hi
    rw [chainAt_append] at hcold ⊢
    by_cases hil : i < (getNode s target).level
    · obtain ⟨hlk, hch⟩ := hlinks i hil
      have hfw_land : fwd t1 (landAt s pre i) i = fwd s target i := by
        rw [hf1 (landAt s pre i) i, if_pos ⟨hil, rfl⟩]
      have hfw_pres : ∀ x, ¬ x = landAt s pre i → fwd t1 x i = fwd s x i := by
        intro x hx
        rw [hf1 x i, if_neg (show ¬ (i < (getNode s target).level ∧ x = landAt s pre i)
          from fun hc => hx hc.2)]
      by_cases hAnil : chainAt s pre i = []
      · have hland : landAt s pre i = s.head := by
          unfold landAt
          rw [hAnil]
          rfl
        rw [hAnil, List.nil_append]
        refine isChain_redirect s t1 i s.head target _ hch ?_ ?_
        · rw [← hland]
          exact hfw_land
        · intro x hx
          refine hfw_pres x ?_
          have hxs : x ∈ suf := (chainAt_sub_mem s suf i x hx).1
          intro he
          rw [he, hland] at hxs
          exact hhead_nmem (List.mem_append.2 (Or.inr (List.mem_cons.2 (Or.inr hxs))))
      · obtain ⟨A, hA⟩ : ∃ A, chainAt s pre i = A := ⟨_, rfl⟩
        obtain ⟨B, hB⟩ : ∃ B, chainAt s suf i = B := ⟨_, rfl⟩
        rw [hA] at hAnil hlk ⊢
        rw [hB] at hch ⊢
        have hland : landAt s pre i = A.getLast hAnil := by
          unfold landAt
          rw [hA]
          exact getLastD_eq_getLast A hAnil s.head
        have hAsplit : A.dropLast ++ [A.getLast hAnil] = A :=
          List.dropLast_append_getLast hAnil
        have hLpre : A.getLast hAnil ∈ pre := by
          refine (chainAt_sub_mem s pre i _ ?_).1
          rw [hA]
          exact List.getLast_mem hAnil
        have hAnd : A.Nodup := hA ▸ chainAt_nodup s pre i hprend
        have hnd' := List.nodup_append.1 (hAsplit.symm ▸ hAnd)
        have hLnotdrop : A.getLast hAnil ∉ A.dropLast := fun hmem =>
          hnd'.2.2 hmem (List.mem_singleton.2 rfl)
        have hlk' : links s i s.head (A.dropLast ++ A.getLast hAnil :: []) target := by
          rw [hAsplit]
          exact hlk
        obtain ⟨hlk1, hlk2⟩ :=
          (links_append_iff s i s.head (A.getLast hAnil) target A.dropLast []).1 hlk'
        rw [← hAsplit, List.append_assoc, List.singleton_append]
        refine (isChain_append_iff t1 i s.head (A.getLast hAnil) A.dropLast B).2 ⟨?_, ?_⟩
        · refine links_transfer s t1 i s.head (A.getLast hAnil) A.dropLast hlk1 ?_
          intro x hx
          refine hfw_pres x ?_
          intro he
          rw [hland] at he
          rcases hx with hx | hx
          · refine hhead_nmem (List.mem_append.2 (Or.inl ?_))
            rw [hx.symm.trans he]
            exact hLpre
          · rw [he] at hx
            exact hLnotdrop hx
        · refine isChain_redirect s t1 i (A.getLast hAnil) target B hch ?_ ?_
          · rw [← hland]
            exact hfw_land
          · intro x hx'
            refine hfw_pres x ?_
            intro he
            rw [hland] at he
            have hxs : x ∈ suf := by
              refine (chainAt_sub_mem s suf i x ?_).1
              rw [hB]
              exact hx'
            rw [he] at hxs
            exact hdisj hLpre (List.mem_cons.2 (Or.inr hxs))
    · have hsplit2 : chainAt s (target :: suf) i = chainAt s suf i := by
        unfold chainAt
        rw [List.filter_cons_of_neg (by simpa using hil)]
      rw [hsplit2] at hcold
      refine isChain_transfer s t1 i s.head _ hcold ?_
      intro x hx
      rw [hf1 x i, if_neg (show ¬ (i < (getNode s target).level ∧ x = landAt s pre i)
        from fun hc => hil hc.1)]
  have hlvl2 : ∀ id, (getNode t2 id).level = (getNode s id).level :=
    fun id => ((h2fields id).2.2.1).trans ((hrw.2.1 id).2.2.1)
  have hchains2 : ∀ i, i < maxLevel → isChain t2 i t2.head (chainAt t2 (pre ++ suf) i) := by
    intro i hi
    rw [h2head, hrw.1.1, chainAt_congr s t2 (pre ++ suf) hlvl2 i]
    exact isChain_transfer t1 t2 i s.head _ (hchains1 i hi) (fun x _ => h2fwd x i)
  have hkeep : ∀ id ∈ pre ++ suf, (getNode t2 id).level ≤ shrinkLevel t2 t2.level := by
    refine shrinkLevel_keeps t2 (pre ++ suf) hchains2 t2.level ?_ ?_
    · rw [h2lvlEq]
      exact hInv.lvlUB
    · intro id hid
      rw [hlvl2 id, h2lvlEq]
      exact (hInv.nodesOk id (hsub id hid)).2.2.2.1
  have hchainsD : ∀ i, i < maxLevel → isChain (deleteByNode s target) i
      (deleteByNode s target).head (chainAt (deleteByNode s target) (pre ++ suf) i) := by
    intro i hi
    rw [hheadD, hchD (pre ++ suf) i]
    exact isChain_transfer t1 (deleteByNode s target) i s.head _ (hchains1 i hi)
      (fun x _ => hfwdD x i)
  have hndD : (s.head :: (pre ++ suf)).Nodup :=
    List.Nodup.sublist (List.Sublist.cons₂ s.head hsublist) hInv.nodup
  have hsortedD : (pre ++ suf).Pairwise (fun a b =>
      entLt (entryOf (deleteByNode s target) a) (entryOf (deleteByNode s target) b)) := by
    refine List.Pairwise.imp ?_ (List.Pairwise.sublist hsublist hInv.sorted)
    intro a b h
    rw [hentD a, hentD b]
    exact h
  have hmmD' : ∀ m id, mmLookup (deleteByNode s target).memberMap m = some id ↔
      id ∈ pre ++ suf ∧ (getNode (deleteByNode s target) id).member = m := by
    intro m id
    rw [hmmDs, show (getNode (deleteByNode s target) id).member = (getNode s id).member
      from (hfD id).1]
    by_cases hm : m = (getNode s target).member
    · subst hm
      rw [mmLookup_erase_self]
      constructor
      · intro h
        exact Option.noConfusion h
      · rintro ⟨hid, hmem⟩
        exfalso
        have h1 := (hInv.mm (getNode s target).member id).2 ⟨hsub id hid, hmem⟩
        have h2 := (hInv.mm (getNode s target).member target).2 ⟨htgt_mem, rfl⟩
        rw [h1] at h2
        have hidt : id = target := Option.some.inj h2
        rw [hidt] at hid
        rcases List.mem_append.1 hid with h | h
        · exact htpre h
        · exact htsuf h
    · rw [mmLookup_erase_ne s.memberMap (getNode s target).member m hm, hInv.mm m id]
      constructor
      · rintro ⟨hid, hmem⟩
        refine ⟨?_, hmem⟩
        rcases List.mem_append.1 hid with h | h
        · exact List.mem_append.2 (Or.inl h)
        · rcases List.mem_cons.1 h with h' | h'
          · exfalso
            rw [h'] at hmem
            exact hm hmem.symm
          · exact List.mem_append.2 (Or.inr h')
      · rintro ⟨hid, hmem⟩
        exact ⟨hsub id hid, hmem⟩
  have hlenDInt : (deleteByNode s target).length = ((pre ++ suf).length : Int) := by
    rw [hlenDs, hInv.len]
    simp only [List.length_append, List.length_cons]
    push_cast
    omega
  refine ⟨⟨?_, ?_, ?_, ?_, ?_, hlenDInt, ?_, ?_, hchainsD, hsortedD, hmmD'⟩,
    hentD, hlvlF, hnodeslenD, hheadD, hlenDs, hmmDs⟩
  · rw [hheadD, hnodeslenD]
    exact hInv.headLt
  · rw [hheadD, (hfD s.head).2.2.2.1]
    exact hInv.headFwdLen
  · rw [hheadD, (hfD s.head).2.2.2.2]
    exact hInv.headSpnLen
  · rw [hlvlD]
    exact shrinkLevel_pos t2 t2.level (by rw [h2lvlEq]; exact hInv.lvlLB)
  · rw [hlvlD]
    refine le_trans (shrinkLevel_le t2 t2.level) ?_
    rw [h2lvlEq]
    exact hInv.lvlUB
  · rw [hheadD]
    exact hndD
  · intro id hid
    obtain ⟨ha1, ha2, ha3, ha4, ha5, ha6⟩ := hInv.nodesOk id (hsub id hid)
    refine ⟨?_, ?_, ?_, ?_, ?_, ?_⟩
    · rw [hnodeslenD]
      exact ha1
    · rw [hheadD]
      exact ha2
    · rw [(hfD id).2.2.1]
      exact ha3
    · rw [(hfD id).2.2.1, hlvlD]
      have hk := hkeep id hid
      rw [hlvl2 id] at hk
      exact hk
    · rw [(hfD id).2.2.2.1, (hfD id).2.2.1]
      exact ha5
    · rw [(hfD id).2.2.2.2, (hfD id).2.2.1]
      exact ha6

/-! ### randomLevel bounds -/

theorem randomLevelLoop_le (coins : List Bool) (lvl : Nat) (h : lvl ≤ maxLevel) :
    randomLevelLoop lvl coins ≤ maxLevel := by
  induction coins generalizing lvl with
  | nil => exact h
  | cons c cs ih =>
    unfold randomLevelLoop
    by_cases hc : lvl < maxLevel && c
    · simp only [hc, if_true]
      exact ih (lvl + 1) (by simp at hc; omega)
    · simpa [hc] using h

theorem randomLevelLoop_ge (coins : List Bool) (lvl : Nat) : lvl ≤ randomLevelLoop lvl coins := by
  induction coins generalizing lvl with
  | nil => exact le_refl _
  | cons c cs ih =>
    unfold randomLevelLoop
    by_cases hc : lvl < maxLevel && c
    · simp only [hc, if_true]
      exact le_trans (Nat.le_succ lvl) (ih (lvl + 1))
    · simp [hc]

theorem randomLevel_pos (coins : List Bool) : 1 ≤ randomLevel coins :=
  randomLevelLoop_ge coins 1

theorem randomLevel_le (coins : List Bool) : randomLevel coins ≤ maxLevel :=
  randomLevelLoop_le coins 1 (by norm_num [maxLevel])

/-! ### insertMain: assembling search, level draw and insertCore -/

theorem mem_drop_range (n k j : Nat) :
    j ∈ (List.range n).drop k ↔ k ≤ j ∧ j < n := by
  by_cases hk : k ≤ n
  · obtain ⟨m, rfl⟩ : ∃ m, n = k + m := ⟨n - k, by omega⟩
    rw [List.range_add, List.drop_left' (List.length_range k)]
    constructor
    · intro h
      obtain ⟨i, hi, hij⟩ := List.mem_map.1 h
      have := List.mem_range.1 hi
      omega
    · intro h
      exact List.mem_map.2 ⟨j - k, List.mem_range.2 (by omega), by omega⟩
  · rw [List.drop_eq_nil_of_le (by rw [List.length_range]; omega)]
    constructor
    · intro h
      exact absurd h (List.not_mem_nil j)
    · intro h
      omega

theorem landAt_congr (s s' : SkipList) (pre : List Nat) (i : Nat)
    (hlvl : ∀ id, (getNode s' id).level = (getNode s id).level)
    (hhd : s'.head = s.head) : landAt s' pre i = landAt s pre i := by
  unfold landAt
  rw [chainAt_congr s s' pre hlvl i, hhd]

/-- Above the list's level every spine chain is empty. -/
theorem chainAt_hi_empty (s : SkipList) (ns pre suf : List Nat) (hInv : InvSpine s ns)
    (hsplit : ns = pre ++ suf) (j : Nat) (hj : s.level ≤ j) : chainAt s pre j = [] := by
  unfold chainAt
  refine List.filter_eq_nil_iff.2 ?_
  intro x hx
  have hxns : x ∈ ns := by
    rw [hsplit]
    exact List.mem_append.2 (Or.inl hx)
  have hxl := (hInv.nodesOk x hxns).2.2.2.1
  simp only [decide_eq_true_eq]
  omega

/-- Opening fresh top levels (without touching the arena) keeps the
invariant. -/
theorem invSpine_setLevel (s : SkipList) (ns : List Nat) (hInv : InvSpine s ns) (lvl : Nat)
    (h1 : s.level ≤ lvl) (h2 : lvl ≤ maxLevel) :
    InvSpine { s with level := lvl } ns := by
  refine ⟨hInv.headLt, hInv.headFwdLen, hInv.headSpnLen, le_trans hInv.lvlLB h1, h2,
    hInv.len, hInv.nodup, ?_, ?_, hInv.sorted, hInv.mm⟩
  · intro id hid
    obtain ⟨a1, a2, a3, a4, a5, a6⟩ := hInv.nodesOk id hid
    exact ⟨a1, a2, a3, le_trans a4 h1, a5, a6⟩
  · intro i hi
    rw [chainAt_congr s { s with level := lvl } ns (fun id => rfl) i]
    exact isChain_transfer s { s with level := lvl } i s.head _ (hInv.chains i hi)
      (fun x _ => rfl)

/-- A sorted spine splits at a key: takeWhile collects exactly the
entries below it, and everything in dropWhile is not below it. -/
theorem sorted_split (s : SkipList) (key : ℚ × String) :
    ∀ ns : List Nat, ns.Pairwise (fun a b => entLt (entryOf s a) (entryOf s b)) →
    (∀ x ∈ ns.takeWhile (fun x => decide (entLt (entryOf s x) key)),
      entLt (entryOf s x) key) ∧
    (∀ x ∈ ns.dropWhile (fun x => decide (entLt (entryOf s x) key)),
      ¬ entLt (entryOf s x) key) := by
  intro ns
  induction ns with
  | nil =>
    exact fun _ => ⟨fun x hx => absurd hx (List.not_mem_nil x),
      fun x hx => absurd hx (List.not_mem_nil x)⟩
  | cons y ys ih =>
    intro hsorted
    obtain ⟨hy, hys⟩ := List.pairwise_cons.1 hsorted
    by_cases hyk : entLt (entryOf s y) key
    · rw [List.takeWhile_cons_of_pos (by simpa using hyk),
        List.dropWhile_cons_of_pos (by simpa using hyk)]
      refine ⟨?_, (ih hys).2⟩
      intro x hx
      rcases List.mem_cons.1 hx with h | h
      · rw [h]
        exact hyk
      · exact (ih hys).1 x h
    · rw [List.takeWhile_cons_of_neg (by simpa using hyk),
        List.dropWhile_cons_of_neg (by simpa using hyk)]
      refine ⟨fun x hx => absurd hx (List.not_mem_nil x), ?_⟩
      intro x hx hc
      rcases List.mem_cons.1 hx with h | h
      · rw [h] at hc
        exact hyk hc
      · exact hyk (entLt_trans (hy x h) hc)

/-- insertMain with a fresh member preserves the invariant: the new arena
id lands at its sorted position on the spine, every other entry is kept,
the length grows by one and the member is indexed. -/
theorem insertMain_inv (s : SkipList) (ns : List Nat) (member : String) (score : ℚ)
    (coins : List Bool) (hInv : InvSpine s ns)
    (hmem : ∀ x ∈ ns, ¬ (getNode s x).member = member) :
    ∃ pre suf, ns = pre ++ suf ∧
      InvSpine (insertMain s member score coins) (pre ++ s.nodes.length :: suf) ∧
      (∀ id, ¬ id = s.nodes.length →
        entryOf (insertMain s member score coins) id = entryOf s id) ∧
      entryOf (insertMain s member score coins) s.nodes.length = (score, member) ∧
      (insertMain s member score coins).length = s.length + 1 ∧
      (insertMain s member score coins).memberMap =
        mmInsert s.memberMap member s.nodes.length := by
  obtain ⟨fr, nl, t, hfr_def, hnl_def, ht_def, hIM⟩ :
      ∃ fr nl t,
        insFindLoop s score member ((List.range s.level).reverse) s.head 0
          (List.replicate maxLevel s.head) (List.replicate maxLevel 0) = fr ∧
        randomLevel coins = nl ∧
        insRaise s fr.1 fr.2 ((List.range nl).drop s.level) = t ∧
        insertMain s member score coins =
          insertCore (if s.level < nl then ({ t.1 with level := nl }, t.2.1, t.2.2)
              else (s, fr.1, fr.2)).1
            member score nl
            (if s.level < nl then ({ t.1 with level := nl }, t.2.1, t.2.2)
              else (s, fr.1, fr.2)).2.1
            (if s.level < nl then ({ t.1 with level := nl }, t.2.1, t.2.2)
              else (s, fr.1, fr.2)).2.2 :=
    ⟨_, _, _, rfl, rfl, rfl, rfl⟩
  obtain ⟨hpre, hdrop⟩ := sorted_split s (score, member) ns hInv.sorted
  obtain ⟨pre, hpre_def⟩ : ∃ p,
      ns.takeWhile (fun x => decide (entLt (entryOf s x) (score, member))) = p := ⟨_, rfl⟩
  obtain ⟨suf, hsuf_def⟩ : ∃ q,
      ns.dropWhile (fun x => decide (entLt (entryOf s x) (score, member))) = q := ⟨_, rfl⟩
  rw [hpre_def] at hpre
  rw [hsuf_def] at hdrop
  have hsplit : ns = pre ++ suf := by
    rw [← hpre_def, ← hsuf_def,
      List.takeWhile_append_dropWhile (fun x => decide (entLt (entryOf s x) (score, member))) ns]
  have hkey_ne : ∀ x ∈ ns, ¬ entryOf s x = (score, member) := by
    intro x hx he
    exact hmem x hx (congrArg Prod.snd he)
  have hsuf : ∀ x ∈ suf, entLt (score, member) (entryOf s x) := by
    intro x hx
    have hxns : x ∈ ns := by
      rw [hsplit]
      exact List.mem_append.2 (Or.inr hx)
    rcases entLt_total_of_ne (hkey_ne x hxns) with h | h
    · exact absurd h (hdrop x hx)
    · exact h
  have hfrspec := insFindLoop_spec s ns pre suf score member hInv hsplit hpre hdrop
    s.level (le_refl _) s.head 0 (List.replicate maxLevel s.head)
    (List.replicate maxLevel 0) (Or.inl rfl) (by simp)
  rw [hfr_def] at hfrspec
  have hfr := hfrspec.1
  have hfrlen := hfrspec.2
  have hnl1 : 1 ≤ nl := hnl_def ▸ randomLevel_pos coins
  have hnl32 : nl ≤ maxLevel := hnl_def ▸ randomLevel_le coins
  by_cases hc : s.level < nl
  · have hIM' : insertMain s member score coins =
        insertCore { t.1 with level := nl } member score nl t.2.1 t.2.2 := by
      rw [hIM, if_pos hc]
    have hraise := insRaise_spec ((List.range nl).drop s.level) s fr.1 fr.2
      (fun j hj => by
        rw [hfrlen]
        exact lt_of_lt_of_le ((mem_drop_range nl s.level j).1 hj).2 hnl32)
    rw [ht_def] at hraise
    obtain ⟨hsh, hrv, hrlen⟩ := hraise
    have hInv1 : InvSpine { t.1 with level := nl } ns :=
      invSpine_setLevel t.1 ns (invSpine_of_sameShape ns hsh hInv) nl
        (by rw [hsh.2.2.2.1]; exact le_of_lt hc) hnl32
    have hent1 : ∀ id, entryOf { t.1 with level := nl } id = entryOf s id := by
      intro id
      refine entryOf_congr s _ id ?_ ?_
      · exact (hsh.2.2.2.2.2.2.2 id).1
      · exact (hsh.2.2.2.2.2.2.2 id).2.1
    have hlvlc : ∀ id, (getNode { t.1 with level := nl } id).level = (getNode s id).level :=
      fun id => (hsh.2.2.2.2.2.2.2 id).2.2.1
    have hland1 : ∀ j, landAt { t.1 with level := nl } pre j = landAt s pre j :=
      fun j => landAt_congr s _ pre j hlvlc hsh.1
    have hupd1 : ∀ j d, j < nl → t.2.1.getD j d = landAt { t.1 with level := nl } pre j := by
      intro j d hj
      rw [hrv j d, hland1 j]
      by_cases hjs : j < s.level
      · rw [if_neg (fun hm => absurd ((mem_drop_range nl s.level j).1 hm).1 (by omega)),
          hfr j d, if_pos hjs]
      · rw [if_pos ((mem_drop_range nl s.level j).2 ⟨by omega, hj⟩)]
        show s.head = landAt s pre j
        unfold landAt
        rw [chainAt_hi_empty s ns pre suf hInv hsplit j (by omega)]
        rfl
    have hmem1 : ∀ x ∈ ns, ¬ (getNode { t.1 with level := nl } x).member = member := by
      intro x hx
      show ¬ (getNode t.1 x).member = member
      rw [(hsh.2.2.2.2.2.2.2 x).1]
      exact hmem x hx
    have hpre1 : ∀ x ∈ pre, entLt (entryOf { t.1 with level := nl } x) (score, member) := by
      intro x hx
      rw [hent1 x]
      exact hpre x hx
    have hsuf1 : ∀ x ∈ suf, entLt (score, member) (entryOf { t.1 with level := nl } x) := by
      intro x hx
      rw [hent1 x]
      exact hsuf x hx
    have hcore := insertCore_inv { t.1 with level := nl } ns pre suf member score nl
      t.2.1 t.2.2 hInv1 hsplit hpre1 hsuf1 hupd1 hnl1 (le_refl nl) hmem1
    have hnlen1 : ({ t.1 with level := nl } : SkipList).nodes.length = s.nodes.length :=
      hsh.2.2.2.2.2.1
    have hlen1 : ({ t.1 with level := nl } : SkipList).length = s.length := hsh.2.2.1
    have hmm1 : ({ t.1 with level := nl } : SkipList).memberMap = s.memberMap :=
      hsh.2.2.2.2.1
    refine ⟨pre, suf, hsplit, ?_, ?_, ?_, ?_, ?_⟩ <;> rw [hIM']
    · rw [← hnlen1]
      exact hcore.1
    · intro id hid
      exact (hcore.2.1 id (by rw [hnlen1]; exact hid)).trans (hent1 id)
    · rw [← hnlen1]
      exact hcore.2.2.1
    · rw [hcore.2.2.2.1, hlen1]
    · rw [hcore.2.2.2.2, hmm1, hnlen1]
  · have hIM' : insertMain s member score coins =
        insertCore s member score nl fr.1 fr.2 := by
      rw [hIM, if_neg hc]
    have hnlle : nl ≤ s.level := Nat.le_of_not_lt hc
    have hupd : ∀ j d, j < nl → fr.1.getD j d = landAt s pre j := by
      intro j d hj
      rw [hfr j d, if_pos (lt_of_lt_of_le hj hnlle)]
    have hcore := insertCore_inv s ns pre suf member score nl fr.1 fr.2 hInv hsplit
      hpre hsuf hupd hnl1 hnlle hmem
    refine ⟨pre, suf, hsplit, ?_, ?_, ?_, ?_, ?_⟩ <;> rw [hIM']
    · exact hcore.1
    · exact hcore.2.1
    · exact hcore.2.2.1
    · exact hcore.2.2.2.1
    · exact hcore.2.2.2.2

/-! ### Invariant preservation of the public operations -/

theorem replicate_none_getD (i : Nat) :
    (List.replicate maxLevel (none : Option Nat)).getD i none = none := by
  by_cases h : i < maxLevel
  · exact getD_replicate maxLevel i none none h
  · exact getD_of_length_le _ _ _ (by simp only [List.length_replicate]; omega)

theorem newSkipList_inv : InvSpine newSkipList [] := by
  refine ⟨?_, ?_, ?_, le_refl 1, ?_, rfl, ?_, ?_, ?_, List.Pairwise.nil, ?_⟩
  · show (0 : Nat) < 1
    norm_num
  · show (List.replicate maxLevel (none : Option Nat)).length = maxLevel
    simp
  · show (List.replicate maxLevel (0 : Int)).length = maxLevel
    simp
  · show (1 : Nat) ≤ maxLevel
    norm_num [maxLevel]
  · exact List.nodup_cons.2 ⟨List.not_mem_nil 0, List.nodup_nil⟩
  · intro id hid
    exact absurd hid (List.not_mem_nil id)
  · intro i hi
    show fwd newSkipList 0 i = none
    exact replicate_none_getD i
  · intro m id
    constructor
    · intro h
      exact Option.noConfusion h
    · rintro ⟨h, _⟩
      exact absurd h (List.not_mem_nil id)

theorem clear_inv (s : SkipList) : Inv (Clear s) := by
  have hg : getNode (Clear s) (Clear s).head = headNode := by
    show (s.nodes ++ [headNode]).getD s.nodes.length emptyNode = headNode
    exact getD_concat_self _ _ _
  refine ⟨[], ?_, ?_, ?_, le_refl 1, ?_, rfl, ?_, ?_, ?_, List.Pairwise.nil, ?_⟩
  · show s.nodes.length < (s.nodes ++ [headNode]).length
    simp
  · rw [hg]
    show (List.replicate maxLevel (none : Option Nat)).length = maxLevel
    simp
  · rw [hg]
    show (List.replicate maxLevel (0 : Int)).length = maxLevel
    simp
  · show (1 : Nat) ≤ maxLevel
    norm_num [maxLevel]
  · exact List.nodup_cons.2 ⟨List.not_mem_nil _, List.nodup_nil⟩
  · intro id hid
    exact absurd hid (List.not_mem_nil id)
  · intro i hi
    show fwd (Clear s) (Clear s).head i = none
    unfold fwd
    rw [hg]
    exact replicate_none_getD i
  · intro m id
    constructor
    · intro h
      exact Option.noConfusion h
    · rintro ⟨h, _⟩
      exact absurd h (List.not_mem_nil id)

/-- An unindexed member appears on no spine node. -/
theorem mm_none_absent (s : SkipList) (ns : List Nat) (hInv : InvSpine s ns) (m : String)
    (h : mmLookup s.memberMap m = none) : ∀ x ∈ ns, ¬ (getNode s x).member = m := by
  intro x hx he
  have hl := (hInv.mm m x).2 ⟨hx, he⟩
  rw [h] at hl
  exact Option.noConfusion hl

theorem insertInternal_inv (s : SkipList) (member : String) (score : ℚ) (coins : List Bool)
    (h : Inv s) : Inv (insertInternal s member score coins) := by
  obtain ⟨ns, hInv⟩ := h
  unfold insertInternal
  cases hm : mmLookup s.memberMap member with
  | none =>
    obtain ⟨pre, suf, _, hInv', _⟩ := insertMain_inv s ns member score coins hInv
      (mm_none_absent s ns hInv member hm)
    exact ⟨_, hInv'⟩
  | some nid =>
    show Inv (if compare (getNode s nid).score score = 0 then s
      else insertMain (deleteByNode s nid) member score coins)
    by_cases hsc : compare (getNode s nid).score score = 0
    · rw [if_pos hsc]
      exact ⟨ns, hInv⟩
    · rw [if_neg hsc]
      have hnid := (hInv.mm member nid).1 hm
      obtain ⟨l₁, l₂, hsp⟩ := List.append_of_mem hnid.1
      rw [hsp] at hInv
      obtain ⟨hInvD, hentD, _, _, _, _, hmmD⟩ := deleteByNode_inv s l₁ l₂ nid hInv
      have habs : ∀ x ∈ l₁ ++ l₂, ¬ (getNode (deleteByNode s nid) x).member = member := by
        intro x hx he
        have hl := (hInvD.mm member x).2 ⟨hx, he⟩
        rw [hmmD, hnid.2, mmLookup_erase_self] at hl
        exact Option.noConfusion hl
      obtain ⟨pre, suf, _, hInv', _⟩ := insertMain_inv (deleteByNode s nid) (l₁ ++ l₂)
        member score coins hInvD habs
      exact ⟨_, hInv'⟩

theorem delete_inv (s : SkipList) (member : String) (score : ℚ) (h : Inv s) :
    Inv (Delete s member score).2 := by
  obtain ⟨ns, hInv⟩ := h
  unfold Delete
  cases hm : mmLookup s.memberMap member with
  | none => exact ⟨ns, hInv⟩
  | some nid =>
    show Inv (if ¬ compare (getNode s nid).score score = 0 then (false, s)
      else (true, deleteByNode s nid)).2
    by_cases hsc : ¬ compare (getNode s nid).score score = 0
    · rw [if_pos hsc]
      exact ⟨ns, hInv⟩
    · rw [if_neg hsc]
      have hnid := (hInv.mm member nid).1 hm
      obtain ⟨l₁, l₂, hsp⟩ := List.append_of_mem hnid.1
      rw [hsp] at hInv
      exact ⟨l₁ ++ l₂, (deleteByNode_inv s l₁ l₂ nid hInv).1⟩

theorem deleteByMember_inv (s : SkipList) (member : String) (h : Inv s) :
    Inv (DeleteByMember s member).2 := by
  obtain ⟨ns, hInv⟩ := h
  unfold DeleteByMember
  cases hm : mmLookup s.memberMap member with
  | none => exact ⟨ns, hInv⟩
  | some nid =>
    have hnid := (hInv.mm member nid).1 hm
    obtain ⟨l₁, l₂, hsp⟩ := List.append_of_mem hnid.1
    rw [hsp] at hInv
    exact ⟨l₁ ++ l₂, (deleteByNode_inv s l₁ l₂ nid hInv).1⟩

theorem incrementBy_inv (s : SkipList) (member : String) (increment : ℚ)
    (coins : List Bool) (h : Inv s) : Inv (IncrementBy s member increment coins).2.2 := by
  obtain ⟨ns, hInv⟩ := h
  unfold IncrementBy
  cases hm : mmLookup s.memberMap member with
  | none => exact insertInternal_inv s member increment coins ⟨ns, hInv⟩
  | some nid =>
    have hnid := (hInv.mm member nid).1 hm
    obtain ⟨l₁, l₂, hsp⟩ := List.append_of_mem hnid.1
    rw [hsp] at hInv
    exact insertInternal_inv (deleteByNode s nid) member _ coins
      ⟨l₁ ++ l₂, (deleteByNode_inv s l₁ l₂ nid hInv).1⟩

/-- Folding deleteByNode over distinct spine members preserves the
invariant. -/
theorem foldl_deleteByNode_inv : ∀ (ids : List Nat) (s : SkipList) (ns : List Nat),
    InvSpine s ns → (∀ x ∈ ids, x ∈ ns) → ids.Nodup →
    Inv (ids.foldl deleteByNode s) := by
  intro ids
  induction ids with
  | nil =>
    intro s ns hInv _ _
    exact ⟨ns, hInv⟩
  | cons x rest ih =>
    intro s ns hInv hsub hnd
    obtain ⟨l₁, l₂, hsp⟩ := List.append_of_mem (hsub x (List.mem_cons_self x rest))
    rw [hsp] at hInv
    have hD := deleteByNode_inv s l₁ l₂ x hInv
    show Inv (rest.foldl deleteByNode (deleteByNode s x))
    refine ih (deleteByNode s x) (l₁ ++ l₂) hD.1 ?_ (List.nodup_cons.1 hnd).2
    intro y hy
    have hyns : y ∈ l₁ ++ x :: l₂ := by
      rw [← hsp]
      exact hsub y (List.mem_cons.2 (Or.inr hy))
    have hyx : ¬ y = x := fun he => (List.nodup_cons.1 hnd).1 (he ▸ hy)
    rcases List.mem_append.1 hyns with h | h
    · exact List.mem_append.2 (Or.inl h)
    · rcases List.mem_cons.1 h with h' | h'
      · exact absurd h' hyx
      · exact List.mem_append.2 (Or.inr h')

theorem scoreWalk_mem (s : SkipList) (ns : List Nat) (hInv : InvSpine s ns) (minS : ℚ)
    (i : Nat) : ∀ (fuel c : Nat), (c = s.head ∨ c ∈ ns) →
    (scoreWalk s minS i fuel c = s.head ∨ scoreWalk s minS i fuel c ∈ ns) := by
  intro fuel
  induction fuel with
  | zero =>
    intro c hc
    exact hc
  | succ f ih =>
    intro c hc
    have hstep : scoreWalk s minS i (f + 1) c =
        match fwd s c i with
        | none => c
        | some nxt =>
          if compare (getNode s nxt).score minS < 0 then scoreWalk s minS i f nxt else c := rfl
    rw [hstep]
    cases hf : fwd s c i with
    | none => exact hc
    | some nxt =>
      have hnxt : nxt ∈ ns := by
        rcases spine_fwd s ns hInv c hc i with h | ⟨b, hb, hb'⟩
        · rw [h] at hf
          exact Option.noConfusion hf
        · rw [hb'] at hf
          exact (Option.some.inj hf) ▸ hb
      show (if compare (getNode s nxt).score minS < 0 then scoreWalk s minS i f nxt else c)
          = s.head ∨
        (if compare (getNode s nxt).score minS < 0 then scoreWalk s minS i f nxt else c) ∈ ns
      by_cases hlt : compare (getNode s nxt).score minS < 0
      · rw [if_pos hlt]
        exact ih nxt (Or.inr hnxt)
      · rw [if_neg hlt]
        exact hc

theorem scoreDescend_mem (s : SkipList) (ns : List Nat) (hInv : InvSpine s ns) (minS : ℚ) :
    ∀ (L : List Nat) (c : Nat), (c = s.head ∨ c ∈ ns) →
    (scoreDescend s minS L c = s.head ∨ scoreDescend s minS L c ∈ ns) := by
  intro L
  induction L with
  | nil =>
    intro c hc
    exact hc
  | cons i rest ih =>
    intro c hc
    show scoreDescend s minS rest (scoreWalk s minS i s.nodes.length c) = s.head ∨
      scoreDescend s minS rest (scoreWalk s minS i s.nodes.length c) ∈ ns
    exact ih _ (scoreWalk_mem s ns hInv minS i s.nodes.length c hc)

theorem rbsCollectIds_sublist (s : SkipList) (maxS : ℚ) :
    ∀ (fuel : Nat) (c : Nat) (l : List Nat), isChain s 0 c l →
    List.Sublist (rbsCollectIds s maxS fuel (fwd s c 0)) l := by
  intro fuel
  induction fuel with
  | zero =>
    intro c l _
    exact List.nil_sublist l
  | succ f ih =>
    intro c l hch
    cases hf : fwd s c 0 with
    | none => exact List.nil_sublist l
    | some nxt =>
      cases l with
      | nil =>
        have hno : fwd s c 0 = none := hch
        rw [hf] at hno
        exact Option.noConfusion hno
      | cons y ys =>
        have hy : nxt = y := by
          have h1 : fwd s c 0 = some y := hch.1
          rw [hf] at h1
          exact Option.some.inj h1
        rw [hy]
        show List.Sublist (if compare (getNode s y).score maxS ≤ 0 then
          y :: rbsCollectIds s maxS f (fwd s y 0) else []) (y :: ys)
        by_cases hcc : compare (getNode s y).score maxS ≤ 0
        · rw [if_pos hcc]
          exact List.Sublist.cons₂ y (ih y ys hch.2)
        · rw [if_neg hcc]
          exact List.nil_sublist _

theorem removeByScore_inv (s : SkipList) (minS maxS : ℚ) (h : Inv s) :
    Inv (RemoveByScore s minS maxS).2 := by
  obtain ⟨ns, hInv⟩ := h
  have hRB : (RemoveByScore s minS maxS).2 =
      (rbsCollectIds s maxS s.nodes.length
        (fwd s (scoreDescend s minS ((List.range s.level).reverse) s.head) 0)).foldl
        deleteByNode s := rfl
  rw [hRB]
  have hper : ∀ id ∈ ns, 0 < (getNode s id).level :=
    fun id hid => (hInv.nodesOk id hid).2.2.1
  have hch0 : isChain s 0 s.head ns := by
    have hc := hInv.chains 0 (by norm_num [maxLevel])
    rwa [chainAt_eq_self s ns hper] at hc
  obtain ⟨l, hl_sub, hl_chain⟩ : ∃ l, List.Sublist l ns ∧
      isChain s 0 (scoreDescend s minS ((List.range s.level).reverse) s.head) l := by
    rcases scoreDescend_mem s ns hInv minS ((List.range s.level).reverse) s.head
      (Or.inl rfl) with h | h
    · refine ⟨ns, List.Sublist.refl ns, ?_⟩
      rw [h]
      exact hch0
    · obtain ⟨a, b, hab⟩ := List.append_of_mem h
      refine ⟨b, ?_, ?_⟩
      · rw [hab]
        exact List.Sublist.trans (List.Sublist.cons _ (List.Sublist.refl b))
          (List.sublist_append_right a _)
      · have hcc := hch0
        rw [hab] at hcc
        exact ((isChain_append_iff s 0 s.head _ a b).1 hcc).2
  have hids := rbsCollectIds_sublist s maxS s.nodes.length
    (scoreDescend s minS ((List.range s.level).reverse) s.head) l hl_chain
  have hsubl := hids.trans hl_sub
  exact foldl_deleteByNode_inv _ s ns hInv (fun x hx => hsubl.subset hx)
    (List.Nodup.sublist hsubl (List.nodup_cons.1 hInv.nodup).2)

theorem rankWalk_mem (s : SkipList) (ns : List Nat) (hInv : InvSpine s ns) (rank : Int)
    (i : Nat) : ∀ (fuel c : Nat) (tr : Int),
    ((c = s.head ∧ tr = 0) ∨ c ∈ ns) →
    (((rankWalk s rank i fuel c tr).1 = s.head ∧ (rankWalk s rank i fuel c tr).2 = 0) ∨
      (rankWalk s rank i fuel c tr).1 ∈ ns) := by
  intro fuel
  induction fuel with
  | zero =>
    intro c tr hc
    exact hc
  | succ f ih =>
    intro c tr hc
    have hstep : rankWalk s rank i (f + 1) c tr =
        match fwd s c i with
        | none => (c, tr)
        | some nxt =>
          if tr + spn s c i ≤ rank then rankWalk s rank i f nxt (tr + spn s c i)
          else (c, tr) := rfl
    rw [hstep]
    cases hf : fwd s c i with
    | none => exact hc
    | some nxt =>
      have hmem : c = s.head ∨ c ∈ ns := by
        rcases hc with ⟨h1, _⟩ | h1
        · exact Or.inl h1
        · exact Or.inr h1
      have hnxt : nxt ∈ ns := by
        rcases spine_fwd s ns hInv c hmem i with h | ⟨b, hb, hb'⟩
        · rw [h] at hf
          exact Option.noConfusion hf
        · rw [hb'] at hf
          exact (Option.some.inj hf) ▸ hb
      show ((if tr + spn s c i ≤ rank then rankWalk s rank i f nxt (tr + spn s c i)
          else (c, tr)).1 = s.head ∧
        (if tr + spn s c i ≤ rank then rankWalk s rank i f nxt (tr + spn s c i)
          else (c, tr)).2 = 0) ∨
        (if tr + spn s c i ≤ rank then rankWalk s rank i f nxt (tr + spn s c i)
          else (c, tr)).1 ∈ ns
      by_cases hle : tr + spn s c i ≤ rank
      · rw [if_pos hle]
        exact ih nxt (tr + spn s c i) (Or.inr hnxt)
      · rw [if_neg hle]
        exact hc

theorem rankLoop_mem (s : SkipList) (ns : List Nat) (hInv : InvSpine s ns) (rank : Int) :
    ∀ (L : List Nat) (c : Nat) (tr : Int), ((c = s.head ∧ tr = 0) ∨ c ∈ ns) →
    ∀ x, rankLoop s rank L c tr = some x → (x = s.head ∧ rank = 0) ∨ x ∈ ns := by
  intro L
  induction L with
  | nil =>
    intro c tr hc x hx
    exact Option.noConfusion hx
  | cons i rest ih =>
    intro c tr hc x hx
    have hw := rankWalk_mem s ns hInv rank i s.nodes.length c tr hc
    have hstep : rankLoop s rank (i :: rest) c tr =
        if (rankWalk s rank i s.nodes.length c tr).2 = rank then
          some (rankWalk s rank i s.nodes.length c tr).1
        else rankLoop s rank rest (rankWalk s rank i s.nodes.length c tr).1
          (rankWalk s rank i s.nodes.length c tr).2 := rfl
    rw [hstep] at hx
    by_cases heq : (rankWalk s rank i s.nodes.length c tr).2 = rank
    · rw [if_pos heq] at hx
      have hx1 : x = (rankWalk s rank i s.nodes.length c tr).1 := (Option.some.inj hx).symm
      rcases hw with ⟨h1, h2⟩ | h1
      · refine Or.inl ⟨hx1.trans h1, ?_⟩
        rw [← heq, h2]
      · refine Or.inr ?_
        rw [hx1]
        exact h1
    · rw [if_neg heq] at hx
      exact ih (rankWalk s rank i s.nodes.length c tr).1
        (rankWalk s rank i s.nodes.length c tr).2 hw x hx

theorem getNodeByRankInternal_mem (s : SkipList) (ns : List Nat) (hInv : InvSpine s ns)
    (rank : Int) (x : Nat) (h : getNodeByRankInternal s rank = some x) : x ∈ ns := by
  unfold getNodeByRankInternal at h
  by_cases hcond : rank < 1 ∨ s.length < rank
  · rw [if_pos hcond] at h
    exact Option.noConfusion h
  · rw [if_neg hcond] at h
    rcases rankLoop_mem s ns hInv rank ((List.range s.level).reverse) s.head 0
      (Or.inl ⟨rfl, rfl⟩) x h with ⟨_, hr0⟩ | hmem
    · push_neg at hcond
      exact absurd hr0 (by omega)
    · exact hmem

theorem rbrLoop_inv : ∀ (fuel : Nat) (s : SkipList) (c : Option Nat) (count : Int)
    (ns : List Nat), InvSpine s ns → (∀ x, c = some x → x ∈ ns) →
    Inv (rbrLoop fuel s c count).2 := by
  intro fuel
  induction fuel with
  | zero =>
    intro s c count ns hInv _
    exact ⟨ns, hInv⟩
  | succ f ih =>
    intro s c count ns hInv hc
    cases c with
    | none => exact ⟨ns, hInv⟩
    | some nid =>
      have hmem := hc nid rfl
      obtain ⟨l₁, l₂, hsp⟩ := List.append_of_mem hmem
      rw [hsp] at hInv
      have hD := deleteByNode_inv s l₁ l₂ nid hInv
      show Inv (rbrLoop f (deleteByNode s nid) (fwd s nid 0) (count + 1)).2
      refine ih (deleteByNode s nid) (fwd s nid 0) (count + 1) (l₁ ++ l₂) hD.1 ?_
      intro x hx
      have hper : ∀ id ∈ l₁ ++ nid :: l₂, 0 < (getNode s id).level :=
        fun id hid => (hInv.nodesOk id hid).2.2.1
      have hch0 : isChain s 0 s.head (l₁ ++ nid :: l₂) := by
        have hcc := hInv.chains 0 (by norm_num [maxLevel])
        rwa [chainAt_eq_self s _ hper] at hcc
      have hchn : isChain s 0 nid l₂ := ((isChain_append_iff s 0 s.head nid l₁ l₂).1 hch0).2
      cases l₂ with
      | nil =>
        have hno : fwd s nid 0 = none := hchn
        rw [hno] at hx
        exact Option.noConfusion hx
      | cons y ys =>
        have hxy : x = y := by
          have h1 : fwd s nid 0 = some y := hchn.1
          rw [h1] at hx
          exact (Option.some.inj hx).symm
        rw [hxy]
        exact List.mem_append.2 (Or.inr (List.mem_cons_self y ys))

theorem removeByRank_inv (s : SkipList) (a b : Int) (h : Inv s) :
    Inv (RemoveByRank s a b).2 := by
  obtain ⟨ns, hInv⟩ := h
  have hRR : RemoveByRank s a b =
      (if (if s.length < b then s.length else b) < (if a < 1 then 1 else a) then ((0 : Int), s)
       else rbrLoop ((if s.length < b then s.length else b) - (if a < 1 then 1 else a) + 1).toNat
         s (getNodeByRankInternal s (if a < 1 then 1 else a)) 0) := rfl
  rw [hRR]
  by_cases hc : (if s.length < b then s.length else b) < (if a < 1 then 1 else a)
  · rw [if_pos hc]
    exact ⟨ns, hInv⟩
  · rw [if_neg hc]
    exact rbrLoop_inv _ s (getNodeByRankInternal s (if a < 1 then 1 else a)) 0 ns hInv
      (fun x hx => getNodeByRankInternal_mem s ns hInv _ x hx)

/-! ### Level-0 walk characterizations -/

/-- The level-0 chain through the whole spine. -/
theorem chain0_spine (s : SkipList) (ns : List Nat) (hInv : InvSpine s ns) :
    isChain s 0 s.head ns := by
  have hper : ∀ id ∈ ns, 0 < (getNode s id).level :=
    fun id hid => (hInv.nodesOk id hid).2.2.1
  have hc := hInv.chains 0 (by norm_num [maxLevel])
  rwa [chainAt_eq_self s ns hper] at hc

theorem allLoop_chain (s : SkipList) : ∀ (l : List Nat) (fuel : Nat) (c : Nat),
    isChain s 0 c l → l.length ≤ fuel →
    allLoop s fuel (fwd s c 0) = l.map (fun id => entryOf s id) := by
  intro l
  induction l with
  | nil =>
    intro fuel c hch _
    have hno : fwd s c 0 = none := hch
    rw [hno]
    cases fuel with
    | zero => rfl
    | succ f => rfl
  | cons y ys ih =>
    intro fuel c hch hlen
    rw [hch.1]
    cases fuel with
    | zero => exact absurd hlen (by simp)
    | succ f =>
      show ((getNode s y).score, (getNode s y).member) :: allLoop s f (fwd s y 0) =
        entryOf s y :: ys.map (fun id => entryOf s id)
      rw [ih f y hch.2 (by simp at hlen; omega)]
      rfl

theorem spineLoop_chain (s : SkipList) : ∀ (l : List Nat) (fuel : Nat) (c : Nat),
    isChain s 0 c l → l.length ≤ fuel →
    spineLoop s fuel (fwd s c 0) = l := by
  intro l
  induction l with
  | nil =>
    intro fuel c hch _
    have hno : fwd s c 0 = none := hch
    rw [hno]
    cases fuel with
    | zero => rfl
    | succ f => rfl
  | cons y ys ih =>
    intro fuel c hch hlen
    rw [hch.1]
    cases fuel with
    | zero => exact absurd hlen (by simp)
    | succ f =>
      show y :: spineLoop s f (fwd s y 0) = y :: ys
      rw [ih f y hch.2 (by simp at hlen; omega)]

/-- All is the spine in order. -/
theorem All_spec (s : SkipList) (ns : List Nat) (hInv : InvSpine s ns) :
    All s = ns.map (fun id => entryOf s id) :=
  allLoop_chain s ns s.nodes.length s.head (chain0_spine s ns hInv)
    (le_of_lt (spine_length_lt s ns hInv))

theorem spineIds_spec (s : SkipList) (ns : List Nat) (hInv : InvSpine s ns) :
    spineIds s = ns :=
  spineLoop_chain s ns s.nodes.length s.head (chain0_spine s ns hInv)
    (le_of_lt (spine_length_lt s ns hInv))

/-- Stored members are pairwise distinct along the spine. -/
theorem spine_members_nodup (s : SkipList) (ns : List Nat) (hInv : InvSpine s ns) :
    (ns.map (fun id => (getNode s id).member)).Nodup := by
  refine List.Nodup.map_on ?_ (List.nodup_cons.1 hInv.nodup).2
  intro x hx y hy hxy
  have h1 := (hInv.mm (getNode s y).member x).2 ⟨hx, hxy⟩
  have h2 := (hInv.mm (getNode s y).member y).2 ⟨hy, rfl⟩
  rw [h1] at h2
  exact Option.some.inj h2

/-- A sequence of Insert calls on a fresh list: each element carries the
member, the score and the coin stream of one call. -/
def insertSeq (ops : List (String × ℚ × List Bool)) : SkipList :=
  ops.foldl (fun s op => Insert s op.1 op.2.1 op.2.2) newSkipList

theorem foldl_insert_reachable : ∀ (ops : List (String × ℚ × List Bool)) (s : SkipList),
    Reachable s → Reachable (ops.foldl (fun s op => Insert s op.1 op.2.1 op.2.2) s) := by
  intro ops
  induction ops with
  | nil =>
    intro s h
    exact h
  | cons op rest ih =>
    intro s h
    exact ih (Insert s op.1 op.2.1 op.2.2) (Reachable.insert s op.1 op.2.1 op.2.2 h)

theorem insertSeq_reachable (ops : List (String × ℚ × List Bool)) :
    Reachable (insertSeq ops) :=
  foldl_insert_reachable ops newSkipList Reachable.new

/-! ### Concrete reachable states for the audits -/

/-- {a ↦ 10} with the drawn level 1. -/
def sW1 : SkipList := Insert newSkipList "a" 10 []

/-- {a ↦ 10, b ↦ 20} with b drawn at level 2. -/
def sW2 : SkipList := Insert sW1 "b" 20 [true]

/-- {a ↦ 10, b ↦ 20, c ↦ 30}. -/
def sW3 : SkipList := Insert sW2 "c" 30 []

/-- sW3 after Delete("a", 10): the level-1 node a is removed under the
level-2 node b. -/
def sW4 : SkipList := (Delete sW3 "a" 10).2

theorem sW1_reachable : Reachable sW1 :=
  Reachable.insert newSkipList "a" 10 [] Reachable.new

theorem sW2_reachable : Reachable sW2 :=
  Reachable.insert sW1 "b" 20 [true] sW1_reachable

theorem sW3_reachable : Reachable sW3 :=
  Reachable.insert sW2 "c" 30 [] sW2_reachable

theorem sW4_reachable : Reachable sW4 :=
  Reachable.del sW3 "a" 10 sW3_reachable

/-! ### CountByScore versus RangeByScore -/

theorem entLt_score_le {e f : ℚ × String} (h : entLt e f) : e.1 ≤ f.1 := by
  rcases h with h | ⟨h, _⟩
  · exact le_of_lt h
  · exact le_of_eq h

/-- Splitting a sorted spine at a score threshold. -/
theorem sorted_split_score (s : SkipList) (minS : ℚ) :
    ∀ ns : List Nat, ns.Pairwise (fun a b => entLt (entryOf s a) (entryOf s b)) →
    (∀ x ∈ ns.takeWhile (fun x => decide ((getNode s x).score < minS)),
      (getNode s x).score < minS) ∧
    (∀ x ∈ ns.dropWhile (fun x => decide ((getNode s x).score < minS)),
      ¬ (getNode s x).score < minS) := by
  intro ns
  induction ns with
  | nil =>
    exact fun _ => ⟨fun x hx => absurd hx (List.not_mem_nil x),
      fun x hx => absurd hx (List.not_mem_nil x)⟩
  | cons y ys ih =>
    intro hsorted
    obtain ⟨hy, hys⟩ := List.pairwise_cons.1 hsorted
    by_cases hyk : (getNode s y).score < minS
    · rw [List.takeWhile_cons_of_pos (by simpa using hyk),
        List.dropWhile_cons_of_pos (by simpa using hyk)]
      refine ⟨?_, (ih hys).2⟩
      intro x hx
      rcases List.mem_cons.1 hx with h | h
      · rw [h]
        exact hyk
      · exact (ih hys).1 x h
    · rw [List.takeWhile_cons_of_neg (by simpa using hyk),
        List.dropWhile_cons_of_neg (by simpa using hyk)]
      refine ⟨fun x hx => absurd hx (List.not_mem_nil x), ?_⟩
      intro x hx hc
      rcases List.mem_cons.1 hx with h | h
      · rw [h] at hc
        exact hyk hc
      · exact hyk (lt_of_le_of_lt (entLt_score_le (hy x h)) hc)

/-- The tail of a chain hangs off the last element of any prefix. -/
theorem isChain_suffix (s : SkipList) (i : Nat) :
    ∀ (l₁ : List Nat) (a : Nat) (l₂ : List Nat), isChain s i a (l₁ ++ l₂) →
    isChain s i (l₁.getLastD a) l₂ := by
  intro l₁
  induction l₁ with
  | nil =>
    intro a l₂ h
    exact h
  | cons y ys ih =>
    intro a l₂ h
    rw [getLastD_cons']
    exact ih y l₂ h.2

/-- The forward collection of RangeByScore along a chain is a takeWhile. -/
theorem rbsCollect_chain (s : SkipList) (maxS : ℚ) :
    ∀ (l : List Nat) (fuel : Nat) (c : Nat), isChain s 0 c l → l.length ≤ fuel →
    rbsCollect s maxS fuel (fwd s c 0) =
      (l.takeWhile (fun x => decide (compare (getNode s x).score maxS ≤ 0))).map
        (fun id => entryOf s id) := by
  intro l
  induction l with
  | nil =>
    intro fuel c hch _
    have hno : fwd s c 0 = none := hch
    rw [hno]
    cases fuel with
    | zero => rfl
    | succ f => rfl
  | cons y ys ih =>
    intro fuel c hch hlen
    rw [hch.1]
    cases fuel with
    | zero => exact absurd hlen (by simp)
    | succ f =>
      show (if compare (getNode s y).score maxS ≤ 0 then
          ((getNode s y).score, (getNode s y).member) :: rbsCollect s maxS f (fwd s y 0)
        else []) = _
      by_cases hc : compare (getNode s y).score maxS ≤ 0
      · rw [if_pos hc, List.takeWhile_cons_of_pos (by simpa using hc),
          ih f y hch.2 (by simp at hlen; omega)]
        rfl
      · rw [if_neg hc, List.takeWhile_cons_of_neg (by simpa using hc)]
        rfl

/-- The counting walk of CountByScore counts exactly what the collection
walk of RangeByScore collects. -/
theorem cbsCount_eq_length (s : SkipList) (maxS : ℚ) :
    ∀ (fuel : Nat) (c : Option Nat),
    cbsCount s maxS fuel c = ((rbsCollect s maxS fuel c).length : Int) := by
  intro fuel
  induction fuel with
  | zero =>
    intro c
    rfl
  | succ f ih =>
    intro c
    cases c with
    | none => rfl
    | some nid =>
      show (if compare (getNode s nid).score maxS ≤ 0 then
          cbsCount s maxS f (fwd s nid 0) + 1 else 0) =
        (((if compare (getNode s nid).score maxS ≤ 0 then
          ((getNode s nid).score, (getNode s nid).member) :: rbsCollect s maxS f (fwd s nid 0)
          else []).length : Nat) : Int)
      by_cases hc : compare (getNode s nid).score maxS ≤ 0
      · rw [if_pos hc, if_pos hc, ih (fwd s nid 0)]
        simp only [List.length_cons]
        push_cast
        ring
      · rw [if_neg hc, if_neg hc]
        rfl

/-- On a sorted list, a downward-closed predicate's filter is its
takeWhile. -/
theorem filter_eq_takeWhile_sorted {α : Type} (R : α → α → Prop) (p : α → Bool)
    (hdc : ∀ a b, R a b → p b = true → p a = true) :
    ∀ l : List α, l.Pairwise R → l.filter p = l.takeWhile p := by
  intro l
  induction l with
  | nil => exact fun _ => rfl
  | cons y ys ih =>
    intro hsorted
    obtain ⟨hy, hys⟩ := List.pairwise_cons.1 hsorted
    by_cases hp : p y = true
    · rw [List.filter_cons_of_pos hp, List.takeWhile_cons_of_pos hp, ih hys]
    · rw [List.filter_cons_of_neg hp, List.takeWhile_cons_of_neg hp]
      refine List.filter_eq_nil_iff.2 ?_
      intro x hx hpx
      exact hp (hdc y x (hy x hx) hpx)

/-- The forward RangeByScore returns exactly the stored entries whose
score lies in [min, max], in order. -/
theorem rangeByScore_fwd_spec (s : SkipList) (ns : List Nat) (hInv : InvSpine s ns)
    (minS maxS : ℚ) :
    RangeByScore s minS maxS false =
      (All s).filter (fun e => decide (minS ≤ e.1 ∧ e.1 ≤ maxS)) := by
  obtain ⟨preM, hpre_def⟩ : ∃ p,
      ns.takeWhile (fun x => decide ((getNode s x).score < minS)) = p := ⟨_, rfl⟩
  obtain ⟨sufM, hsuf_def⟩ : ∃ q,
      ns.dropWhile (fun x => decide ((getNode s x).score < minS)) = q := ⟨_, rfl⟩
  obtain ⟨hp, hd⟩ := sorted_split_score s minS ns hInv.sorted
  rw [hpre_def] at hp
  rw [hsuf_def] at hd
  have hsplit : ns = preM ++ sufM := by
    rw [← hpre_def, ← hsuf_def]
    exact (List.takeWhile_append_dropWhile _ ns).symm
  have hdesc : scoreDescend s minS ((List.range s.level).reverse) s.head = landAt s preM 0 :=
    scoreDescend_spec s ns preM sufM minS hInv hsplit hp hd s.level hInv.lvlLB (le_refl _)
      s.head (Or.inl rfl)
  have hRB : RangeByScore s minS maxS false =
      rbsCollect s maxS s.nodes.length
        (fwd s (scoreDescend s minS ((List.range s.level).reverse) s.head) 0) := rfl
  rw [hRB, hdesc]
  have hch := chain0_spine s ns hInv
  rw [hsplit] at hch
  have hperPre : ∀ id ∈ preM, 0 < (getNode s id).level := by
    intro id hid
    exact (hInv.nodesOk id (by rw [hsplit]; exact List.mem_append.2 (Or.inl hid))).2.2.1
  have hland : landAt s preM 0 = preM.getLastD s.head := by
    unfold landAt
    rw [chainAt_eq_self s preM hperPre]
  have hchsuf : isChain s 0 (landAt s preM 0) sufM := by
    rw [hland]
    exact isChain_suffix s 0 preM s.head sufM hch
  have hlensuf : sufM.length ≤ s.nodes.length := by
    have h1 : List.Sublist sufM ns := by
      rw [← hsuf_def]
      exact List.dropWhile_sublist _
    exact le_trans (List.Sublist.length_le h1) (le_of_lt (spine_length_lt s ns hInv))
  rw [rbsCollect_chain s maxS sufM s.nodes.length (landAt s preM 0) hchsuf hlensuf]
  rw [All_spec s ns hInv, List.filter_map, hsplit, List.filter_append]
  have hfpre : preM.filter ((fun e => decide (minS ≤ e.1 ∧ e.1 ≤ maxS)) ∘
      (fun id => entryOf s id)) = [] := by
    refine List.filter_eq_nil_iff.2 ?_
    intro x hx hdec
    simp only [Function.comp_apply, decide_eq_true_eq] at hdec
    exact absurd (hp x hx) (not_lt.2 hdec.1)
  have hfsuf : sufM.filter ((fun e => decide (minS ≤ e.1 ∧ e.1 ≤ maxS)) ∘
      (fun id => entryOf s id)) =
      sufM.filter (fun x => decide (compare (getNode s x).score maxS ≤ 0)) := by
    refine List.filter_congr ?_
    intro x hx
    simp only [Function.comp_apply]
    refine decide_eq_decide.2 ?_
    constructor
    · intro h
      exact (compare_nonpos_iff _ _).2 h.2
    · intro h
      exact ⟨not_lt.1 (hd x hx), (compare_nonpos_iff _ _).1 h⟩
  have hsortedSuf : sufM.Pairwise (fun a b => entLt (entryOf s a) (entryOf s b)) := by
    refine List.Pairwise.sublist ?_ hInv.sorted
    rw [← hsuf_def]
    exact List.dropWhile_sublist _
  have hft : sufM.filter (fun x => decide (compare (getNode s x).score maxS ≤ 0)) =
      sufM.takeWhile (fun x => decide (compare (getNode s x).score maxS ≤ 0)) :=
    filter_eq_takeWhile_sorted (fun a b => entLt (entryOf s a) (entryOf s b)) _
      (fun a b hab hpb => by
        simp only [decide_eq_true_eq] at hpb ⊢
        exact (compare_nonpos_iff _ _).2
          (le_trans (entLt_score_le hab) ((compare_nonpos_iff _ _).1 hpb)))
      sufM hsortedSuf
  rw [hfpre, hfsuf, hft, List.nil_append]

/-! ### GetRank with an understated score -/

/-- When the queried score is strictly below the member's stored score,
the per-level walk never raises the found flag and stays on the spine. -/
theorem getRankLevel_no_flag (s : SkipList) (ns : List Nat) (hInv : InvSpine s ns)
    (member : String) (sc : ℚ) (nid : Nat)
    (hm : mmLookup s.memberMap member = some nid)
    (hlt : sc < (getNode s nid).score) (i : Nat) :
    ∀ (fuel : Nat) (c : Nat) (rank : Int), (c = s.head ∨ c ∈ ns) →
    ((getRankLevel s sc member i fuel c rank).2.2 = false ∧
     ((getRankLevel s sc member i fuel c rank).1 = s.head ∨
      (getRankLevel s sc member i fuel c rank).1 ∈ ns)) := by
  intro fuel
  induction fuel with
  | zero =>
    intro c rank hc
    exact ⟨rfl, hc⟩
  | succ f ih =>
    intro c rank hc
    have hstep : getRankLevel s sc member i (f + 1) c rank =
        match fwd s c i with
        | none => (c, rank, false)
        | some nxt =>
          if compare (getNode s nxt).score sc < 0 ∨
              (compare (getNode s nxt).score sc = 0 ∧ strLe (getNode s nxt).member member) then
            if (getNode s nxt).member = member then (nxt, rank + spn s c i, true)
            else getRankLevel s sc member i f nxt (rank + spn s c i)
          else (c, rank, false) := rfl
    rw [hstep]
    split
    next => exact ⟨rfl, hc⟩
    next nxt hf =>
      have hnxt : nxt ∈ ns := by
        rcases spine_fwd s ns hInv c hc i with h | ⟨b, hb, hb'⟩
        · rw [h] at hf
          exact Option.noConfusion hf
        · rw [hb'] at hf
          exact (Option.some.inj hf) ▸ hb
      by_cases hcond : compare (getNode s nxt).score sc < 0 ∨
          (compare (getNode s nxt).score sc = 0 ∧ strLe (getNode s nxt).member member = true)
      · rw [if_pos hcond]
        by_cases hmem' : (getNode s nxt).member = member
        · exfalso
          have hx := (hInv.mm member nxt).2 ⟨hnxt, hmem'⟩
          rw [hm] at hx
          have hnn : nid = nxt := Option.some.inj hx
          rw [← hnn] at hcond
          rcases hcond with h1 | ⟨h2, _⟩
          · exact lt_asymm hlt ((compare_lt_zero_iff _ _).1 h1)
          · rw [(compare_eq_zero_iff _ _).1 h2] at hlt
            exact lt_irrefl sc hlt
        · rw [if_neg hmem']
          exact ih nxt (rank + spn s c i) (Or.inr hnxt)
      · rw [if_neg hcond]
        exact ⟨rfl, hc⟩

theorem getRankLoop_zero (s : SkipList) (ns : List Nat) (hInv : InvSpine s ns)
    (member : String) (sc : ℚ) (nid : Nat)
    (hm : mmLookup s.memberMap member = some nid)
    (hlt : sc < (getNode s nid).score) :
    ∀ (L : List Nat) (c : Nat) (rank : Int), (c = s.head ∨ c ∈ ns) →
    getRankLoop s sc member L c rank = 0 := by
  intro L
  induction L with
  | nil =>
    intro c rank _
    rfl
  | cons i rest ih =>
    intro c rank hc
    obtain ⟨nrf, hres⟩ : ∃ r, getRankLevel s sc member i s.nodes.length c rank = r := ⟨_, rfl⟩
    obtain ⟨n', r', fl⟩ := nrf
    have hlvl := getRankLevel_no_flag s ns hInv member sc nid hm hlt i
      s.nodes.length c rank hc
    rw [hres] at hlvl
    have hfl : fl = false := hlvl.1
    subst hfl
    show (match getRankLevel s sc member i s.nodes.length c rank with
      | (_, r, true) => r
      | (node', rank', false) => getRankLoop s sc member rest node' rank') = (0 : Int)
    rw [hres]
    show getRankLoop s sc member rest n' r' = 0
    exact ih n' r' hlvl.2

/-- Every state reachable through the public API satisfies the structural
invariant. -/
theorem reachable_inv (s : SkipList) (h : Reachable s) : Inv s := by
  induction h with
  | new => exact ⟨[], newSkipList_inv⟩
  | insert s m sc coins _ ih => exact insertInternal_inv s m sc coins ih
  | del s m sc _ ih => exact delete_inv s m sc ih
  | delByMember s m _ ih => exact deleteByMember_inv s m ih
  | incrBy s m d coins _ ih => exact incrementBy_inv s m d coins ih
  | remByScore s a b _ ih => exact removeByScore_inv s a b ih
  | remByRank s a b _ ih => exact removeByRank_inv s a b ih
  | clear s _ => exact clear_inv s

/-! ### The claims -/

/-- C1: the span invariant (spec invariant 5 / P4) is claimed to hold after
every mutating operation; the executable audit spanAudit states it
verbatim.  It holds after the three Inserts building sW3 but fails in the
reachable state sW4 obtained by one Delete, because deleteNode only
rewires levels below the removed node's own level and leaves the spans of
the taller levels stale. -/
theorem claimC1_spanBug :
    Reachable sW3 ∧ spanAudit sW3 = true ∧
    Reachable sW4 ∧ spanAudit sW4 = false :=
  ⟨sW3_reachable, by decide, sW4_reachable, by decide⟩

/-- C2: any sequence of Inserts from a fresh list leaves All() strictly
ascending in (score, member) order, score first and lexicographic member
as tie-break, with no member repeated. -/
theorem claimC2_insertOrder (ops : List (String × ℚ × List Bool)) :
    (All (insertSeq ops)).Pairwise entLt ∧
    ((All (insertSeq ops)).map Prod.snd).Nodup := by
  obtain ⟨ns, hInv⟩ := reachable_inv _ (insertSeq_reachable ops)
  rw [All_spec _ ns hInv]
  constructor
  · rw [List.pairwise_map]
    exact hInv.sorted
  · rw [List.map_map]
    exact spine_members_nodup _ ns hInv

/-- C3: the rank round-trip GetByRank(GetRank(m, GetScore(m))) = (m, score)
fails in the reachable state sW4: the stale spans left by deleteNode make
GetRank report rank 3 in a list of length 2, and GetByRank rejects it. -/
theorem claimC3_rankRoundTripBug :
    Reachable sW4 ∧ GetScore sW4 "c" = some 30 ∧ GetRank sW4 "c" 30 = 3 ∧
    sW4.length = 2 ∧ GetByRank sW4 (GetRank sW4 "c" 30) = none :=
  ⟨sW4_reachable, by decide, by decide, by decide, by decide⟩

/-- C4: Range(start, stop, false) is claimed to return the 1-based
positions start..stop of All(); in the reachable state sW4 the entries in
level-0 order are [(20, b), (30, c)] but Range(2, 2, false) returns
[(20, b)] instead of [(30, c)], because the span-guided locate lands on
the wrong node after the buggy delete. -/
theorem claimC4_rangeBug :
    Reachable sW4 ∧ All sW4 = [((20 : ℚ), "b"), ((30 : ℚ), "c")] ∧
    Range sW4 2 2 false = [((20 : ℚ), "b")] ∧
    ¬ Range sW4 2 2 false = ((All sW4).drop 1).take 1 :=
  ⟨sW4_reachable, by decide, by decide, by decide⟩

/-- C5: IncrementBy returns exactly (prior score) + delta — that part
holds — but the member's rank afterwards is not consistent with the new
score: in the reachable result state the member holding the largest score
of 3 entries gets GetRank 4, which GetByRank rejects, again because of
the stale spans left by the deleteNode call inside IncrementBy. -/
theorem claimC5_incrementRankBug :
    Reachable (IncrementBy sW3 "a" 25 []).2.2 ∧
    (IncrementBy sW3 "a" 25 []).1 = 35 ∧
    (IncrementBy sW3 "a" 25 []).2.2.length = 3 ∧
    GetRank (IncrementBy sW3 "a" 25 []).2.2 "a" 35 = 4 ∧
    GetByRank (IncrementBy sW3 "a" 25 []).2.2
      (GetRank (IncrementBy sW3 "a" 25 []).2.2 "a" 35) = none := by
  have hm : mmLookup sW3.memberMap "a" = some 1 := by decide
  have hIB : IncrementBy sW3 "a" 25 [] =
      ((getNode sW3 1).score + 25, true,
        insertInternal (deleteByNode sW3 1) "a" ((getNode sW3 1).score + 25) []) := by
    unfold IncrementBy
    rw [hm]
  have hsc : (getNode sW3 1).score = 10 := by decide
  rw [hsc] at hIB
  have h35 : (10 : ℚ) + 25 = 35 := by norm_num
  rw [h35] at hIB
  refine ⟨Reachable.incrBy sW3 "a" 25 [] sW3_reachable, ?_, ?_, ?_, ?_⟩ <;>
    rw [hIB] <;> decide

/-- C6: Delete(m, s) returns false and leaves the state alone when m is
absent or the stored score differs; otherwise it returns true, decrements
the length by one and drops m from the member index. -/
theorem claimC6_delete (s : SkipList) (member : String) (score : ℚ) (h : Inv s) :
    (mmLookup s.memberMap member = none → Delete s member score = (false, s)) ∧
    (∀ nid, mmLookup s.memberMap member = some nid →
      ¬ compare (getNode s nid).score score = 0 → Delete s member score = (false, s)) ∧
    (∀ nid, mmLookup s.memberMap member = some nid →
      compare (getNode s nid).score score = 0 →
      (Delete s member score).1 = true ∧
      (Delete s member score).2.length = s.length - 1 ∧
      mmLookup (Delete s member score).2.memberMap member = none) := by
  refine ⟨?_, ?_, ?_⟩
  · intro hm
    unfold Delete
    rw [hm]
  · intro nid hm hsc
    unfold Delete
    rw [hm]
    show (if ¬ compare (getNode s nid).score score = 0 then ((false : Bool), s)
      else (true, deleteByNode s nid)) = (false, s)
    rw [if_pos hsc]
  · intro nid hm hsc
    have hD : Delete s member score = (true, deleteByNode s nid) := by
      unfold Delete
      rw [hm]
      show (if ¬ compare (getNode s nid).score score = 0 then ((false : Bool), s)
        else (true, deleteByNode s nid)) = (true, deleteByNode s nid)
      rw [if_neg (not_not_intro hsc)]
    rw [hD]
    obtain ⟨ns, hInv⟩ := h
    have hnid := (hInv.mm member nid).1 hm
    obtain ⟨l₁, l₂, hsp⟩ := List.append_of_mem hnid.1
    rw [hsp] at hInv
    obtain ⟨_, _, _, _, _, hlen, hmm⟩ := deleteByNode_inv s l₁ l₂ nid hInv
    refine ⟨rfl, hlen, ?_⟩
    show mmLookup (deleteByNode s nid).memberMap member = none
    rw [hmm, hnid.2]
    exact mmLookup_erase_self s.memberMap member

theorem claimC6_witness :
    (Delete sW3 "a" 10).1 = true ∧ (Delete sW3 "a" 10).2.length = sW3.length - 1 ∧
    mmLookup (Delete sW3 "a" 10).2.memberMap "a" = none :=
  (claimC6_delete sW3 "a" 10 (reachable_inv sW3 sW3_reachable)).2.2 1 (by decide) (by decide)

/-- C7 as frozen says GetRank(m, s) returns 0 for EVERY s that differs
from the stored score; it does not: querying sW1's member a (stored 10)
with the larger score 20 still lands on a and returns rank 1, because the
search key (20, "a") sorts after (10, "a") and the walk passes through
the member's node. -/
theorem claimC7_counterexample :
    Reachable sW1 ∧ mmLookup sW1.memberMap "a" = some 1 ∧
    (getNode sW1 1).score = 10 ∧ ¬ ((20 : ℚ) = 10) ∧ ¬ GetRank sW1 "a" 20 = 0 :=
  ⟨sW1_reachable, by decide, by decide, by decide, by decide⟩

/-- C7 (amended): GetRank(m, s) returns 0 (not found) for every queried
score s strictly LESS than m's stored score — the search key then sorts
before the member's node, so the walk never reaches it. -/
theorem claimC7_underRank (s : SkipList) (member : String) (sc : ℚ)
    (h : Reachable s) (nid : Nat) (hm : mmLookup s.memberMap member = some nid)
    (hlt : sc < (getNode s nid).score) : GetRank s member sc = 0 := by
  obtain ⟨ns, hInv⟩ := reachable_inv s h
  exact getRankLoop_zero s ns hInv member sc nid hm hlt
    ((List.range s.level).reverse) s.head 0 (Or.inl rfl)

theorem claimC7_witness : GetRank sW3 "a" 5 = 0 :=
  claimC7_underRank sW3 "a" 5 sW3_reachable 1 (by decide) (by decide)

/-- C8: randomLevel always lies in [1, 32], and in every reachable state
the current level lies in [1, 32], the head sentinel's forward and span
arrays have size 32, and every live node's level is in [1, currentLevel]
with forward/span arrays of exactly that size — so the traversal and
rewiring loops, which index level i < currentLevel into head and
i < node.level into nodes, stay in bounds. -/
theorem claimC8_levelBounds (coins : List Bool) (s : SkipList) (h : Reachable s) :
    1 ≤ randomLevel coins ∧ randomLevel coins ≤ maxLevel ∧
    1 ≤ s.level ∧ s.level ≤ maxLevel ∧
    s.head < s.nodes.length ∧
    (getNode s s.head).forward.length = maxLevel ∧
    (getNode s s.head).span.length = maxLevel ∧
    (∀ id ∈ spineIds s, 1 ≤ (getNode s id).level ∧ (getNode s id).level ≤ s.level ∧
      (getNode s id).forward.length = (getNode s id).level ∧
      (getNode s id).span.length = (getNode s id).level) := by
  obtain ⟨ns, hInv⟩ := reachable_inv s h
  refine ⟨randomLevel_pos coins, randomLevel_le coins, hInv.lvlLB, hInv.lvlUB,
    hInv.headLt, hInv.headFwdLen, hInv.headSpnLen, ?_⟩
  intro id hid
  rw [spineIds_spec s ns hInv] at hid
  obtain ⟨_, _, h3, h4, h5, h6⟩ := hInv.nodesOk id hid
  exact ⟨h3, h4, h5, h6⟩

theorem claimC8_witness :
    1 ≤ randomLevel [true, true] ∧ randomLevel [true, true] ≤ maxLevel ∧
    1 ≤ sW2.level ∧ sW2.level ≤ maxLevel ∧
    sW2.head < sW2.nodes.length ∧
    (getNode sW2 sW2.head).forward.length = maxLevel ∧
    (getNode sW2 sW2.head).span.length = maxLevel ∧
    (∀ id ∈ spineIds sW2, 1 ≤ (getNode sW2 id).level ∧
      (getNode sW2 id).level ≤ sW2.level ∧
      (getNode sW2 id).forward.length = (getNode sW2 id).level ∧
      (getNode sW2 id).span.length = (getNode sW2 id).level) :=
  claimC8_levelBounds [true, true] sW2 sW2_reachable

/-- C9: the not-found paths of Delete (member absent, or stored score
mismatched) and DeleteByMember (member absent) return false together with
the input state itself, so length, level, tail, arena and index are all
exactly as before. -/
theorem claimC9_notFoundFrame (s : SkipList) (member : String) (score : ℚ) :
    (mmLookup s.memberMap member = none →
      Delete s member score = (false, s) ∧ DeleteByMember s member = (false, s)) ∧
    (∀ nid, mmLookup s.memberMap member = some nid →
      ¬ compare (getNode s nid).score score = 0 →
      Delete s member score = (false, s)) := by
  constructor
  · intro hm
    constructor
    · unfold Delete
      rw [hm]
    · unfold DeleteByMember
      rw [hm]
  · intro nid hm hsc
    unfold Delete
    rw [hm]
    show (if ¬ compare (getNode s nid).score score = 0 then ((false : Bool), s)
      else (true, deleteByNode s nid)) = (false, s)
    rw [if_pos hsc]

theorem claimC9_witness :
    Delete sW3 "zzz" 5 = (false, sW3) ∧ DeleteByMember sW3 "zzz" = (false, sW3) :=
  (claimC9_notFoundFrame sW3 "zzz" 5).1 (by decide)

/-- C10: CountByScore(min, max) counts exactly the entries the forward
RangeByScore(min, max) returns; that collection is exactly the filter of
All() to scores in the inclusive interval [min, max]; and both are
empty/zero when min > max. -/
theorem claimC10_countRange (s : SkipList) (h : Reachable s) (minS maxS : ℚ) :
    CountByScore s minS maxS = ((RangeByScore s minS maxS false).length : Int) ∧
    RangeByScore s minS maxS false =
      (All s).filter (fun e => decide (minS ≤ e.1 ∧ e.1 ≤ maxS)) ∧
    (maxS < minS → RangeByScore s minS maxS false = [] ∧ CountByScore s minS maxS = 0) := by
  obtain ⟨ns, hInv⟩ := reachable_inv s h
  have h2 := rangeByScore_fwd_spec s ns hInv minS maxS
  have h1 : CountByScore s minS maxS = ((RangeByScore s minS maxS false).length : Int) := by
    have hCB : CountByScore s minS maxS =
        cbsCount s maxS s.nodes.length
          (fwd s (scoreDescend s minS ((List.range s.level).reverse) s.head) 0) := rfl
    have hRB : RangeByScore s minS maxS false =
        rbsCollect s maxS s.nodes.length
          (fwd s (scoreDescend s minS ((List.range s.level).reverse) s.head) 0) := rfl
    rw [hCB, hRB]
    exact cbsCount_eq_length s maxS s.nodes.length _
  refine ⟨h1, h2, ?_⟩
  intro hlt
  have hempty : RangeByScore s minS maxS false = [] := by
    rw [h2]
    refine List.filter_eq_nil_iff.2 ?_
    intro e he hdec
    simp only [decide_eq_true_eq] at hdec
    exact absurd (le_trans hdec.1 hdec.2) (not_le.2 hlt)
  refine ⟨hempty, ?_⟩
  rw [h1, hempty]
  rfl

theorem claimC10_witness :
    CountByScore sW3 15 35 = ((RangeByScore sW3 15 35 false).length : Int) ∧
    RangeByScore sW3 15 35 false =
      (All sW3).filter (fun e => decide ((15 : ℚ) ≤ e.1 ∧ e.1 ≤ 35)) ∧
    ((35 : ℚ) < 15 → RangeByScore sW3 15 35 false = [] ∧ CountByScore sW3 15 35 = 0) :=
  claimC10_countRange sW3 sW3_reachable 15 35

end Csort
